import Mathlib

/-! The dictionary trie and the error-tolerant search of dym.

A shallow embedding of `Tri.hpp`, `Tri.tpp.hpp`, `Searcher.hpp`,
`CorrectionSearcher.hpp`, `CorrectionSearcher.tpp.hpp`, of the ranking and the corpus
reading of `Suggest.hpp`, of the parsers of `CorpusParser.hpp`,
`ProbabilityCorpusParser.hpp` and `SimpleCorpusParser.hpp`, and of the flag parser of
`IO.cpp`.

Modelling conventions

* A byte (`unsigned char`, or a `char` of a `std::string`) is a natural number, below 256
  in every string of a program; a `std::string` is a list of bytes. A `char` that is
  converted to an `unsigned char` (a key of `std::map::find`, an argument of
  `_transpositionItem`) keeps its byte.
* Whether `char` is a signed type is fixed by the build; the field `signedChar` of a
  `Searcher` says so. The source compares the `char` `*putMeLeft` with the
  `unsigned char` `transChar` after the integer promotions: where `char` is signed, a
  byte from 128 on is a negative number and equals no `unsigned char`; where it is
  unsigned, the comparison is that of the two bytes (`Searcher.charEq`). A theorem with
  a parameter `sc` for `signedChar` holds on both kinds of build.
* `std::map<unsigned char, state_T>` is an association list kept in ascending key order
  (the iteration order of `std::map`).
* `std::unordered_map<state_T, value_T>` (the values map) is a function into `Option`.
* `std::unordered_map<std::string, std::pair<unsigned, unsigned>>` (the hit table) is an
  association list in order of insertion; the iteration order of the source container is
  unspecified.
* `std::vector<std::unique_ptr<State>>` is a list of states; `v[i]` is `List.getD` with a
  fresh `State` as the out-of-range value (the index is in range on every trie built
  by `insert`.)
* A `std::string::const_iterator` into the query is its offset from `cbegin()`.
  The source dereferences such iterators at and past `cend()`; the bytes found there are
  given by a function `mem` from offsets to bytes, about which nothing is assumed.
* `throw` is `none` in the trie and the search; in the parsers it is the `error` of
  `Except`, with one constructor for each exception.
* `isalpha` and `isdigit` are those of the "C" locale: the ASCII letters and digits.
* A corpus file is the list of the lines that `std::getline` yields.
* A finite `double` is the rational number it stands for (negative zero is the
  number 0). `std::stod` reads the decimal text with `strtod` and rounds its value to the
  nearest `double`, a tie to the even significand (`binary64`); it throws
  `std::invalid_argument` on a text without a digit and `std::out_of_range` where
  `strtod` sets `ERANGE`: on overflow, and on a result below the least normal number
  that is not exact. The texts that reach `std::stod` hold no exponent.
* The flag word of `param_t` is a natural number with the bit operations of `Nat`.
* The payload type `double` of `Suggest` is a linearly ordered type (the corpus parsers
  produce no NaN); the example dictionaries use rational payloads.
* `std::sort` leaves the order of equivalent elements open; `stdSort` keeps them in the
  order of the input, as insertion sort does.
-/

namespace Dym

/-! ## Transition tables -/

/-- The type `transitions_T`, a `std::map<unsigned char, state_T>`. -/
abbrev Transitions := List (Nat × Nat)

/-- The member `std::map::find`, as an option. -/
def Transitions.find : Transitions → Nat → Option Nat
  | [], _ => none
  | (k, d) :: rest, c => if k = c then some d else Transitions.find rest c

/-- The assignment `m[c] = d` of `std::map`. -/
def Transitions.assign : Transitions → Nat → Nat → Transitions
  | [], c, d => [(c, d)]
  | (k, e) :: rest, c, d =>
    if k < c then (k, e) :: Transitions.assign rest c d
    else if k = c then (c, d) :: rest
    else (c, d) :: (k, e) :: rest

/-! ## The trie -/

/-- The struct `Tri::State`. -/
structure State where
  endState : Bool
  transitions : Transitions
deriving DecidableEq, Repr

/-- The constructor `State()`: not an end state, no transitions. -/
def State.new : State := ⟨false, []⟩

/-- The class `Tri<value_T>`: the state vector `_v` and the map `_values`. -/
structure Tri (V : Type) where
  v : List State
  values : Nat → Option V

/-- The largest `unsigned int`, written `(unsigned int)~0` in the source. -/
def uintMax : Nat := 4294967295

/-- The constructor `Tri()`: one fresh state, no values. -/
def Tri.empty (V : Type) : Tri V := ⟨[State.new], fun _ => none⟩

/-- The expression `*_v[i]`. -/
def Tri.stateAt {V : Type} (t : Tri V) (i : Nat) : State := t.v.getD i State.new

/-- The function `Tri::getStates`: the size of `_v` as an `unsigned int`. -/
def Tri.getStates {V : Type} (t : Tri V) : Nat := t.v.length % (uintMax + 1)

/-- The function `Tri::_newStatef`: fails when `getStates()` is the largest
`unsigned int`, otherwise pushes a fresh state and returns its index. -/
def Tri.newStatef {V : Type} (t : Tri V) : Option (Nat × Tri V) :=
  let n := t.getStates
  if n = uintMax then none
  else some (n, { t with v := t.v ++ [State.new] })

/-- The assignment `(*currentTransitions)[c] = d` where `currentTransitions` points to
the transitions of state `s`. -/
def Tri.setTransition {V : Type} (t : Tri V) (s c d : Nat) : Tri V :=
  { t with v := t.v.set s { t.stateAt s with transitions := (t.stateAt s).transitions.assign c d } }

/-- The `for` loop of `Tri::insert`: walks the key from `currentState`, creating a state
and a transition wherever none exists; returns the trie and the state it is left in. -/
def Tri.insertWalk {V : Type} : Tri V → Nat → List Nat → Option (Tri V × Nat)
  | t, currentState, [] => some (t, currentState)
  | t, currentState, c :: rest =>
    match (t.stateAt currentState).transitions.find c with
    | some next => Tri.insertWalk t next rest
    | none =>
      match t.newStatef with
      | none => none
      | some (n, t1) => Tri.insertWalk (t1.setTransition currentState c n) n rest

/-- The function `Tri::insert(key, newValue)`. -/
def Tri.insert {V : Type} (t : Tri V) (key : List Nat) (newValue : V) : Option (Tri V) :=
  match t.insertWalk 0 key with
  | none => none
  | some (t1, currentState) =>
    some { v := t1.v.set currentState { t1.stateAt currentState with endState := true },
           values := fun s => if s = currentState then some newValue else t1.values s }

/-- The `for` loop of `Tri::unsafeGet`: the state reached from `currentState` by the key,
or `none` where the source returns `NULL` from inside the loop. -/
def Tri.getWalk {V : Type} (t : Tri V) : Nat → List Nat → Option Nat
  | currentState, [] => some currentState
  | currentState, c :: rest =>
    match (t.stateAt currentState).transitions.find c with
    | some next => Tri.getWalk t next rest
    | none => none

/-- The function `Tri::unsafeGet`; `none` is the `NULL` pointer. -/
def Tri.unsafeGet {V : Type} (t : Tri V) (key : List Nat) : Option V :=
  match t.getWalk 0 key with
  | none => none
  | some currentState =>
    if (t.stateAt currentState).endState then t.values currentState else none

/-- Successive calls of `Tri::insert` for a list of pairs, as `Suggest::_readCorpus`
makes them. -/
def Tri.insertAll {V : Type} : Tri V → List (List Nat × V) → Option (Tri V)
  | t, [] => some t
  | t, (k, x) :: rest =>
    match t.insert k x with
    | none => none
    | some t1 => Tri.insertAll t1 rest

/-! ## The correction searcher -/

/-- The struct `CorrectionSearcher::item`. -/
structure Item where
  stateData : State
  state : Nat
  editDistance : Nat
  nextChar : Nat
  candidate : List Nat
deriving DecidableEq, Repr

/-- The type `Searcher::result_type`: candidate to (state, edit distance). -/
abbrev Results := List (List Nat × (Nat × Nat))

/-- The member `std::unordered_map::find` of the hit table. -/
def Results.find : Results → List Nat → Option (Nat × Nat)
  | [], _ => none
  | (k, p) :: rest, key => if k = key then some p else Results.find rest key

/-- The member `std::unordered_map::insert` of the hit table: an entry is added only
when the table holds none with that key. -/
def Results.insert (r : Results) (key : List Nat) (p : Nat × Nat) : Results :=
  match r.find key with
  | some _ => r
  | none => r ++ [(key, p)]

/-- The fields of a `CorrectionSearcher` that do not change during a search, together
with the bytes `mem` that lie at and after the end of `_word`, and with the choice of
the build whether `char` is a signed type. -/
structure Searcher where
  word : List Nat
  cutoffDistance : Nat
  mem : Nat → Nat
  signedChar : Bool

/-- The expression `*i` for an iterator `i` at offset `i` of `_word`. -/
def Searcher.deref (sr : Searcher) (i : Nat) : Nat := sr.word.getD i (sr.mem i)

/-- The comparison `c == b` of a `char` that holds the byte `c` with an `unsigned char`
`b`. Both are promoted to `int`: where `char` is signed, a byte from 128 on is the
negative number `c - 256`, which equals no `unsigned char`. -/
def Searcher.charEq (sr : Searcher) (c b : Nat) : Prop :=
  c = b ∧ (sr.signedChar = true → c < 128)

instance Searcher.decidableCharEq (sr : Searcher) (c b : Nat) : Decidable (sr.charEq c b) :=
  inferInstanceAs (Decidable (c = b ∧ (sr.signedChar = true → c < 128)))

/-- The function `_noopItem`. -/
def noopItem (transChar : Nat) (newStateData : State) (newState : Nat) (top : Item) : Item :=
  ⟨newStateData, newState, top.editDistance, top.nextChar + 1, top.candidate ++ [transChar]⟩

/-- The function `_substitutionItem`. -/
def substitutionItem (transChar : Nat) (newStateData : State) (newState : Nat) (top : Item) :
    Item :=
  ⟨newStateData, newState, top.editDistance + 1, top.nextChar + 1, top.candidate ++ [transChar]⟩

/-- The function `_insertionItem`. -/
def insertionItem (transChar : Nat) (newStateData : State) (newState : Nat) (top : Item) :
    Item :=
  ⟨newStateData, newState, top.editDistance + 1, top.nextChar, top.candidate ++ [transChar]⟩

/-- The function `_deletionItem`. -/
def deletionItem (newStateData : State) (newState : Nat) (top : Item) : Item :=
  ⟨newStateData, newState, top.editDistance + 1, top.nextChar + 1, top.candidate⟩

/-- The function `_transpositionItem`. -/
def transpositionItem (thisWasPutLeft thisWasPutRight : Nat) (newStateData : State)
    (newState : Nat) (top : Item) : Item :=
  ⟨newStateData, newState, top.editDistance + 1, top.nextChar + 2,
    top.candidate ++ [thisWasPutLeft] ++ [thisWasPutRight]⟩

/-- The function `_pushEditOperations`; the stack is a list whose head is the top. -/
def pushEditOperations (sr : Searcher) (v : List State) (transChar nextState : Nat)
    (top : Item) (s : List Item) : List Item :=
  let putMeLeft := top.nextChar + 1
  let s1 :=
    if putMeLeft ≠ sr.word.length ∧ sr.charEq (sr.deref putMeLeft) transChar then
      let putMeRight := sr.deref top.nextChar
      match (v.getD nextState State.new).transitions.find putMeRight with
      | some after =>
        transpositionItem (sr.deref putMeLeft) putMeRight (v.getD after State.new) after top :: s
      | none => s
    else s
  insertionItem transChar (v.getD nextState State.new) nextState top ::
    substitutionItem transChar (v.getD nextState State.new) nextState top :: s1

/-- The function `initialItem`. -/
def initialItem (startState : Nat) (v : List State) : Item :=
  ⟨v.getD startState State.new, startState, 0, 0, []⟩

/-- The first block of `feedStack`: the update of `_results`. -/
def recordResult (sr : Searcher) (top : Item) (results : Results) : Results :=
  if top.nextChar = sr.word.length ∧ top.stateData.endState = true then
    match results.find top.candidate with
    | none => results.insert top.candidate (top.state, top.editDistance)
    | some p =>
      if p.2 > top.editDistance then results.insert top.candidate (top.state, top.editDistance)
      else results
  else results

/-- The second block of `feedStack`: the NoOp push. -/
def pushNoop (sr : Searcher) (v : List State) (top : Item) (s : List Item) : List Item :=
  if top.nextChar ≠ sr.word.length then
    match top.stateData.transitions.find (sr.deref top.nextChar) with
    | some found => noopItem (sr.deref top.nextChar) (v.getD found State.new) found top :: s
    | none => s
  else s

/-- The third block of `feedStack`: deletion, then the edit operations of every
transition of the state in the order of the map. -/
def pushEdits (sr : Searcher) (v : List State) (top : Item) (s : List Item) : List Item :=
  if top.editDistance < sr.cutoffDistance then
    let s1 := if top.nextChar ≠ sr.word.length then
      deletionItem top.stateData top.state top :: s else s
    top.stateData.transitions.foldl (fun acc t => pushEditOperations sr v t.1 t.2 top acc) s1
  else s

/-- The function `CorrectionSearcher::feedStack`: the new stack and the new hit table. -/
def feedStack (sr : Searcher) (v : List State) (top : Item) (s : List Item)
    (results : Results) : List Item × Results :=
  (pushEdits sr v top (pushNoop sr v top s), recordResult sr top results)

/-- The loop of `Tri::tolerantFindWith`, for at most `fuel` pops; `none` when the stack
is not empty after that many. -/
def searchLoop (sr : Searcher) (v : List State) : Nat → List Item → Results → Option Results
  | _, [], results => some results
  | 0, _ :: _, _ => none
  | fuel + 1, top :: s, results =>
    let next := feedStack sr v top s results
    searchLoop sr v fuel next.1 next.2

/-- The struct `Tri::TolerantResult`. -/
structure TolerantResult (V : Type) where
  first : List Nat
  second : V
  editDistance : Nat
deriving DecidableEq, Repr

/-- The packaging loop of `Tri::tolerantFindWith`; `_values.at` throws when the state has
no value. -/
def packageResults {V : Type} (values : Nat → Option V) :
    Results → Option (List (TolerantResult V))
  | [] => some []
  | (k, p) :: rest =>
    match values p.1, packageResults values rest with
    | some x, some out => some (⟨k, x, p.2⟩ :: out)
    | _, _ => none

/-- The largest number of transitions of a state. -/
def maxDegree (v : List State) : Nat := (v.map fun s => s.transitions.length).foldr max 0

/-- A number of pops that the loop of `tolerantFindWith` never exceeds on a trie built
by `insert`. -/
def searchFuel (v : List State) (cutoff : Nat) : Nat :=
  (3 * maxDegree v + 3) ^ ((cutoff + 1) * (v.length + 1))

/-- The function `Tri::tolerantFindWith` for a `CorrectionSearcher`. -/
def Tri.tolerantFindWith {V : Type} (t : Tri V) (sr : Searcher) :
    Option (List (TolerantResult V)) :=
  match searchLoop sr t.v (searchFuel t.v sr.cutoffDistance) [initialItem 0 t.v] [] with
  | none => none
  | some results => packageResults t.values results

/-- The function `Tri::tolerantFind(key, editDistance)`. -/
def Tri.tolerantFind {V : Type} (mem : Nat → Nat) (signedChar : Bool) (t : Tri V)
    (key : List Nat) (editDistance : Nat) : Option (List (TolerantResult V)) :=
  t.tolerantFindWith ⟨key, editDistance, mem, signedChar⟩


/-! ## Well-formed tries -/

/-- The transition of state `s` on byte `c`. -/
def Tri.delta {V : Type} (t : Tri V) (s c : Nat) : Option Nat :=
  (t.stateAt s).transitions.find c

/-- The structural invariant of the state vector: the number of states fits an
`unsigned int`, every transition leads to a valid state with a larger index, no state has
two incoming transitions, and every transition table is in ascending key order. -/
structure Tri.StructWF {V : Type} (t : Tri V) : Prop where
  size_pos : 0 < t.v.length
  size_le : t.v.length ≤ uintMax
  edge_lt : ∀ s c d, t.delta s c = some d → s < d ∧ d < t.v.length
  edge_inj : ∀ s c s' c' d, t.delta s c = some d → t.delta s' c' = some d → s = s' ∧ c = c'
  sorted : ∀ s, ((t.stateAt s).transitions.map Prod.fst).Pairwise (· < ·)

/-- The invariant of a trie: the structural invariant, and a state has a value exactly
when it is an end state. -/
structure Tri.WF {V : Type} (t : Tri V) : Prop where
  struct : t.StructWF
  values_iff : ∀ s, (t.stateAt s).endState = true ↔ (t.values s).isSome = true

/-- The tries a program can hold: the empty trie and the results of `insert`. -/
inductive Tri.Built {V : Type} : Tri V → Prop
  | empty : Tri.Built (Tri.empty V)
  | insert {t t1 : Tri V} (key : List Nat) (x : V) :
      Tri.Built t → t.insert key x = some t1 → Tri.Built t1


/-! ## Example tries -/

/-- A trie holding `cat ↦ 1` and `car ↦ 2`. -/
def catCar : Tri Nat :=
  ((Tri.empty Nat).insertAll [([99, 97, 116], 1), ([99, 97, 114], 2)]).getD (Tri.empty Nat)

/-- The trie `catCar` after `insert(cat, 5)`. -/
def catCar5 : Tri Nat := (catCar.insert [99, 97, 116] 5).getD (Tri.empty Nat)

/-- The trie `catCar` after `insert(cat, 5)` and `insert(cat, 7)`. -/
def catCar57 : Tri Nat := (catCar5.insert [99, 97, 116] 7).getD (Tri.empty Nat)

/-- A trie holding `a ↦ 7`. -/
def triA : Tri Nat := ((Tri.empty Nat).insert [97] 7).getD (Tri.empty Nat)

/-- A trie holding `abc ↦ 1`. -/
def triAbc : Tri Nat := ((Tri.empty Nat).insert [97, 98, 99] 1).getD (Tri.empty Nat)

/-- A trie holding `cat ↦ 1`. -/
def triCat : Tri Nat := ((Tri.empty Nat).insert [99, 97, 116] 1).getD (Tri.empty Nat)

/-- Memory that holds zero bytes after the end of the query. -/
def zeroMem : Nat → Nat := fun _ => 0

/-! ## The search as a transition system -/

/-- The items that `feedStack` pushes for `top`, the last pushed first. -/
def successors (sr : Searcher) (v : List State) (top : Item) : List Item :=
  pushEdits sr v top (pushNoop sr v top [])

/-- The pushes of `feedStack` for `top`, one constructor for each kind of item. -/
inductive Step (sr : Searcher) (v : List State) (top : Item) : Item → Prop
  | noop (found : Nat) :
      top.nextChar ≠ sr.word.length →
      top.stateData.transitions.find (sr.deref top.nextChar) = some found →
      Step sr v top (noopItem (sr.deref top.nextChar) (v.getD found State.new) found top)
  | deletion :
      top.editDistance < sr.cutoffDistance → top.nextChar ≠ sr.word.length →
      Step sr v top (deletionItem top.stateData top.state top)
  | transposition (c d after : Nat) :
      top.editDistance < sr.cutoffDistance → (c, d) ∈ top.stateData.transitions →
      top.nextChar + 1 ≠ sr.word.length → sr.charEq (sr.deref (top.nextChar + 1)) c →
      (v.getD d State.new).transitions.find (sr.deref top.nextChar) = some after →
      Step sr v top (transpositionItem (sr.deref (top.nextChar + 1)) (sr.deref top.nextChar)
        (v.getD after State.new) after top)
  | substitution (c d : Nat) :
      top.editDistance < sr.cutoffDistance → (c, d) ∈ top.stateData.transitions →
      Step sr v top (substitutionItem c (v.getD d State.new) d top)
  | insertion (c d : Nat) :
      top.editDistance < sr.cutoffDistance → (c, d) ∈ top.stateData.transitions →
      Step sr v top (insertionItem c (v.getD d State.new) d top)

/-- Item `b` is `a`, or is pushed while an item reached from `a` is expanded. -/
def Reach (sr : Searcher) (v : List State) : Item → Item → Prop :=
  Relation.ReflTransGen (fun a b => b ∈ successors sr v a)

/-- The items that are ever on the stack of a search: those reached from the initial
item. -/
def Pushed (sr : Searcher) (v : List State) (it : Item) : Prop :=
  Reach sr v (initialItem 0 v) it

/-- The test of the first block of `feedStack`: the query is consumed and the state is
an end state. -/
def Item.accepting (sr : Searcher) (it : Item) : Prop :=
  it.nextChar = sr.word.length ∧ it.stateData.endState = true

instance Item.decidableAccepting (sr : Searcher) (it : Item) : Decidable (it.accepting sr) :=
  inferInstanceAs (Decidable (it.nextChar = sr.word.length ∧ it.stateData.endState = true))

/-- An entry of the hit table stems from an accepting item that was on the stack. -/
def Hit (sr : Searcher) (v : List State) (e : List Nat × (Nat × Nat)) : Prop :=
  ∃ it, Pushed sr v it ∧ it.accepting sr ∧ it.candidate = e.1 ∧ it.state = e.2.1 ∧
    it.editDistance = e.2.2

/-- The keys of a hit table. -/
def Results.keys (r : Results) : List (List Nat) := r.map Prod.fst

/-- The rank of an item: it decreases with every push on a well-formed trie. -/
def Item.rank (sr : Searcher) (v : List State) (it : Item) : Nat :=
  (sr.cutoffDistance - it.editDistance) * (v.length + 1) + (v.length - it.state)

/-- A bound on the number of pops that an item on the stack causes. -/
def Item.weight (sr : Searcher) (v : List State) (it : Item) : Nat :=
  (3 * maxDegree v + 3) ^ it.rank sr v

/-- What holds of every item on the stack of a search in a well-formed trie. -/
structure Item.Good (sr : Searcher) (v : List State) (it : Item) : Prop where
  data : it.stateData = v.getD it.state State.new
  state_lt : it.state < v.length
  edits_le : it.editDistance ≤ sr.cutoffDistance

/-! ## Edit distances -/

/-- One edit operation on a byte string: the insertion of a byte, the deletion of a byte,
the substitution of a byte by a different one, or the transposition of two adjacent
distinct bytes. -/
inductive EditStep : List Nat → List Nat → Prop
  | insertion (l r : List Nat) (x : Nat) : EditStep (l ++ r) (l ++ x :: r)
  | deletion (l r : List Nat) (x : Nat) : EditStep (l ++ x :: r) (l ++ r)
  | substitution (l r : List Nat) (x y : Nat) :
      x ≠ y → EditStep (l ++ x :: r) (l ++ y :: r)
  | transposition (l r : List Nat) (x y : Nat) :
      x ≠ y → EditStep (l ++ x :: y :: r) (l ++ y :: x :: r)

/-- A sequence of `n` edit operations that transforms the first string into the
second. -/
inductive EditChain : Nat → List Nat → List Nat → Prop
  | nil (a : List Nat) : EditChain 0 a a
  | cons {n : Nat} {a b c : List Nat} : EditStep a b → EditChain n b c → EditChain (n + 1) a c

/-- The Damerau-Levenshtein distance of `a` and `b` is at most `k`: at most `k` edit
operations transform `a` into `b`. -/
def DLWithin (k : Nat) (a b : List Nat) : Prop := ∃ n, n ≤ k ∧ EditChain n a b

/-- An alignment of cost `n` of two strings in which no substring is edited more than once:
the optimal-string-alignment (restricted Damerau-Levenshtein) distance of `a` and `b` is
the least such `n`. -/
inductive OSA : Nat → List Nat → List Nat → Prop
  | nil : OSA 0 [] []
  | keep {n : Nat} {a b : List Nat} (x : Nat) : OSA n a b → OSA n (x :: a) (x :: b)
  | substitution {n : Nat} {a b : List Nat} (x y : Nat) :
      OSA n a b → OSA (n + 1) (x :: a) (y :: b)
  | insertion {n : Nat} {a b : List Nat} (y : Nat) : OSA n a b → OSA (n + 1) a (y :: b)
  | deletion {n : Nat} {a b : List Nat} (x : Nat) : OSA n a b → OSA (n + 1) (x :: a) b
  | transposition {n : Nat} {a b : List Nat} (x y : Nat) :
      OSA n a b → OSA (n + 1) (x :: y :: a) (y :: x :: b)

/-- The optimal-string-alignment distance of `a` and `b` is at most `k`. -/
def OSAWithin (k : Nat) (a b : List Nat) : Prop := ∃ n, n ≤ k ∧ OSA n a b

/-- The query `q` is obtained from the key `w` by replacing one byte with a different
byte, by removing one byte, by adding one byte, or by swapping two adjacent distinct
bytes. -/
inductive SingleEdit : List Nat → List Nat → Prop
  | replace (l r : List Nat) (x y : Nat) : x ≠ y → SingleEdit (l ++ x :: r) (l ++ y :: r)
  | remove (l r : List Nat) (x : Nat) : SingleEdit (l ++ x :: r) (l ++ r)
  | add (l r : List Nat) (x : Nat) : SingleEdit (l ++ r) (l ++ x :: r)
  | swap (l r : List Nat) (x y : Nat) :
      x ≠ y → SingleEdit (l ++ x :: y :: r) (l ++ y :: x :: r)

/-! ## The suggestion facade -/

/-- The comparison `Suggest::_cmpTolerantResult::operator()`. -/
def cmpTolerantResult {V : Type} [LinearOrder V] (p1 p2 : TolerantResult V) : Bool :=
  if p1.editDistance = p2.editDistance then decide (p1.second < p2.second)
  else decide (p1.editDistance < p2.editDistance)

/-- The algorithm `std::max_element(first, last, comp)`: the first element that no later
element exceeds, `none` for the end iterator of an empty range. -/
def maxElement {α : Type} (comp : α → α → Bool) : List α → Option α
  | [] => none
  | x :: rest => some (rest.foldl (fun largest y => if comp largest y then y else largest) x)

/-- Insertion of an element into a sorted list, after the elements that are not greater. -/
def sortInsert {α : Type} (comp : α → α → Bool) (x : α) : List α → List α
  | [] => [x]
  | y :: rest => if comp x y then x :: y :: rest else y :: sortInsert comp x rest

/-- The algorithm `std::sort(first, last, comp)`. The source leaves the order of equivalent
elements open; here they keep the order they have in the input. -/
def stdSort {α : Type} (comp : α → α → Bool) (l : List α) : List α :=
  l.foldl (fun sorted x => sortInsert comp x sorted) []

/-- The class `Suggest`, after its constructor has read the corpus. -/
structure Suggest (V : Type) where
  corpusFilename : String
  words : Tri V
  maxEditDistance : Nat

/-- The function `Suggest::best`; the empty list is the empty string. -/
def Suggest.best {V : Type} [LinearOrder V] (mem : Nat → Nat) (signedChar : Bool)
    (sg : Suggest V) (w : List Nat) : Option (List Nat) :=
  match sg.words.tolerantFind mem signedChar w sg.maxEditDistance with
  | none => none
  | some v =>
    match maxElement cmpTolerantResult v with
    | none => some []
    | some winner => some winner.first

/-- The vector `v` of `Suggest::all` after `sort`, read from `crbegin()` to `crend()`. -/
def Suggest.ranked {V : Type} [LinearOrder V] (mem : Nat → Nat) (signedChar : Bool)
    (sg : Suggest V) (w : List Nat) : Option (List (TolerantResult V)) :=
  match sg.words.tolerantFind mem signedChar w sg.maxEditDistance with
  | none => none
  | some v => some (stdSort cmpTolerantResult v).reverse

/-- The function `Suggest::all`. -/
def Suggest.all {V : Type} [LinearOrder V] (mem : Nat → Nat) (signedChar : Bool)
    (sg : Suggest V) (w : List Nat) : Option (List (List Nat)) :=
  match Suggest.ranked mem signedChar sg w with
  | none => none
  | some r => some (r.map fun x => x.first)

/-! ## Example dictionaries -/

/-- The dictionary `{cat: 1.0, car: 2.0, bat: 1.5}` with cutoff 1. -/
def suggestCatCarBat : Suggest Rat :=
  ⟨"corpus", ((Tri.empty Rat).insertAll
    [([99, 97, 116], 1), ([99, 97, 114], 2), ([98, 97, 116], 3 / 2)]).getD (Tri.empty Rat), 1⟩

/-- The dictionary `{cat: 1.0, car: 2.0}` with cutoff 1. -/
def suggestCatCar : Suggest Rat :=
  ⟨"corpus", ((Tri.empty Rat).insertAll
    [([99, 97, 116], 1), ([99, 97, 114], 2)]).getD (Tri.empty Rat), 1⟩

/-- The dictionary `{cat: 1.0, car: 1.0}` with cutoff 1. -/
def suggestTie : Suggest Rat :=
  ⟨"corpus", ((Tri.empty Rat).insertAll
    [([99, 97, 116], 1), ([99, 97, 114], 1)]).getD (Tri.empty Rat), 1⟩

/-- The dictionary `{hello: 0.1, help: 0.9}` with cutoff 2. -/
def suggestHelloHelp : Suggest Rat :=
  ⟨"corpus", ((Tri.empty Rat).insertAll
    [([104, 101, 108, 108, 111], 1 / 10), ([104, 101, 108, 112], 9 / 10)]).getD
      (Tri.empty Rat), 2⟩

/-- The dictionary `{a: 5.0, abc: 1.0}` with cutoff 3. -/
def suggestAAbc : Suggest Rat :=
  ⟨"corpus", ((Tri.empty Rat).insertAll
    [([97], 5), ([97, 98, 99], 1)]).getD (Tri.empty Rat), 3⟩

/-! ## Counting states -/

/-- The number of states that the loop of `insert` has to create when it walks `key` from
state `cur`: once a transition is missing, every remaining byte needs a new state. -/
def Tri.missingFrom {V : Type} (t : Tri V) : Nat → List Nat → Nat
  | _, [] => 0
  | cur, c :: rest =>
    match (t.stateAt cur).transitions.find c with
    | some next => Tri.missingFrom t next rest
    | none => rest.length + 1

/-- The number of states that `insert(key, _)` has to create. -/
def Tri.missing {V : Type} (t : Tri V) (key : List Nat) : Nat := t.missingFrom 0 key

/-- The distinct non-empty strings that begin one of the keys. -/
def nonEmptyInits (keys : List (List Nat)) : List (List Nat) :=
  ((keys.flatMap List.inits).filter fun p => p ≠ []).dedup

/-- The strings that lead from state 0 to some state are the empty string and the
beginnings of the keys `keys`. -/
def Tri.Walks {V : Type} (t : Tri V) (keys : List (List Nat)) : Prop :=
  ∀ p, (∃ s, t.getWalk 0 p = some s) ↔ (p = [] ∨ ∃ k ∈ keys, p <+: k)

/-- Every state is reached from state 0. -/
def Tri.AllReach {V : Type} (t : Tri V) : Prop :=
  ∀ q, q < t.v.length → ∃ p, t.getWalk 0 p = some q

/-! ## Corpus parsers -/

/-- The function `isalpha` in the "C" locale, which the program never changes. -/
def isalpha (c : Nat) : Bool := (65 ≤ c && c ≤ 90) || (97 ≤ c && c ≤ 122)

/-- The function `isdigit`. -/
def isdigit (c : Nat) : Bool := 48 ≤ c && c ≤ 57

/-- The exceptions that reading a corpus throws. `parseError f n msg` is the `ParseError`
whose message is `f`, the text `, line:`, the number `n`, a line break and `msg`;
`invalidArgument` and `outOfRange` are the `std::invalid_argument` and the
`std::out_of_range` of `std::stod`; `tooManyStates` is the `std::runtime_error` of
`Tri::_newStatef`. -/
inductive CorpusError where
  | parseError (corpusFilename : String) (linesConsumed : Nat) (msg : String)
  | invalidArgument
  | outOfRange
  | tooManyStates
deriving DecidableEq

/-- The class `CorpusParserData`. -/
structure CorpusParserData where
  corpusFilename : String
  linesConsumed : Nat
deriving DecidableEq

/-- The exception that `CorpusParserData::parseError(msg)` throws. -/
def CorpusParserData.parseError (d : CorpusParserData) (msg : String) : CorpusError :=
  CorpusError.parseError d.corpusFilename d.linesConsumed msg

/-- The statement `++_data.linesConsumed` on an `unsigned int`. -/
def CorpusParserData.consume (d : CorpusParserData) : CorpusParserData :=
  { d with linesConsumed := (d.linesConsumed + 1) % (uintMax + 1) }

/-- The leading decimal digits of a text: their value on top of `acc`, their number, and
the rest of the text. -/
def takeDigits : Nat → Nat → List Nat → Nat × Nat × List Nat
  | acc, n, [] => (acc, n, [])
  | acc, n, c :: rest =>
    if isdigit c then takeDigits (acc * 10 + (c - 48)) (n + 1) rest else (acc, n, c :: rest)

/-- The optional sign that `std::stod` reads first, and the text after it. -/
def stodSign : List Nat → Bool × List Nat
  | [] => (false, [])
  | c :: rest =>
    if c = 45 then (true, rest) else if c = 43 then (false, rest) else (false, c :: rest)

/-- The optional `.` and digits that `std::stod` reads after the digits `whole`. -/
def stodFraction (whole : Nat × Nat × List Nat) : Nat × Nat × List Nat :=
  match whole.2.2 with
  | 46 :: rest => takeDigits whole.1 0 rest
  | _ => (whole.1, 0, whole.2.2)

/-- Whether `2 ^ e ≤ m / d`, for a positive `d`. -/
def leScaled (e : Int) (m d : Nat) : Bool :=
  if 0 ≤ e then decide (d * 2 ^ e.toNat ≤ m) else decide (d ≤ m * 2 ^ (-e).toNat)

/-- The number of times `n` can be halved before it is below `2`, counted in at most
`fuel` halvings. -/
def log2Loop : Nat → Nat → Nat
  | 0, _ => 0
  | fuel + 1, n => if 2 ≤ n then log2Loop fuel (n / 2) + 1 else 0

/-- The position of the highest set bit of `n`, and `0` for `n = 0`. -/
def log2 (n : Nat) : Nat :=
  log2Loop n n

/-- The binary exponent of `m / d` for positive `m` and `d`: the `e` with
`2 ^ e ≤ m / d < 2 ^ (e + 1)`. -/
def binaryExponent (m d : Nat) : Int :=
  let e0 : Int := (log2 m : Int) - (log2 d : Int)
  if leScaled e0 m d then e0 else e0 - 1

/-- The integer nearest to `m / (d * 2 ^ q)`, the even one of two that are equally near,
and whether `m / (d * 2 ^ q)` is that integer. -/
def roundScaled (q : Int) (m d : Nat) : Nat × Bool :=
  let num := if 0 ≤ q then m else m * 2 ^ (-q).toNat
  let den := if 0 ≤ q then d * 2 ^ q.toNat else d
  let n := num / den
  let r := num % den
  (if 2 * r < den then n else if den < 2 * r then n + 1 else if n % 2 = 0 then n else n + 1,
    decide (r = 0))

/-- The conversion of `strtod` for the decimal number `m / 10 ^ k`, as the C library of
the GNU system does it on x86-64 in the default rounding mode: the nearest `double`, given
as `(n, q)` for the value `n * 2 ^ q`, a tie going to the even significand; `none` where
`strtod` sets `ERANGE`, which is when the rounded value is `2 ^ 1024` or more, and when
the value rounded to 53 bits is below `2 ^ (-1022)` and the result is not exact. -/
def binary64 (m k : Nat) : Option (Nat × Int) :=
  if m = 0 then some (0, 0)
  else
    let e := binaryExponent m (10 ^ k)
    let wide := roundScaled (e - 52) m (10 ^ k)
    if 1024 ≤ e ∨ (e = 1023 ∧ wide.1 = 2 ^ 53) then none
    else if -1022 ≤ e ∨ (e = -1023 ∧ wide.1 = 2 ^ 53) then some (wide.1, e - 52)
    else
      let tiny := roundScaled (-1074) m (10 ^ k)
      if tiny.2 then some (tiny.1, -1074) else none

/-- The number `n * 2 ^ q` of a pair `(n, q)`, with the sign of a decimal text. -/
def doubleValue (negative : Bool) (p : Nat × Int) : Rat :=
  (if negative then -1 else 1) * ((p.1 : Rat) * (2 : Rat) ^ p.2)

/-- The function `std::stod` on the texts that `parseLine` passes to it, which are made of
`-`, digits and `.`: an optional sign, digits, and an optional `.` with digits. Without
any digit it throws `std::invalid_argument`; where `strtod` sets `ERANGE` it throws
`std::out_of_range`; otherwise the result is the `double` of `binary64`, a rational
number. -/
def stod (s : List Nat) : Except CorpusError Rat :=
  let signed := stodSign s
  let whole := takeDigits 0 0 signed.2
  let frac := stodFraction whole
  if whole.2.1 + frac.2.1 = 0 then Except.error CorpusError.invalidArgument
  else
    match binary64 frac.1 frac.2.1 with
    | none => Except.error CorpusError.outOfRange
    | some p => Except.ok (doubleValue signed.1 p)

/-- The enumeration `State` of `ProbabilityCorpusParser::parseLine`. -/
inductive ParseState where
  | wordParse
  | doubleParse
  | preDot
  | atLeastOneNumber
  | number
deriving DecidableEq

/-- The `for` loop of `ProbabilityCorpusParser::parseLine` from offset `i`: it returns
the offsets `wordEnd` and `doubleStart`, or throws. -/
def ProbabilityCorpusParser.loop (d : CorpusParserData) :
    ParseState → Nat → Nat → Nat → List Nat → Except CorpusError (Nat × Nat)
  | _, wordEnd, doubleStart, _, [] => Except.ok (wordEnd, doubleStart)
  | ParseState.wordParse, wordEnd, doubleStart, i, c :: rest =>
    if isalpha c then
      ProbabilityCorpusParser.loop d ParseState.wordParse wordEnd doubleStart (i + 1) rest
    else if c = 9 then
      ProbabilityCorpusParser.loop d ParseState.doubleParse i (i + 1) (i + 1) rest
    else
      Except.error
        (d.parseError "Encountered unexpected '' while trying to parse a word.")
  | ParseState.doubleParse, wordEnd, doubleStart, i, c :: rest =>
    if c = 45 then
      ProbabilityCorpusParser.loop d ParseState.atLeastOneNumber wordEnd doubleStart (i + 1) rest
    else if !isdigit c then
      Except.error (d.parseError "Malformed floating point number.")
    else ProbabilityCorpusParser.loop d ParseState.preDot wordEnd doubleStart (i + 1) rest
  | ParseState.atLeastOneNumber, wordEnd, doubleStart, i, c :: rest =>
    if !isdigit c then
      Except.error (d.parseError "Malformed floating point number.")
    else ProbabilityCorpusParser.loop d ParseState.preDot wordEnd doubleStart (i + 1) rest
  | ParseState.preDot, wordEnd, doubleStart, i, c :: rest =>
    if c = 46 then
      ProbabilityCorpusParser.loop d ParseState.number wordEnd doubleStart (i + 1) rest
    else if !isdigit c then
      Except.error (d.parseError "Malformed floating point number.")
    else ProbabilityCorpusParser.loop d ParseState.preDot wordEnd doubleStart (i + 1) rest
  | ParseState.number, wordEnd, doubleStart, i, c :: rest =>
    if !isdigit c then
      Except.error (d.parseError "Malformed floating point number.")
    else ProbabilityCorpusParser.loop d ParseState.number wordEnd doubleStart (i + 1) rest

/-- The function `ProbabilityCorpusParser::parseLine`: the parser data after the call and
the pair, or the exception. -/
def ProbabilityCorpusParser.parseLine (d : CorpusParserData) (line : List Nat) :
    Except CorpusError (CorpusParserData × (List Nat × Rat)) :=
  match ProbabilityCorpusParser.loop d.consume ParseState.wordParse line.length line.length 0
      line with
  | Except.error e => Except.error e
  | Except.ok (wordEnd, doubleStart) =>
    if doubleStart = line.length ∨ wordEnd = line.length then
      Except.error (d.consume.parseError "Malformed input.")
    else
      match stod (line.drop doubleStart) with
      | Except.error e => Except.error e
      | Except.ok x => Except.ok (d.consume, (line.take wordEnd, x))

/-- The `for` loop of `SimpleCorpusParser::parseLine`. -/
def SimpleCorpusParser.loop (d : CorpusParserData) : List Nat → Except CorpusError Unit
  | [] => Except.ok ()
  | c :: rest =>
    if !isalpha c then
      Except.error
        (d.parseError "Encountered unexpected '' while trying to parse a word.")
    else SimpleCorpusParser.loop d rest

/-- The function `SimpleCorpusParser::parseLine`; `_defaultDouble` is 1.0. -/
def SimpleCorpusParser.parseLine (d : CorpusParserData) (line : List Nat) :
    Except CorpusError (CorpusParserData × (List Nat × Rat)) :=
  match SimpleCorpusParser.loop d.consume line with
  | Except.error e => Except.error e
  | Except.ok _ => Except.ok (d.consume, (line, 1))

/-- The loop of `Suggest::_readCorpus` over the lines that `std::getline` yields, for a
parser whose `parseLine` is given. -/
def Suggest.readLines
    (parseLine : CorpusParserData → List Nat →
      Except CorpusError (CorpusParserData × (List Nat × Rat))) :
    CorpusParserData → Tri Rat → List (List Nat) → Except CorpusError (Tri Rat)
  | _, words, [] => Except.ok words
  | d, words, line :: rest =>
    if line = [] then Suggest.readLines parseLine d words rest
    else
      match parseLine d line with
      | Except.error e => Except.error e
      | Except.ok (d1, kv) =>
        match words.insert kv.1 kv.2 with
        | none => Except.error CorpusError.tooManyStates
        | some words1 => Suggest.readLines parseLine d1 words1 rest

/-- The function `Suggest::_readCorpus` on an empty `_words`, as the constructors call
it. -/
def Suggest.readCorpus
    (parseLine : CorpusParserData → List Nat →
      Except CorpusError (CorpusParserData × (List Nat × Rat)))
    (corpusFilename : String) (lines : List (List Nat)) : Except CorpusError (Tri Rat) :=
  Suggest.readLines parseLine ⟨corpusFilename, 0⟩ (Tri.empty Rat) lines

/-- The number that the text of the grammar `'-'? DIGIT+ '.' DIGIT+` denotes, for the
sign, the digits before the dot and the digits after it. -/
def decimalValue (negative : Bool) (whole frac : List Nat) : Rat :=
  (if negative then -1 else 1) *
    (((Nat.ofDigits 10 (whole.reverse.map fun c => c - 48) : Nat) : Rat) +
      ((Nat.ofDigits 10 (frac.reverse.map fun c => c - 48) : Nat) : Rat) /
        (10 : Rat) ^ frac.length)

/-- The `double` that `strtod` gives for the decimal number of the sign, the digits before
the dot and the digits after it; `none` where it sets `ERANGE`. -/
def doubleOf (negative : Bool) (whole frac : List Nat) : Option Rat :=
  (binary64
    (Nat.ofDigits 10 (whole.reverse.map fun c => c - 48) * 10 ^ frac.length +
      Nat.ofDigits 10 (frac.reverse.map fun c => c - 48)) frac.length).map
    (doubleValue negative)

/-- The enumerator `all`. -/
def Flag.all : Nat := 1

/-- The enumerator `best`. -/
def Flag.best : Nat := 2

/-- The enumerator `probability`. -/
def Flag.probability : Nat := 4

/-- The enumerator `simple`. -/
def Flag.simple : Nat := 8

/-- The struct `param_t`. -/
structure param_t where
  flags : Nat
  maxEditDistance : Nat
  corpusFilename : String
deriving DecidableEq

/-- The expression `f & ~x` on `unsigned int`. -/
def clearFlag (f x : Nat) : Nat := f &&& (uintMax ^^^ x)

/-- The constructor `param_t::param_t(f, n)`. -/
def param_t.new (f n : Nat) : param_t :=
  let f1 := (f ||| Flag.all) ||| Flag.probability
  let f2 := if f1 &&& Flag.best ≠ 0 then clearFlag f1 Flag.all else f1
  let f3 := if f2 &&& Flag.simple ≠ 0 then clearFlag f2 Flag.probability else f2
  ⟨f3, n, ""⟩

/-- The `std::runtime_error`s of `parseCmdLineArgs`, named after their messages:
"Malformed parameter list.", "Too many flags.", "Bogus command line parameters." and
"Unrecognized command line parameter.". -/
inductive ArgError where
  | malformed
  | tooMany
  | bogus
  | unrecognized
deriving DecidableEq

/-- The `for` loop of `parseCmdLineArgs` in the state `parameters`. -/
def parametersLoop : Nat → Nat → Nat → List Nat → Except ArgError param_t
  | flags, maxEditDistance, _, [] => Except.ok (param_t.new flags maxEditDistance)
  | flags, maxEditDistance, paramCount, c :: rest =>
    if paramCount > 4 then Except.error ArgError.tooMany
    else if c = 97 then parametersLoop (flags ||| Flag.all) maxEditDistance (paramCount + 1) rest
    else if c = 98 then parametersLoop (flags ||| Flag.best) maxEditDistance (paramCount + 1) rest
    else if c = 115 then
      parametersLoop (flags ||| Flag.simple) maxEditDistance (paramCount + 1) rest
    else if c = 112 then
      parametersLoop (flags ||| Flag.probability) maxEditDistance (paramCount + 1) rest
    else if c = 101 then
      match rest with
      | [] => Except.error ArgError.bogus
      | e :: rest1 =>
        if isdigit e then parametersLoop flags (e - 48) (paramCount + 1) rest1
        else Except.error ArgError.bogus
    else Except.error ArgError.unrecognized

/-- The function `IO::parseCmdLineArgs`. -/
def parseCmdLineArgs (flagstring : List Nat) : Except ArgError param_t :=
  match flagstring with
  | [] => Except.ok (param_t.new 0 1)
  | c :: rest =>
    if c ≠ 45 then Except.error ArgError.malformed else parametersLoop 0 1 0 rest

/-- The number of flags of a text made of the letters `a`, `b`, `p`, `s` and of pairs of
`e` and a decimal digit; `none` for any other text. -/
def flagCount : List Nat → Option Nat
  | [] => some 0
  | c :: rest =>
    if c = 97 ∨ c = 98 ∨ c = 112 ∨ c = 115 then (flagCount rest).map (· + 1)
    else if c = 101 then
      match rest with
      | [] => none
      | e :: rest1 => if isdigit e then (flagCount rest1).map (· + 1) else none
    else none

/-- The flag semantics of the command line, for a flag text and the parameters made from
it: exactly one of `all` and `best` and exactly one of `probability` and `simple` is set,
`best` is set exactly when the text contains `b`, `simple` exactly when it contains `s`,
and the cutoff is the digit after the last `e`, or 1 without an `e`. -/
def FlagSemantics (token : List Nat) (p : param_t) : Prop :=
  (p.flags &&& Flag.all ≠ 0 ↔ ¬ p.flags &&& Flag.best ≠ 0) ∧
  (p.flags &&& Flag.probability ≠ 0 ↔ ¬ p.flags &&& Flag.simple ≠ 0) ∧
  (p.flags &&& Flag.best ≠ 0 ↔ 98 ∈ token) ∧
  (p.flags &&& Flag.simple ≠ 0 ↔ 115 ∈ token) ∧
  (101 ∉ token → p.maxEditDistance = 1) ∧
  ∀ pre e post, token = pre ++ 101 :: e :: post → 101 ∉ post →
    isdigit e = true ∧ p.maxEditDistance = e - 48

/-! ## The successor rule in words -/

/-- The byte `query[i]` of the successor rule. -/
def Searcher.query (sr : Searcher) (i : Nat) : Nat := sr.word.getD i 0

/-- The frames of the successor rule for one outgoing transition `(b, s1)`, in the order
of their pushes: the transposition frame when `cursor + 1 < n`, `query[cursor + 1] = b`
and `s1` has a transition on `query[cursor]`, then the substitution frame and the
insertion frame. -/
def ruleTransition (sr : Searcher) (v : List State) (t : Item) (p : Nat × Nat) : List Item :=
  (if t.nextChar + 1 < sr.word.length ∧ sr.query (t.nextChar + 1) = p.1 then
    match (v.getD p.2 State.new).transitions.find (sr.query t.nextChar) with
    | some s2 =>
      [⟨v.getD s2 State.new, s2, t.editDistance + 1, t.nextChar + 2,
        t.candidate ++ [p.1, sr.query t.nextChar]⟩]
    | none => []
  else []) ++
  [⟨v.getD p.2 State.new, p.2, t.editDistance + 1, t.nextChar + 1, t.candidate ++ [p.1]⟩,
    ⟨v.getD p.2 State.new, p.2, t.editDistance + 1, t.nextChar, t.candidate ++ [p.1]⟩]

/-- The frames of the successor rule for the frame `t`, in the order of their pushes: the
NoOp frame when `cursor < n` and the state has a transition on `query[cursor]`; then, only
when `edits < k`, the deletion frame when `cursor < n` and the frames of every outgoing
transition in ascending byte order. -/
def ruleFrames (sr : Searcher) (v : List State) (t : Item) : List Item :=
  (if t.nextChar < sr.word.length then
    match t.stateData.transitions.find (sr.query t.nextChar) with
    | some s1 =>
      [⟨v.getD s1 State.new, s1, t.editDistance, t.nextChar + 1,
        t.candidate ++ [sr.query t.nextChar]⟩]
    | none => []
  else []) ++
  (if t.editDistance < sr.cutoffDistance then
    (if t.nextChar < sr.word.length then
      [⟨t.stateData, t.state, t.editDistance + 1, t.nextChar + 1, t.candidate⟩]
    else []) ++
    t.stateData.transitions.flatMap (ruleTransition sr v t)
  else [])

/-! ## Other exploration orders -/

/-- The loop of `tolerantFindWith` when the items of each `feedStack` call are pushed in
the opposite order: the work list is a stack, and what the source pushes last is popped
last. -/
def searchLoopReversed (sr : Searcher) (v : List State) :
    Nat → List Item → Results → Option Results
  | _, [], results => some results
  | 0, _ :: _, _ => none
  | fuel + 1, top :: s, results =>
    searchLoopReversed sr v fuel ((successors sr v top).reverse ++ s)
      (recordResult sr top results)

/-- The loop of `tolerantFindWith` when the work list is processed first-in-first-out:
the items of each `feedStack` call are added at the back in the order of their pushes,
and the item at the front is taken next. -/
def searchLoopFifo (sr : Searcher) (v : List State) :
    Nat → List Item → Results → Option Results
  | _, [], results => some results
  | 0, _ :: _, _ => none
  | fuel + 1, top :: s, results =>
    searchLoopFifo sr v fuel (s ++ (successors sr v top).reverse) (recordResult sr top results)

/-! ## Tries with the same keys -/

/-- Two tries spell the same strings from state 0, and the states that a string leads to
agree on the end flag and on the value. -/
structure Tri.SameKeys {V : Type} (t1 t2 : Tri V) : Prop where
  walks : ∀ p, (∃ s, t1.getWalk 0 p = some s) ↔ (∃ s, t2.getWalk 0 p = some s)
  ends : ∀ p s1 s2, t1.getWalk 0 p = some s1 → t2.getWalk 0 p = some s2 →
    (t1.stateAt s1).endState = (t2.stateAt s2).endState
  vals : ∀ p s1 s2, t1.getWalk 0 p = some s1 → t2.getWalk 0 p = some s2 →
    t1.values s1 = t2.values s2

/-- Two items, one of a search in each trie, that agree in everything but the number of
their state, which is the state their candidate leads to. -/
structure Item.Alike {V : Type} (t1 t2 : Tri V) (a b : Item) : Prop where
  edits : a.editDistance = b.editDistance
  cursor : a.nextChar = b.nextChar
  candidate : a.candidate = b.candidate
  walk1 : t1.getWalk 0 a.candidate = some a.state
  walk2 : t2.getWalk 0 b.candidate = some b.state
  data1 : a.stateData = t1.stateAt a.state
  data2 : b.stateData = t2.stateAt b.state

/-- Two entries of hit tables, one of a search in each trie, that agree in the candidate
and the distance and hold the states that the candidate leads to. -/
def Results.Alike {V : Type} (t1 t2 : Tri V) (e1 e2 : List Nat × (Nat × Nat)) : Prop :=
  e1.1 = e2.1 ∧ e1.2.2 = e2.2.2 ∧ t1.getWalk 0 e1.1 = some e1.2.1 ∧
    t2.getWalk 0 e2.1 = some e2.2.1

/-! ## More example dictionaries -/

/-- The dictionary `{a: 1.0, aa: 1.0}`. -/
def triAAa : Tri Rat :=
  ((Tri.empty Rat).insertAll [([97], 1), ([97, 97], 1)]).getD (Tri.empty Rat)

/-- The trie holding `car ↦ 2` and `cat ↦ 1`, inserted in this order. -/
def carCat : Tri Nat :=
  ((Tri.empty Nat).insertAll [([99, 97, 114], 2), ([99, 97, 116], 1)]).getD (Tri.empty Nat)

/-- A trie holding the two bytes `195, 169` (the letter e with an acute accent in
UTF-8) `↦ 1`. -/
def triEAcute : Tri Nat := ((Tri.empty Nat).insert [195, 169] 1).getD (Tri.empty Nat)

/-- A trie holding the bytes `110, 195, 169` (`n` and the letter e with an acute accent
in UTF-8) `↦ 1`. -/
def triNe : Tri Nat := ((Tri.empty Nat).insert [110, 195, 169] 1).getD (Tri.empty Nat)

/-! ## Lemmas on the containers -/

theorem Transitions.find_assign (l : Transitions) (c d c' : Nat) :
    (Transitions.assign l c d).find c' = if c' = c then some d else l.find c' := by
  induction l with
  | nil =>
    simp only [Transitions.assign, Transitions.find]
    split_ifs <;> simp_all
  | cons hd tl ih =>
    obtain ⟨k, e⟩ := hd
    simp only [Transitions.assign]
    split_ifs with h1 h2 h3 h3 h3
    all_goals simp only [Transitions.find, ih]
    all_goals split_ifs <;> first | rfl | omega

theorem Transitions.assign_keys_subset (l : Transitions) (c d k : Nat)
    (h : k ∈ (Transitions.assign l c d).map Prod.fst) : k = c ∨ k ∈ l.map Prod.fst := by
  induction l with
  | nil =>
    simp only [Transitions.assign, List.map_cons, List.map_nil, List.mem_singleton] at h
    exact Or.inl h
  | cons hd tl ih =>
    obtain ⟨a, e⟩ := hd
    simp only [Transitions.assign] at h
    split_ifs at h with h1 h2
    · simp only [List.map_cons, List.mem_cons] at h ⊢
      rcases h with h | h
      · exact Or.inr (Or.inl h)
      · rcases ih h with h | h
        · exact Or.inl h
        · exact Or.inr (Or.inr h)
    · simp only [List.map_cons, List.mem_cons] at h ⊢
      rcases h with h | h
      · exact Or.inl h
      · exact Or.inr (Or.inr h)
    · simp only [List.map_cons, List.mem_cons] at h ⊢
      rcases h with h | h | h
      · exact Or.inl h
      · exact Or.inr (Or.inl h)
      · exact Or.inr (Or.inr h)

theorem Transitions.assign_sorted (l : Transitions) (c d : Nat)
    (h : (l.map Prod.fst).Pairwise (· < ·)) :
    ((Transitions.assign l c d).map Prod.fst).Pairwise (· < ·) := by
  induction l with
  | nil => simp [Transitions.assign]
  | cons hd tl ih =>
    obtain ⟨a, e⟩ := hd
    simp only [List.map_cons, List.pairwise_cons] at h
    simp only [Transitions.assign]
    split_ifs with h1 h2
    · simp only [List.map_cons, List.pairwise_cons]
      refine ⟨?_, ih h.2⟩
      intro k hk
      rcases Transitions.assign_keys_subset tl c d k hk with rfl | hk
      · exact h1
      · exact h.1 k hk
    · subst h2
      simp only [List.map_cons, List.pairwise_cons]
      exact h
    · simp only [List.map_cons, List.pairwise_cons, List.mem_cons]
      refine ⟨?_, h⟩
      intro k hk
      rcases hk with rfl | hk
      · omega
      · have := h.1 k hk
        omega

theorem Transitions.find_mem (l : Transitions) (c d : Nat) (h : l.find c = some d) :
    (c, d) ∈ l := by
  induction l with
  | nil => cases h
  | cons hd tl ih =>
    obtain ⟨a, e⟩ := hd
    simp only [Transitions.find] at h
    split_ifs at h with h1
    · simp only [Option.some.injEq] at h
      subst h1 h
      exact List.mem_cons_self _ _
    · exact List.mem_cons_of_mem _ (ih h)

theorem Transitions.mem_find (l : Transitions) (c d : Nat)
    (hs : (l.map Prod.fst).Pairwise (· < ·)) (h : (c, d) ∈ l) : l.find c = some d := by
  induction l with
  | nil => cases h
  | cons hd tl ih =>
    obtain ⟨a, e⟩ := hd
    simp only [List.map_cons, List.pairwise_cons] at hs
    simp only [Transitions.find]
    rcases List.mem_cons.mp h with h | h
    · simp only [Prod.mk.injEq] at h
      obtain ⟨rfl, rfl⟩ := h
      simp
    · have hc : c ∈ tl.map Prod.fst := List.mem_map.mpr ⟨(c, d), h, rfl⟩
      have := hs.1 c hc
      rw [if_neg (by omega)]
      exact ih hs.2 h

theorem getD_set_state (l : List State) (s i : Nat) (x : State) :
    (l.set s x).getD i State.new = if i = s ∧ s < l.length then x else l.getD i State.new := by
  simp only [List.getD_eq_getElem?_getD, List.getElem?_set]
  by_cases h1 : s = i
  · subst h1
    by_cases h2 : s < l.length
    · simp [h2]
    · rw [List.getElem?_eq_none (by omega)]
      simp [h2]
  · have h3 : ¬ i = s := fun h => h1 h.symm
    simp [h1, h3]

theorem getD_append_new (l : List State) (i : Nat) :
    (l ++ [State.new]).getD i State.new = l.getD i State.new := by
  simp only [List.getD_eq_getElem?_getD]
  rcases Nat.lt_trichotomy i l.length with h | h | h
  · rw [List.getElem?_append_left h]
  · subst h
    simp
  · rw [List.getElem?_eq_none (by simp; omega), List.getElem?_eq_none (by omega)]

theorem getD_new_of_le (l : List State) (i : Nat) (h : l.length ≤ i) :
    l.getD i State.new = State.new := by
  simp only [List.getD_eq_getElem?_getD]
  rw [List.getElem?_eq_none h]
  rfl

theorem Tri.delta_new {V : Type} (t : Tri V) (s c : Nat) (h : t.v.length ≤ s) :
    t.delta s c = none := by
  unfold Tri.delta Tri.stateAt
  rw [getD_new_of_le _ _ h]
  rfl

theorem Tri.empty_wf (V : Type) : (Tri.empty V).WF := by
  have hd : ∀ s c, (Tri.empty V).delta s c = none := by
    intro s c
    cases s with
    | zero => rfl
    | succ n => exact Tri.delta_new _ _ _ (by simp [Tri.empty])
  refine ⟨⟨by simp [Tri.empty], by simp [Tri.empty, uintMax], ?_, ?_, ?_⟩, ?_⟩
  · intro s c d h
    rw [hd] at h
    cases h
  · intro s c s' c' d h
    rw [hd] at h
    cases h
  · intro s
    cases s with
    | zero => simp [Tri.empty, Tri.stateAt, State.new]
    | succ n => simp [Tri.empty, Tri.stateAt, State.new]
  · intro s
    cases s with
    | zero => simp [Tri.empty, Tri.stateAt, State.new]
    | succ n => simp [Tri.empty, Tri.stateAt, State.new]

theorem Tri.getWalk_snoc {V : Type} (t : Tri V) (k : List Nat) (c p : Nat) :
    t.getWalk p (k ++ [c]) = (t.getWalk p k).bind (fun q => t.delta q c) := by
  induction k generalizing p with
  | nil =>
    simp only [List.nil_append, Tri.getWalk, Option.some_bind, Tri.delta]
    cases (t.stateAt p).transitions.find c <;> rfl
  | cons a rest ih =>
    simp only [List.cons_append, Tri.getWalk]
    cases h : (t.stateAt p).transitions.find a with
    | none => rfl
    | some next => exact ih next

theorem Tri.getWalk_le {V : Type} (t : Tri V) (h : t.StructWF) (k : List Nat) (p q : Nat)
    (hw : t.getWalk p k = some q) : p ≤ q := by
  induction k generalizing p with
  | nil =>
    simp only [Tri.getWalk, Option.some.injEq] at hw
    omega
  | cons a rest ih =>
    simp only [Tri.getWalk] at hw
    cases hf : (t.stateAt p).transitions.find a with
    | none => rw [hf] at hw; cases hw
    | some next =>
      rw [hf] at hw
      have h1 := (h.edge_lt p a next hf).1
      have h2 := ih next hw
      omega

theorem Tri.getWalk_lt {V : Type} (t : Tri V) (h : t.StructWF) (k : List Nat) (p q : Nat)
    (hp : p < t.v.length) (hw : t.getWalk p k = some q) : q < t.v.length := by
  induction k generalizing p with
  | nil =>
    simp only [Tri.getWalk, Option.some.injEq] at hw
    omega
  | cons a rest ih =>
    simp only [Tri.getWalk] at hw
    cases hf : (t.stateAt p).transitions.find a with
    | none => rw [hf] at hw; cases hw
    | some next =>
      rw [hf] at hw
      exact ih next (h.edge_lt p a next hf).2 hw

theorem Tri.getWalk_inj {V : Type} (t : Tri V) (h : t.StructWF) (k1 k2 : List Nat) (q : Nat)
    (h1 : t.getWalk 0 k1 = some q) (h2 : t.getWalk 0 k2 = some q) : k1 = k2 := by
  induction k1 using List.reverseRecOn generalizing k2 q with
  | nil =>
    simp only [Tri.getWalk, Option.some.injEq] at h1
    subst h1
    rcases List.eq_nil_or_concat k2 with rfl | ⟨k, c, rfl⟩
    · rfl
    · rw [List.concat_eq_append, Tri.getWalk_snoc] at h2
      cases hk : t.getWalk 0 k with
      | none => rw [hk] at h2; cases h2
      | some p =>
        rw [hk] at h2
        have := (h.edge_lt p c 0 h2).1
        omega
  | append_singleton k1 c1 ih =>
    rw [Tri.getWalk_snoc] at h1
    cases hk1 : t.getWalk 0 k1 with
    | none => rw [hk1] at h1; cases h1
    | some p1 =>
      rw [hk1] at h1
      simp only [Option.some_bind] at h1
      rcases List.eq_nil_or_concat k2 with rfl | ⟨k, c, rfl⟩
      · simp only [Tri.getWalk, Option.some.injEq] at h2
        subst h2
        have := (h.edge_lt p1 c1 0 h1).1
        omega
      · rw [List.concat_eq_append, Tri.getWalk_snoc] at h2
        cases hk : t.getWalk 0 k with
        | none => rw [hk] at h2; cases h2
        | some p =>
          rw [hk] at h2
          simp only [Option.some_bind] at h2
          obtain ⟨hp, hc⟩ := h.edge_inj p1 c1 p c q h1 h2
          subst hp hc
          rw [ih k p1 hk1 hk, List.concat_eq_append]


/-! ## The effect of `insert` on the transition structure -/

theorem Tri.getStates_eq {V : Type} (t : Tri V) (h : t.v.length ≤ uintMax) :
    t.getStates = t.v.length := by
  unfold Tri.getStates
  exact Nat.mod_eq_of_lt (by omega)

theorem Tri.newStatef_eq {V : Type} (t : Tri V) (h : t.v.length ≤ uintMax) (n : Nat)
    (t1 : Tri V) (hn : t.newStatef = some (n, t1)) :
    n = t.v.length ∧ t.v.length < uintMax ∧ t1 = { t with v := t.v ++ [State.new] } := by
  unfold Tri.newStatef at hn
  simp only [Tri.getStates_eq t h] at hn
  split_ifs at hn with h1
  simp only [Option.some.injEq, Prod.mk.injEq] at hn
  exact ⟨hn.1.symm, by omega, hn.2.symm⟩

theorem Tri.delta_push {V : Type} (t : Tri V) (s c : Nat) :
    Tri.delta { t with v := t.v ++ [State.new] } s c = t.delta s c := by
  unfold Tri.delta Tri.stateAt
  rw [getD_append_new]

theorem Tri.stateAt_push {V : Type} (t : Tri V) (s : Nat) :
    Tri.stateAt { t with v := t.v ++ [State.new] } s = t.stateAt s := by
  unfold Tri.stateAt
  rw [getD_append_new]

theorem Tri.stateAt_setTransition {V : Type} (t : Tri V) (s c d i : Nat) :
    ((t.setTransition s c d).stateAt i).endState = (t.stateAt i).endState := by
  unfold Tri.setTransition Tri.stateAt
  simp only [getD_set_state]
  split_ifs with h
  · rw [h.1]
  · rfl

theorem Tri.transitions_setTransition {V : Type} (t : Tri V) (s c d i : Nat) :
    ((t.setTransition s c d).stateAt i).transitions =
      if i = s ∧ s < t.v.length then (t.stateAt s).transitions.assign c d
      else (t.stateAt i).transitions := by
  unfold Tri.setTransition Tri.stateAt
  simp only [getD_set_state]
  split_ifs with h
  · rfl
  · rfl

theorem Tri.delta_setTransition {V : Type} (t : Tri V) (s c d : Nat) (hs : s < t.v.length)
    (p c' : Nat) :
    (t.setTransition s c d).delta p c' =
      if p = s ∧ c' = c then some d else t.delta p c' := by
  unfold Tri.delta Tri.setTransition Tri.stateAt
  simp only [getD_set_state]
  by_cases hp : p = s
  · subst hp
    simp only [hs, and_self, if_true, Transitions.find_assign, true_and]
  · simp [hp]

theorem Tri.setTransition_length {V : Type} (t : Tri V) (s c d : Nat) :
    (t.setTransition s c d).v.length = t.v.length := by
  simp [Tri.setTransition]

/-- What the loop of `insert` does to a structurally well-formed trie. -/
theorem Tri.insertWalk_spec {V : Type} (key : List Nat) (t : Tri V) (cur : Nat)
    (hwf : t.StructWF) (hcur : cur < t.v.length) (t1 : Tri V) (s : Nat)
    (h : t.insertWalk cur key = some (t1, s)) :
    t1.StructWF ∧ t.v.length ≤ t1.v.length ∧ s < t1.v.length ∧
    t1.getWalk cur key = some s ∧ t1.values = t.values ∧
    (∀ i, (t1.stateAt i).endState = (t.stateAt i).endState) ∧
    (∀ p c d, t.delta p c = some d → t1.delta p c = some d) ∧
    (∀ p c d, t1.delta p c = some d → d < t.v.length → t.delta p c = some d) := by
  induction key generalizing t cur with
  | nil =>
    simp only [Tri.insertWalk, Option.some.injEq, Prod.mk.injEq] at h
    obtain ⟨rfl, rfl⟩ := h
    exact ⟨hwf, le_refl _, hcur, rfl, rfl, fun _ => rfl, fun _ _ _ h => h, fun _ _ _ h _ => h⟩
  | cons c rest ih =>
    simp only [Tri.insertWalk] at h
    cases hf : (t.stateAt cur).transitions.find c with
    | some next =>
      rw [hf] at h
      simp only at h
      obtain ⟨h1, h2, h3, h4, h5, h6, h7, h8⟩ :=
        ih t next hwf (hwf.edge_lt cur c next hf).2 h
      refine ⟨h1, h2, h3, ?_, h5, h6, h7, h8⟩
      have hd : t1.delta cur c = some next := h7 cur c next hf
      unfold Tri.delta at hd
      simp only [Tri.getWalk, hd]
      exact h4
    | none =>
      rw [hf] at h
      simp only at h
      cases hn : t.newStatef with
      | none => rw [hn] at h; cases h
      | some pr =>
        obtain ⟨n, tn⟩ := pr
        rw [hn] at h
        simp only at h
        obtain ⟨rfl, hlt, rfl⟩ := Tri.newStatef_eq t hwf.size_le n tn hn
        have hlen : (Tri.setTransition { t with v := t.v ++ [State.new] } cur c
            t.v.length).v.length = t.v.length + 1 := by
          rw [Tri.setTransition_length]
          simp
        have hcur1 : cur < (t.v ++ [State.new]).length := by
          simp only [List.length_append, List.length_singleton]
          omega
        have hdel : ∀ p c', (Tri.setTransition { t with v := t.v ++ [State.new] } cur c
            t.v.length).delta p c' =
            if p = cur ∧ c' = c then some t.v.length else t.delta p c' := by
          intro p c'
          rw [Tri.delta_setTransition _ _ _ _ hcur1, Tri.delta_push]
        have hwf2 : (Tri.setTransition { t with v := t.v ++ [State.new] } cur c
            t.v.length).StructWF := by
          refine ⟨by omega, by omega, ?_, ?_, ?_⟩
          · intro p c' d hd
            rw [hdel] at hd
            rw [hlen]
            split_ifs at hd with hpc
            · simp only [Option.some.injEq] at hd
              obtain ⟨rfl, rfl⟩ := hpc
              omega
            · have := hwf.edge_lt p c' d hd
              omega
          · intro p c' p' c'' d hd hd'
            rw [hdel] at hd hd'
            split_ifs at hd with hpc
            · split_ifs at hd' with hpc'
              · exact ⟨hpc.1.trans hpc'.1.symm, hpc.2.trans hpc'.2.symm⟩
              · simp only [Option.some.injEq] at hd
                have := (hwf.edge_lt p' c'' d hd').2
                omega
            · split_ifs at hd' with hpc'
              · simp only [Option.some.injEq] at hd'
                have := (hwf.edge_lt p c' d hd).2
                omega
              · exact hwf.edge_inj p c' p' c'' d hd hd'
          · intro i
            rw [Tri.transitions_setTransition]
            simp only [Tri.stateAt_push]
            split_ifs with hi
            · exact Transitions.assign_sorted _ _ _ (hwf.sorted cur)
            · exact hwf.sorted i
        obtain ⟨h1, h2, h3, h4, h5, h6, h7, h8⟩ :=
          ih _ t.v.length hwf2 (by rw [hlen]; omega) h
        rw [hlen] at h2
        refine ⟨h1, by omega, h3, ?_, ?_, ?_, ?_, ?_⟩
        · have hd : t1.delta cur c = some t.v.length := by
            apply h7
            rw [hdel]
            simp
          unfold Tri.delta at hd
          simp only [Tri.getWalk, hd]
          exact h4
        · rw [h5]
          rfl
        · intro i
          rw [h6, Tri.stateAt_setTransition, Tri.stateAt_push]
        · intro p c' d hd
          apply h7
          rw [hdel]
          split_ifs with hpc
          · obtain ⟨rfl, rfl⟩ := hpc
            unfold Tri.delta at hd
            rw [hf] at hd
            cases hd
          · exact hd
        · intro p c' d hd hlt'
          have := h8 p c' d hd (by rw [hlen]; omega)
          rw [hdel] at this
          split_ifs at this with hpc
          · simp only [Option.some.injEq] at this
            omega
          · exact this

theorem Tri.getWalk_congr {V : Type} (t t1 : Tri V)
    (hd : ∀ p c, t1.delta p c = t.delta p c) (k : List Nat) (p : Nat) :
    t1.getWalk p k = t.getWalk p k := by
  induction k generalizing p with
  | nil => rfl
  | cons a rest ih =>
    have := hd p a
    unfold Tri.delta at this
    simp only [Tri.getWalk, this]
    cases (t.stateAt p).transitions.find a with
    | none => rfl
    | some next => exact ih next

theorem Tri.getWalk_mono {V : Type} (t t1 : Tri V)
    (hd : ∀ p c d, t.delta p c = some d → t1.delta p c = some d) (k : List Nat) (p q : Nat)
    (hw : t.getWalk p k = some q) : t1.getWalk p k = some q := by
  induction k generalizing p with
  | nil => exact hw
  | cons a rest ih =>
    simp only [Tri.getWalk] at hw ⊢
    cases hf : (t.stateAt p).transitions.find a with
    | none => rw [hf] at hw; cases hw
    | some next =>
      rw [hf] at hw
      have := hd p a next hf
      unfold Tri.delta at this
      rw [this]
      exact ih next hw

theorem Tri.getWalk_old {V : Type} (t t1 : Tri V) (h1 : t1.StructWF)
    (hd : ∀ p c d, t1.delta p c = some d → d < t.v.length → t.delta p c = some d)
    (k : List Nat) (p q : Nat) (hq : q < t.v.length)
    (hw : t1.getWalk p k = some q) : t.getWalk p k = some q := by
  induction k generalizing p with
  | nil => exact hw
  | cons a rest ih =>
    simp only [Tri.getWalk] at hw ⊢
    cases hf : (t1.stateAt p).transitions.find a with
    | none => rw [hf] at hw; cases hw
    | some next =>
      rw [hf] at hw
      have hle := Tri.getWalk_le t1 h1 rest next q hw
      have := hd p a next hf (by omega)
      unfold Tri.delta at this
      rw [this]
      exact ih next hw

/-- The effect of a successful `insert` on a well-formed trie: the result is
well-formed, the inserted key yields the new value, every other key yields what it
yielded before. -/
theorem Tri.insert_spec {V : Type} (t : Tri V) (hwf : t.WF) (key : List Nat) (x : V)
    (t1 : Tri V) (h : t.insert key x = some t1) :
    t1.WF ∧ ∀ k, t1.unsafeGet k = if k = key then some x else t.unsafeGet k := by
  unfold Tri.insert at h
  cases hw : t.insertWalk 0 key with
  | none => rw [hw] at h; cases h
  | some pr =>
    obtain ⟨t2, s⟩ := pr
    rw [hw] at h
    simp only [Option.some.injEq] at h
    obtain ⟨h1, h2, h3, h4, h5, h6, h7, h8⟩ :=
      Tri.insertWalk_spec key t 0 hwf.struct hwf.struct.size_pos t2 s hw
    have hst : ∀ i, t1.stateAt i =
        if i = s then { t2.stateAt s with endState := true } else t2.stateAt i := by
      intro i
      subst h
      unfold Tri.stateAt
      simp only [getD_set_state]
      by_cases hi : i = s
      · simp [hi, h3]
      · simp [hi]
    have hdel : ∀ p c, t1.delta p c = t2.delta p c := by
      intro p c
      unfold Tri.delta
      rw [hst]
      split_ifs with hp
      · rw [hp]
      · rfl
    have hlen : t1.v.length = t2.v.length := by
      subst h
      simp
    have hval : ∀ i, t1.values i = if i = s then some x else t.values i := by
      intro i
      subst h
      simp only [h5]
    have hs1 : t1.StructWF := by
      refine ⟨by rw [hlen]; exact h1.size_pos, by rw [hlen]; exact h1.size_le, ?_, ?_, ?_⟩
      · intro p c d hd
        rw [hdel] at hd
        rw [hlen]
        exact h1.edge_lt p c d hd
      · intro p c p' c' d hd hd'
        rw [hdel] at hd hd'
        exact h1.edge_inj p c p' c' d hd hd'
      · intro i
        rw [hst]
        split_ifs with hi
        · exact h1.sorted s
        · exact h1.sorted i
    refine ⟨⟨hs1, ?_⟩, ?_⟩
    · intro i
      rw [hst, hval]
      split_ifs with hi
      · simp
      · rw [h6]
        exact hwf.values_iff i
    · intro k
      have hwalk : t1.getWalk 0 k = t2.getWalk 0 k := Tri.getWalk_congr t2 t1 hdel k 0
      unfold Tri.unsafeGet
      rw [hwalk]
      split_ifs with hk
      · subst hk
        rw [h4]
        simp only [hst, hval, if_true]
      · cases hq : t2.getWalk 0 k with
        | none =>
          cases hq0 : t.getWalk 0 k with
          | none => rfl
          | some q0 =>
            rw [Tri.getWalk_mono t t2 h7 k 0 q0 hq0] at hq
            cases hq
        | some q =>
          have hqs : q ≠ s := by
            intro hqs
            subst hqs
            exact hk (Tri.getWalk_inj t2 h1 k key q hq h4)
          simp only [hst, hval, if_neg hqs, h6]
          by_cases hlt : q < t.v.length
          · rw [Tri.getWalk_old t t2 h1 h8 k 0 q hlt hq]
          · have hnew : (t.stateAt q).endState = false := by
              unfold Tri.stateAt
              rw [getD_new_of_le _ _ (by omega)]
              rfl
            rw [hnew]
            cases hq0 : t.getWalk 0 k with
            | none => rfl
            | some q0 =>
              have := Tri.getWalk_mono t t2 h7 k 0 q0 hq0
              rw [hq] at this
              simp only [Option.some.injEq] at this
              subst this
              exact absurd (Tri.getWalk_lt t hwf.struct k 0 q hwf.struct.size_pos hq0) hlt

theorem Tri.Built.wf {V : Type} {t : Tri V} (h : t.Built) : t.WF := by
  induction h with
  | empty => exact Tri.empty_wf V
  | insert key x _ hi ih => exact (Tri.insert_spec _ ih key x _ hi).1

theorem Tri.empty_unsafeGet (V : Type) (k : List Nat) : (Tri.empty V).unsafeGet k = none := by
  unfold Tri.unsafeGet
  cases hq : (Tri.empty V).getWalk 0 k with
  | none => rfl
  | some q =>
    have hv := ((Tri.empty_wf V).values_iff q)
    simp only
    split_ifs with he
    · rfl
    · rfl

theorem Tri.insertAll_built {V : Type} (kvs : List (List Nat × V)) (t t1 : Tri V)
    (hb : t.Built) (h : t.insertAll kvs = some t1) : t1.Built := by
  induction kvs generalizing t with
  | nil =>
    simp only [Tri.insertAll, Option.some.injEq] at h
    exact h ▸ hb
  | cons kv rest ih =>
    obtain ⟨k, x⟩ := kv
    simp only [Tri.insertAll] at h
    cases hi : t.insert k x with
    | none => rw [hi] at h; cases h
    | some t2 =>
      rw [hi] at h
      exact ih t2 (Tri.Built.insert k x hb hi) h

theorem Tri.insertAll_get {V : Type} (kvs : List (List Nat × V)) (t0 t : Tri V)
    (hwf : t0.WF) (h : t0.insertAll kvs = some t) (hd : (kvs.map Prod.fst).Nodup) :
    (∀ k, k ∉ kvs.map Prod.fst → t.unsafeGet k = t0.unsafeGet k) ∧
    (∀ k x, (k, x) ∈ kvs → t.unsafeGet k = some x) := by
  induction kvs generalizing t0 with
  | nil =>
    simp only [Tri.insertAll, Option.some.injEq] at h
    subst h
    exact ⟨fun _ _ => rfl, fun _ _ hm => by cases hm⟩
  | cons kv rest ih =>
    obtain ⟨k0, x0⟩ := kv
    simp only [Tri.insertAll] at h
    cases hi : t0.insert k0 x0 with
    | none => rw [hi] at h; cases h
    | some t2 =>
      rw [hi] at h
      simp only [List.map_cons, List.nodup_cons] at hd
      obtain ⟨hwf2, hget⟩ := Tri.insert_spec t0 hwf k0 x0 t2 hi
      obtain ⟨ih1, ih2⟩ := ih t2 hwf2 h hd.2
      constructor
      · intro k hk
        simp only [List.map_cons, List.mem_cons, not_or] at hk
        rw [ih1 k hk.2, hget, if_neg hk.1]
      · intro k x hm
        rcases List.mem_cons.mp hm with heq | hm
        · simp only [Prod.mk.injEq] at heq
          obtain ⟨rfl, rfl⟩ := heq
          rw [ih1 k hd.1, hget, if_pos rfl]
        · exact ih2 k x hm

theorem Tri.insertAll_isSome {V : Type} (kvs : List (List Nat × V)) (t0 t : Tri V)
    (hwf : t0.WF) (h : t0.insertAll kvs = some t) (k : List Nat) :
    (t.unsafeGet k).isSome = true ↔
      (k ∈ kvs.map Prod.fst ∨ (t0.unsafeGet k).isSome = true) := by
  induction kvs generalizing t0 with
  | nil =>
    simp only [Tri.insertAll, Option.some.injEq] at h
    subst h
    simp
  | cons kv rest ih =>
    obtain ⟨k0, x0⟩ := kv
    simp only [Tri.insertAll] at h
    cases hi : t0.insert k0 x0 with
    | none => rw [hi] at h; cases h
    | some t2 =>
      rw [hi] at h
      obtain ⟨hwf2, hget⟩ := Tri.insert_spec t0 hwf k0 x0 t2 hi
      rw [ih t2 hwf2 h, hget]
      simp only [List.map_cons, List.mem_cons]
      by_cases hk : k = k0
      · simp [hk]
      · simp only [if_neg hk, hk, false_or]
        tauto


/-! ## The pushes of `feedStack` -/

theorem pushEditOperations_append (sr : Searcher) (v : List State) (c d : Nat) (top : Item)
    (s : List Item) :
    pushEditOperations sr v c d top s = pushEditOperations sr v c d top [] ++ s := by
  unfold pushEditOperations
  simp only
  split_ifs with h
  · cases (v.getD d State.new).transitions.find (sr.deref top.nextChar) <;> simp
  · simp

theorem foldl_pushEditOperations_append (sr : Searcher) (v : List State) (top : Item)
    (l : Transitions) (a s : List Item) :
    l.foldl (fun acc t => pushEditOperations sr v t.1 t.2 top acc) (a ++ s) =
      l.foldl (fun acc t => pushEditOperations sr v t.1 t.2 top acc) a ++ s := by
  induction l generalizing a with
  | nil => rfl
  | cons x rest ih =>
    simp only [List.foldl_cons]
    rw [pushEditOperations_append sr v x.1 x.2 top (a ++ s),
      pushEditOperations_append sr v x.1 x.2 top a, ← List.append_assoc]
    exact ih _

theorem pushNoop_append (sr : Searcher) (v : List State) (top : Item) (s : List Item) :
    pushNoop sr v top s = pushNoop sr v top [] ++ s := by
  unfold pushNoop
  split_ifs with h
  · cases top.stateData.transitions.find (sr.deref top.nextChar) <;> simp
  · simp

theorem pushEdits_append (sr : Searcher) (v : List State) (top : Item) (a s : List Item) :
    pushEdits sr v top (a ++ s) = pushEdits sr v top a ++ s := by
  unfold pushEdits
  split_ifs with h1 h2
  · simp only
    rw [← List.cons_append, foldl_pushEditOperations_append]
  · simp only
    rw [foldl_pushEditOperations_append]
  · rfl

theorem feedStack_fst (sr : Searcher) (v : List State) (top : Item) (s : List Item)
    (r : Results) : (feedStack sr v top s r).1 = successors sr v top ++ s := by
  unfold feedStack successors
  simp only
  rw [pushNoop_append, pushEdits_append]

theorem mem_pushEditOperations (sr : Searcher) (v : List State) (c d : Nat) (top : Item)
    (g : Item) :
    g ∈ pushEditOperations sr v c d top [] ↔
      (g = insertionItem c (v.getD d State.new) d top ∨
       g = substitutionItem c (v.getD d State.new) d top ∨
       (top.nextChar + 1 ≠ sr.word.length ∧ sr.charEq (sr.deref (top.nextChar + 1)) c ∧
        ∃ after, (v.getD d State.new).transitions.find (sr.deref top.nextChar) = some after ∧
          g = transpositionItem (sr.deref (top.nextChar + 1)) (sr.deref top.nextChar)
            (v.getD after State.new) after top)) := by
  unfold pushEditOperations
  simp only
  split_ifs with h
  · cases hf : (v.getD d State.new).transitions.find (sr.deref top.nextChar) with
    | none => simp [h]
    | some after => simp [h]
  · simp only [List.mem_cons, List.not_mem_nil, or_false]
    constructor
    · rintro (h1 | h1)
      · exact Or.inl h1
      · exact Or.inr (Or.inl h1)
    · rintro (h1 | h1 | ⟨h2, h3, _⟩)
      · exact Or.inl h1
      · exact Or.inr h1
      · exact absurd ⟨h2, h3⟩ h

theorem mem_foldl_pushEditOperations (sr : Searcher) (v : List State) (top : Item)
    (l : Transitions) (a : List Item) (g : Item) :
    g ∈ l.foldl (fun acc t => pushEditOperations sr v t.1 t.2 top acc) a ↔
      (g ∈ a ∨ ∃ x, x ∈ l ∧ g ∈ pushEditOperations sr v x.1 x.2 top []) := by
  induction l generalizing a with
  | nil => simp
  | cons x rest ih =>
    simp only [List.foldl_cons]
    rw [ih, pushEditOperations_append, List.mem_append]
    simp only [List.mem_cons, exists_eq_or_imp]
    tauto

theorem mem_pushNoop (sr : Searcher) (v : List State) (top g : Item) :
    g ∈ pushNoop sr v top [] ↔
      (top.nextChar ≠ sr.word.length ∧
        ∃ found, top.stateData.transitions.find (sr.deref top.nextChar) = some found ∧
          g = noopItem (sr.deref top.nextChar) (v.getD found State.new) found top) := by
  unfold pushNoop
  by_cases h1 : top.nextChar ≠ sr.word.length
  · rw [if_pos h1]
    cases hf : top.stateData.transitions.find (sr.deref top.nextChar) with
    | none => simp
    | some found => simp [h1]
  · rw [if_neg h1]
    simp [h1]

theorem mem_pushEdits (sr : Searcher) (v : List State) (top g : Item) (a : List Item) :
    g ∈ pushEdits sr v top a ↔
      (g ∈ a ∨ (top.editDistance < sr.cutoffDistance ∧
        ((top.nextChar ≠ sr.word.length ∧ g = deletionItem top.stateData top.state top) ∨
          ∃ x, x ∈ top.stateData.transitions ∧
            g ∈ pushEditOperations sr v x.1 x.2 top []))) := by
  unfold pushEdits
  by_cases h1 : top.editDistance < sr.cutoffDistance
  · rw [if_pos h1]
    simp only
    rw [mem_foldl_pushEditOperations]
    by_cases h2 : top.nextChar ≠ sr.word.length
    · rw [if_pos h2]
      simp only [List.mem_cons, h1, h2, true_and]
      tauto
    · rw [if_neg h2]
      simp only [h1, h2, true_and, false_and, false_or]
  · rw [if_neg h1]
    simp [h1]

theorem mem_successors (sr : Searcher) (v : List State) (top g : Item) :
    g ∈ successors sr v top ↔ Step sr v top g := by
  unfold successors
  rw [mem_pushEdits, mem_pushNoop]
  constructor
  · rintro (⟨h1, found, h2, rfl⟩ | ⟨h1, (⟨h2, rfl⟩ | ⟨x, hx, h⟩)⟩)
    · exact Step.noop found h1 h2
    · exact Step.deletion h1 h2
    · rw [mem_pushEditOperations] at h
      rcases h with h | h | ⟨h2, h3, after, h4, h5⟩
      · subst h
        exact Step.insertion x.1 x.2 h1 hx
      · subst h
        exact Step.substitution x.1 x.2 h1 hx
      · subst h5
        exact Step.transposition x.1 x.2 after h1 hx h2 h3 h4
  · intro h
    cases h with
    | noop found h1 h2 => exact Or.inl ⟨h1, found, h2, rfl⟩
    | deletion h1 h2 => exact Or.inr ⟨h1, Or.inl ⟨h2, rfl⟩⟩
    | transposition c d after h1 h2 h3 h4 h5 =>
      refine Or.inr ⟨h1, Or.inr ⟨(c, d), h2, ?_⟩⟩
      rw [mem_pushEditOperations]
      exact Or.inr (Or.inr ⟨h3, h4, after, h5, rfl⟩)
    | substitution c d h1 h2 =>
      refine Or.inr ⟨h1, Or.inr ⟨(c, d), h2, ?_⟩⟩
      rw [mem_pushEditOperations]
      exact Or.inr (Or.inl rfl)
    | insertion c d h1 h2 =>
      refine Or.inr ⟨h1, Or.inr ⟨(c, d), h2, ?_⟩⟩
      rw [mem_pushEditOperations]
      exact Or.inl rfl

/-! ## The hit table -/

theorem Results.find_none_iff (r : Results) (k : List Nat) :
    r.find k = none ↔ k ∉ r.keys := by
  induction r with
  | nil => simp [Results.find, Results.keys]
  | cons hd tl ih =>
    obtain ⟨a, p⟩ := hd
    simp only [Results.find, Results.keys, List.map_cons, List.mem_cons, not_or]
    split_ifs with h
    · simp [h]
    · rw [ih]
      simp only [Results.keys]
      constructor
      · intro h1
        exact ⟨fun h2 => h h2.symm, h1⟩
      · intro h1
        exact h1.2

theorem Results.mem_insert (r : Results) (k : List Nat) (p : Nat × Nat)
    (e : List Nat × (Nat × Nat)) (h : e ∈ r.insert k p) : e ∈ r ∨ e = (k, p) := by
  unfold Results.insert at h
  cases hf : r.find k with
  | some q =>
    rw [hf] at h
    exact Or.inl h
  | none =>
    rw [hf] at h
    simp only [List.mem_append, List.mem_singleton] at h
    exact h

theorem Results.subset_insert (r : Results) (k : List Nat) (p : Nat × Nat)
    (e : List Nat × (Nat × Nat)) (h : e ∈ r) : e ∈ r.insert k p := by
  unfold Results.insert
  cases hf : r.find k with
  | some q => exact h
  | none => exact List.mem_append_left _ h

theorem Results.key_mem_insert (r : Results) (k : List Nat) (p : Nat × Nat) :
    k ∈ (r.insert k p).keys := by
  unfold Results.insert
  cases hf : r.find k with
  | some q =>
    by_contra hk
    rw [(Results.find_none_iff r k).mpr hk] at hf
    cases hf
  | none => simp [Results.keys]

theorem mem_recordResult (sr : Searcher) (top : Item) (r : Results)
    (e : List Nat × (Nat × Nat)) (h : e ∈ recordResult sr top r) :
    e ∈ r ∨ (top.accepting sr ∧ e = (top.candidate, (top.state, top.editDistance))) := by
  unfold recordResult at h
  split_ifs at h with h1
  · cases hf : r.find top.candidate with
    | none =>
      rw [hf] at h
      rcases Results.mem_insert _ _ _ _ h with h | h
      · exact Or.inl h
      · exact Or.inr ⟨h1, h⟩
    | some p =>
      rw [hf] at h
      simp only at h
      split_ifs at h with h2
      · rcases Results.mem_insert _ _ _ _ h with h | h
        · exact Or.inl h
        · exact Or.inr ⟨h1, h⟩
      · exact Or.inl h
  · exact Or.inl h

theorem subset_recordResult (sr : Searcher) (top : Item) (r : Results)
    (e : List Nat × (Nat × Nat)) (h : e ∈ r) : e ∈ recordResult sr top r := by
  unfold recordResult
  split_ifs with h1
  · cases hf : r.find top.candidate with
    | none => exact Results.subset_insert _ _ _ _ h
    | some p =>
      simp only
      split_ifs with h2
      · exact Results.subset_insert _ _ _ _ h
      · exact h
  · exact h

theorem accepting_recordResult (sr : Searcher) (top : Item) (r : Results)
    (h : top.accepting sr) : top.candidate ∈ (recordResult sr top r).keys := by
  unfold Item.accepting at h
  unfold recordResult
  rw [if_pos h]
  cases hf : r.find top.candidate with
  | none => exact Results.key_mem_insert _ _ _
  | some p =>
    simp only
    split_ifs with h2
    · exact Results.key_mem_insert _ _ _
    · by_contra hk
      rw [(Results.find_none_iff r _).mpr hk] at hf
      cases hf

/-! ## The loop of `tolerantFindWith` -/

theorem searchLoop_cons (sr : Searcher) (v : List State) (fuel : Nat) (top : Item)
    (s : List Item) (r : Results) :
    searchLoop sr v (fuel + 1) (top :: s) r =
      searchLoop sr v fuel (successors sr v top ++ s) (recordResult sr top r) := by
  simp only [searchLoop]
  rw [feedStack_fst]
  rfl

/-- Every entry of the final hit table stems from an accepting item that was on the
stack. -/
theorem searchLoop_sound (sr : Searcher) (v : List State) (fuel : Nat) (s : List Item)
    (r R : Results) (hs : ∀ it ∈ s, Pushed sr v it) (hr : ∀ e ∈ r, Hit sr v e)
    (h : searchLoop sr v fuel s r = some R) : ∀ e ∈ R, Hit sr v e := by
  induction fuel generalizing s r with
  | zero =>
    cases s with
    | nil =>
      simp only [searchLoop, Option.some.injEq] at h
      subst h
      exact hr
    | cons top s => simp [searchLoop] at h
  | succ fuel ih =>
    cases s with
    | nil =>
      simp only [searchLoop, Option.some.injEq] at h
      subst h
      exact hr
    | cons top s =>
      rw [searchLoop_cons] at h
      apply ih _ _ _ _ h
      · intro it hit
        rcases List.mem_append.mp hit with hit | hit
        · exact Relation.ReflTransGen.tail (hs top (List.mem_cons_self _ _)) hit
        · exact hs it (List.mem_cons_of_mem _ hit)
      · intro e he
        rcases mem_recordResult sr top r e he with he | ⟨hacc, he⟩
        · exact hr e he
        · subst he
          exact ⟨top, hs top (List.mem_cons_self _ _), hacc, rfl, rfl, rfl⟩

/-- The final hit table keeps every entry, and it has a key for every accepting item
reached from an item of the stack. -/
theorem searchLoop_complete (sr : Searcher) (v : List State) (fuel : Nat) (s : List Item)
    (r R : Results) (h : searchLoop sr v fuel s r = some R) :
    (∀ e ∈ r, e ∈ R) ∧
    ∀ it ∈ s, ∀ g, Reach sr v it g → g.accepting sr → g.candidate ∈ R.keys := by
  induction fuel generalizing s r with
  | zero =>
    cases s with
    | nil =>
      simp only [searchLoop, Option.some.injEq] at h
      subst h
      exact ⟨fun _ he => he, fun _ hit => by cases hit⟩
    | cons top s => simp [searchLoop] at h
  | succ fuel ih =>
    cases s with
    | nil =>
      simp only [searchLoop, Option.some.injEq] at h
      subst h
      exact ⟨fun _ he => he, fun _ hit => by cases hit⟩
    | cons top s =>
      rw [searchLoop_cons] at h
      obtain ⟨ih1, ih2⟩ := ih _ _ h
      refine ⟨fun e he => ih1 e (subset_recordResult sr top r e he), ?_⟩
      intro it hit g hg hacc
      rcases List.mem_cons.mp hit with rfl | hit
      · rcases Relation.ReflTransGen.cases_head hg with heq | ⟨b, hb, hbg⟩
        · subst heq
          have hk := accepting_recordResult sr it r hacc
          obtain ⟨e, he, hek⟩ := List.mem_map.mp hk
          exact List.mem_map.mpr ⟨e, ih1 e he, hek⟩
        · exact ih2 b (List.mem_append_left _ hb) g hbg hacc
      · exact ih2 it (List.mem_append_right _ hit) g hg hacc

/-! ## Termination of the loop -/

theorem Tri.mem_delta {V : Type} (t : Tri V) (h : t.StructWF) (s c d : Nat)
    (hm : (c, d) ∈ (t.stateAt s).transitions) : t.delta s c = some d :=
  Transitions.mem_find _ c d (h.sorted s) hm

theorem Step.good_of_good {V : Type} (t : Tri V) (h : t.StructWF) (sr : Searcher) (top g : Item)
    (hg : top.Good sr t.v) (hs : Step sr t.v top g) : g.Good sr t.v := by
  have hdata : top.stateData = t.stateAt top.state := hg.data
  cases hs with
  | noop found h1 h2 =>
    rw [hdata] at h2
    exact ⟨rfl, (h.edge_lt _ _ _ h2).2, hg.edits_le⟩
  | deletion h1 h2 => exact ⟨hg.data, hg.state_lt, h1⟩
  | transposition c d after h1 h2 h3 h4 h5 =>
    exact ⟨rfl, (h.edge_lt d _ after h5).2, h1⟩
  | substitution c d h1 h2 =>
    rw [hdata] at h2
    exact ⟨rfl, (h.edge_lt _ _ _ (Tri.mem_delta t h _ c d h2)).2, h1⟩
  | insertion c d h1 h2 =>
    rw [hdata] at h2
    exact ⟨rfl, (h.edge_lt _ _ _ (Tri.mem_delta t h _ c d h2)).2, h1⟩

theorem rank_lt_of_edit (sr : Searcher) (v : List State) (top g : Item)
    (h1 : top.editDistance < sr.cutoffDistance)
    (h2 : g.editDistance = top.editDistance + 1) : g.rank sr v < top.rank sr v := by
  unfold Item.rank
  rw [h2]
  obtain ⟨a, ha⟩ : ∃ a, sr.cutoffDistance - top.editDistance = a + 1 :=
    ⟨sr.cutoffDistance - top.editDistance - 1, by omega⟩
  have hb : sr.cutoffDistance - (top.editDistance + 1) = a := by omega
  rw [ha, hb, Nat.succ_mul]
  omega

theorem Step.rank_lt {V : Type} (t : Tri V) (h : t.StructWF) (sr : Searcher) (top g : Item)
    (hg : top.Good sr t.v) (hs : Step sr t.v top g) : g.rank sr t.v < top.rank sr t.v := by
  have hdata : top.stateData = t.stateAt top.state := hg.data
  cases hs with
  | noop found h1 h2 =>
    rw [hdata] at h2
    have := h.edge_lt _ _ _ h2
    unfold Item.rank noopItem
    simp only
    omega
  | deletion h1 h2 => exact rank_lt_of_edit sr t.v top _ h1 rfl
  | transposition c d after h1 h2 h3 h4 h5 => exact rank_lt_of_edit sr t.v top _ h1 rfl
  | substitution c d h1 h2 => exact rank_lt_of_edit sr t.v top _ h1 rfl
  | insertion c d h1 h2 => exact rank_lt_of_edit sr t.v top _ h1 rfl

theorem length_pushEditOperations (sr : Searcher) (v : List State) (c d : Nat) (top : Item)
    (s : List Item) : (pushEditOperations sr v c d top s).length ≤ s.length + 3 := by
  unfold pushEditOperations
  simp only
  split_ifs with h
  · cases (v.getD d State.new).transitions.find (sr.deref top.nextChar) <;> simp
  · simp

theorem length_foldl_pushEditOperations (sr : Searcher) (v : List State) (top : Item)
    (l : Transitions) (a : List Item) :
    (l.foldl (fun acc t => pushEditOperations sr v t.1 t.2 top acc) a).length ≤
      a.length + 3 * l.length := by
  induction l generalizing a with
  | nil => simp
  | cons x rest ih =>
    simp only [List.foldl_cons, List.length_cons]
    have h1 := ih (pushEditOperations sr v x.1 x.2 top a)
    have h2 := length_pushEditOperations sr v x.1 x.2 top a
    omega

theorem length_successors (sr : Searcher) (v : List State) (top : Item) :
    (successors sr v top).length ≤ 3 * top.stateData.transitions.length + 2 := by
  have hn : (pushNoop sr v top []).length ≤ 1 := by
    unfold pushNoop
    split_ifs with h
    · cases top.stateData.transitions.find (sr.deref top.nextChar) <;> simp
    · simp
  unfold successors pushEdits
  split_ifs with h1 h2
  · have := length_foldl_pushEditOperations sr v top top.stateData.transitions
      (deletionItem top.stateData top.state top :: pushNoop sr v top [])
    simp only [List.length_cons] at this ⊢
    omega
  · have := length_foldl_pushEditOperations sr v top top.stateData.transitions
      (pushNoop sr v top [])
    simp only at this ⊢
    omega
  · omega

theorem le_maxDegree (v : List State) (s : State) (h : s ∈ v) :
    s.transitions.length ≤ maxDegree v := by
  unfold maxDegree
  induction v with
  | nil => cases h
  | cons a rest ih =>
    simp only [List.map_cons, List.foldr_cons]
    rcases List.mem_cons.mp h with rfl | h
    · exact le_max_left _ _
    · exact le_trans (ih h) (le_max_right _ _)

theorem getD_le_maxDegree (v : List State) (i : Nat) :
    (v.getD i State.new).transitions.length ≤ maxDegree v := by
  by_cases h : i < v.length
  · rw [List.getD_eq_getElem _ _ h]
    exact le_maxDegree v _ (List.getElem_mem h)
  · rw [getD_new_of_le v i (by omega)]
    exact Nat.zero_le _

theorem sum_weight_lt (sr : Searcher) (v : List State) (top : Item) (l : List Item)
    (hr : ∀ g ∈ l, g.rank sr v < top.rank sr v)
    (hl : l.length ≤ 3 * maxDegree v + 2) :
    (l.map (Item.weight sr v)).sum + 1 ≤ top.weight sr v := by
  unfold Item.weight
  cases hrk : top.rank sr v with
  | zero =>
    cases l with
    | nil => simp
    | cons g rest =>
      have := hr g (List.mem_cons_self _ _)
      omega
  | succ n =>
    have hC : 0 < 3 * maxDegree v + 3 := by omega
    have hb : ∀ x ∈ l.map (fun it : Item => (3 * maxDegree v + 3) ^ it.rank sr v),
        x ≤ (3 * maxDegree v + 3) ^ n := by
      intro x hx
      obtain ⟨g, hg, rfl⟩ := List.mem_map.mp hx
      have := hr g hg
      exact Nat.pow_le_pow_right hC (by omega)
    have hsum := List.sum_le_card_nsmul _ _ hb
    simp only [List.length_map, smul_eq_mul] at hsum
    have hone : 1 ≤ (3 * maxDegree v + 3) ^ n := Nat.one_le_pow _ _ hC
    have hmul : l.length * (3 * maxDegree v + 3) ^ n ≤
        (3 * maxDegree v + 2) * (3 * maxDegree v + 3) ^ n := Nat.mul_le_mul_right _ hl
    calc (l.map fun it : Item => (3 * maxDegree v + 3) ^ it.rank sr v).sum + 1
        ≤ (3 * maxDegree v + 2) * (3 * maxDegree v + 3) ^ n
            + (3 * maxDegree v + 3) ^ n := by omega
      _ = (3 * maxDegree v + 3) ^ (n + 1) := by ring

/-- With fuel for the weights of the items on the stack, the loop returns a hit
table. -/
theorem searchLoop_terminates {V : Type} (t : Tri V) (h : t.StructWF) (sr : Searcher)
    (fuel : Nat) (s : List Item) (r : Results) (hs : ∀ it ∈ s, it.Good sr t.v)
    (hf : (s.map (Item.weight sr t.v)).sum ≤ fuel) :
    ∃ R, searchLoop sr t.v fuel s r = some R := by
  induction fuel generalizing s r with
  | zero =>
    cases s with
    | nil => exact ⟨r, rfl⟩
    | cons top s =>
      have := sum_weight_lt sr t.v top [] (fun _ hg => by cases hg) (by simp)
      simp only [List.map_cons, List.sum_cons, List.map_nil, List.sum_nil] at hf this
      omega
  | succ fuel ih =>
    cases s with
    | nil => exact ⟨r, rfl⟩
    | cons top s =>
      rw [searchLoop_cons]
      have htop := hs top (List.mem_cons_self _ _)
      apply ih
      · intro it hit
        rcases List.mem_append.mp hit with hit | hit
        · exact Step.good_of_good t h sr top it htop ((mem_successors sr t.v top it).mp hit)
        · exact hs it (List.mem_cons_of_mem _ hit)
      · have hlen : (successors sr t.v top).length ≤ 3 * maxDegree t.v + 2 := by
          have h1 := length_successors sr t.v top
          have h2 := getD_le_maxDegree t.v top.state
          rw [← htop.data] at h2
          omega
        have := sum_weight_lt sr t.v top (successors sr t.v top)
          (fun g hg => Step.rank_lt t h sr top g htop ((mem_successors sr t.v top g).mp hg))
          hlen
        simp only [List.map_cons, List.sum_cons, List.map_append, List.sum_append] at hf ⊢
        omega

theorem initialItem_good {V : Type} (t : Tri V) (h : t.StructWF) (sr : Searcher) :
    (initialItem 0 t.v).Good sr t.v :=
  ⟨rfl, h.size_pos, Nat.zero_le _⟩

theorem weight_initialItem_le (sr : Searcher) (v : List State) :
    (initialItem 0 v).weight sr v ≤ searchFuel v sr.cutoffDistance := by
  unfold Item.weight searchFuel Item.rank initialItem
  apply Nat.pow_le_pow_right (by omega)
  simp only [Nat.sub_zero]
  rw [Nat.succ_mul]
  omega

theorem Pushed.good {V : Type} (t : Tri V) (h : t.StructWF) (sr : Searcher) (it : Item)
    (hp : Pushed sr t.v it) : it.Good sr t.v := by
  induction hp with
  | refl => exact initialItem_good t h sr
  | tail _ hs ih => exact Step.good_of_good t h sr _ _ ih ((mem_successors sr t.v _ _).mp hs)

/-! ## The result of `tolerantFind` -/

theorem mem_packageResults {V : Type} (values : Nat → Option V) (R : Results)
    (out : List (TolerantResult V)) (h : packageResults values R = some out)
    (r : TolerantResult V) :
    r ∈ out ↔ ∃ e ∈ R, values e.2.1 = some r.second ∧ r.first = e.1 ∧
      r.editDistance = e.2.2 := by
  induction R generalizing out with
  | nil =>
    simp only [packageResults, Option.some.injEq] at h
    subst h
    simp
  | cons hd tl ih =>
    obtain ⟨k, p⟩ := hd
    simp only [packageResults] at h
    cases hv : values p.1 with
    | none => simp [hv] at h
    | some x =>
      cases hp : packageResults values tl with
      | none => simp [hv, hp] at h
      | some out1 =>
        simp only [hv, hp, Option.some.injEq] at h
        subst h
        simp only [List.mem_cons, ih out1 hp, exists_eq_or_imp]
        constructor
        · rintro (rfl | h1)
          · exact Or.inl ⟨hv, rfl, rfl⟩
          · exact Or.inr h1
        · rintro (⟨h1, h2, h3⟩ | h1)
          · left
            rw [hv] at h1
            simp only [Option.some.injEq] at h1
            cases r
            simp only at h1 h2 h3
            subst h1 h2 h3
            rfl
          · exact Or.inr h1

theorem packageResults_isSome {V : Type} (values : Nat → Option V) (R : Results)
    (h : ∀ e ∈ R, (values e.2.1).isSome = true) :
    ∃ out, packageResults values R = some out := by
  induction R with
  | nil => exact ⟨[], rfl⟩
  | cons hd tl ih =>
    obtain ⟨k, p⟩ := hd
    obtain ⟨out1, h1⟩ := ih (fun e he => h e (List.mem_cons_of_mem _ he))
    have h2 := h (k, p) (List.mem_cons_self _ _)
    obtain ⟨x, hx⟩ := Option.isSome_iff_exists.mp h2
    simp only at hx
    exact ⟨⟨k, x, p.2⟩ :: out1, by simp [packageResults, hx, h1]⟩

/-- On any trie, whatever `tolerantFind` returns is the packaging of a hit table all of
whose entries stem from accepting items that were on the stack. -/
theorem Tri.tolerantFind_sound {V : Type} (t : Tri V) (mem : Nat → Nat) (sc : Bool) (q : List Nat)
    (c : Nat) (out : List (TolerantResult V)) (h : t.tolerantFind mem sc q c = some out)
    (r : TolerantResult V) (hr : r ∈ out) :
    ∃ it, Pushed ⟨q, c, mem, sc⟩ t.v it ∧ it.accepting ⟨q, c, mem, sc⟩ ∧ it.candidate = r.first ∧
      it.editDistance = r.editDistance ∧ t.values it.state = some r.second := by
  unfold Tri.tolerantFind Tri.tolerantFindWith at h
  cases hl : searchLoop ⟨q, c, mem, sc⟩ t.v (searchFuel t.v c) [initialItem 0 t.v] [] with
  | none => simp [hl] at h
  | some R =>
    simp only [hl] at h
    obtain ⟨e, he, h1, h2, h3⟩ := (mem_packageResults t.values R out h r).mp hr
    have hs := searchLoop_sound ⟨q, c, mem, sc⟩ t.v _ _ _ R
      (by
        intro it hit
        rw [List.mem_singleton.mp hit]
        exact Relation.ReflTransGen.refl)
      (fun _ he => by cases he) hl e he
    obtain ⟨it, hp, hacc, hc, hst, hed⟩ := hs
    exact ⟨it, hp, hacc, hc.trans h2.symm, hed.trans h3.symm, by rw [hst]; exact h1⟩

/-- On a well-formed trie `tolerantFind` returns, and the candidate of every accepting
item that is ever on the stack is among the results. -/
theorem Tri.tolerantFind_complete {V : Type} (t : Tri V) (hwf : t.WF) (mem : Nat → Nat) (sc : Bool)
    (q : List Nat) (c : Nat) :
    ∃ out, t.tolerantFind mem sc q c = some out ∧
      ∀ g, Pushed ⟨q, c, mem, sc⟩ t.v g → g.accepting ⟨q, c, mem, sc⟩ →
        ∃ r ∈ out, r.first = g.candidate := by
  obtain ⟨R, hl⟩ := searchLoop_terminates t hwf.struct ⟨q, c, mem, sc⟩ (searchFuel t.v c)
    [initialItem 0 t.v] []
    (by
      intro it hit
      rw [List.mem_singleton.mp hit]
      exact initialItem_good t hwf.struct _)
    (by
      simp only [List.map_cons, List.map_nil, List.sum_cons, List.sum_nil, Nat.add_zero]
      exact weight_initialItem_le ⟨q, c, mem, sc⟩ t.v)
  have hs := searchLoop_sound ⟨q, c, mem, sc⟩ t.v _ _ _ R
    (by
      intro it hit
      rw [List.mem_singleton.mp hit]
      exact Relation.ReflTransGen.refl)
    (fun _ he => by cases he) hl
  have hval : ∀ e ∈ R, (t.values e.2.1).isSome = true := by
    intro e he
    obtain ⟨it, hp, hacc, _, hst, _⟩ := hs e he
    have hg := Pushed.good t hwf.struct _ it hp
    rw [← hst]
    apply (hwf.values_iff it.state).mp
    have := hacc.2
    rw [hg.data] at this
    exact this
  obtain ⟨out, ho⟩ := packageResults_isSome t.values R hval
  refine ⟨out, ?_, ?_⟩
  · unfold Tri.tolerantFind Tri.tolerantFindWith
    simp only [hl]
    exact ho
  · intro g hg hacc
    have hk := (searchLoop_complete ⟨q, c, mem, sc⟩ t.v _ _ _ R hl).2 _
      (List.mem_singleton.mpr rfl) g hg hacc
    obtain ⟨e, he, hek⟩ := List.mem_map.mp hk
    obtain ⟨x, hx⟩ := Option.isSome_iff_exists.mp (hval e he)
    exact ⟨⟨e.1, x, e.2.2⟩, (mem_packageResults t.values R out ho _).mpr
      ⟨e, he, hx, rfl, rfl⟩, hek⟩

/-! ## Edit chains -/

theorem EditStep.append_right_step {a b : List Nat} (s : List Nat) (h : EditStep a b) :
    EditStep (a ++ s) (b ++ s) := by
  cases h with
  | insertion l r x =>
    have := EditStep.insertion l (r ++ s) x
    simpa using this
  | deletion l r x =>
    have := EditStep.deletion l (r ++ s) x
    simpa using this
  | substitution l r x y hxy =>
    have := EditStep.substitution l (r ++ s) x y hxy
    simpa using this
  | transposition l r x y hxy =>
    have := EditStep.transposition l (r ++ s) x y hxy
    simpa using this

theorem EditChain.append_right {n : Nat} {a b : List Nat} (s : List Nat)
    (h : EditChain n a b) : EditChain n (a ++ s) (b ++ s) := by
  induction h with
  | nil a => exact EditChain.nil _
  | cons hs _ ih => exact EditChain.cons (hs.append_right_step s) ih

theorem EditChain.snoc {n : Nat} {a b c : List Nat} (h : EditChain n a b)
    (hs : EditStep b c) : EditChain (n + 1) a c := by
  induction h with
  | nil a => exact EditChain.cons hs (EditChain.nil _)
  | cons h1 _ ih => exact EditChain.cons h1 (ih hs)

theorem EditChain.eq_of_zero {a b : List Nat} (h : EditChain 0 a b) : a = b := by
  cases h
  rfl

theorem take_succ_getD (l : List Nat) (i d : Nat) (h : i < l.length) :
    l.take (i + 1) = l.take i ++ [l.getD i d] := by
  rw [List.take_succ, List.getD_eq_getElem _ _ h, List.getElem?_eq_getElem h]
  rfl

theorem Searcher.take_succ (sr : Searcher) (i : Nat) (h : i < sr.word.length) :
    sr.word.take (i + 1) = sr.word.take i ++ [sr.deref i] :=
  take_succ_getD sr.word i _ h

/-- The edit count of an item on the stack whose iterator is inside the query bounds the
Damerau-Levenshtein distance of the consumed part of the query and the candidate. -/
theorem Pushed.dl (sr : Searcher) (v : List State) (it : Item) (hp : Pushed sr v it)
    (hn : it.nextChar ≤ sr.word.length) :
    DLWithin it.editDistance (sr.word.take it.nextChar) it.candidate := by
  induction hp with
  | refl => exact ⟨0, le_refl _, EditChain.nil _⟩
  | @tail top g _ hs ih =>
    cases (mem_successors sr v top g).mp hs with
    | noop found h1 h2 =>
      simp only [noopItem] at hn ⊢
      obtain ⟨m, hm, hc⟩ := ih (by omega)
      rw [sr.take_succ _ (by omega)]
      exact ⟨m, hm, hc.append_right _⟩
    | deletion h1 h2 =>
      simp only [deletionItem] at hn ⊢
      obtain ⟨m, hm, hc⟩ := ih (by omega)
      rw [sr.take_succ _ (by omega)]
      refine ⟨m + 1, by omega, EditChain.cons ?_ hc⟩
      have := EditStep.deletion (sr.word.take top.nextChar) [] (sr.deref top.nextChar)
      simpa using this
    | transposition c d after h1 h2 h3 h4 h5 =>
      simp only [transpositionItem] at hn ⊢
      obtain ⟨m, hm, hc⟩ := ih (by omega)
      rw [show top.nextChar + 2 = (top.nextChar + 1) + 1 from rfl,
        sr.take_succ _ (by omega), sr.take_succ _ (by omega)]
      have h6 := hc.append_right [sr.deref top.nextChar, sr.deref (top.nextChar + 1)]
      by_cases hxy : sr.deref top.nextChar = sr.deref (top.nextChar + 1)
      · refine ⟨m, by omega, ?_⟩
        rw [← hxy] at h6 ⊢
        simpa using h6
      · refine ⟨m + 1, by omega, ?_⟩
        have h7 := EditStep.transposition top.candidate [] (sr.deref top.nextChar)
          (sr.deref (top.nextChar + 1)) hxy
        have h8 := h6.snoc h7
        simpa using h8
    | substitution c d h1 h2 =>
      simp only [substitutionItem] at hn ⊢
      obtain ⟨m, hm, hc⟩ := ih (by omega)
      rw [sr.take_succ _ (by omega)]
      have h6 := hc.append_right [sr.deref top.nextChar]
      by_cases hxy : sr.deref top.nextChar = c
      · refine ⟨m, by omega, ?_⟩
        rw [← hxy]
        exact h6
      · refine ⟨m + 1, by omega, ?_⟩
        have h7 := EditStep.substitution top.candidate [] (sr.deref top.nextChar) c hxy
        exact h6.snoc h7
    | insertion c d h1 h2 =>
      simp only [insertionItem] at hn ⊢
      obtain ⟨m, hm, hc⟩ := ih hn
      refine ⟨m + 1, by omega, ?_⟩
      have h7 := EditStep.insertion top.candidate [] c
      rw [List.append_nil] at h7
      exact hc.snoc h7

theorem Pushed.edits_le (sr : Searcher) (v : List State) (it : Item) (hp : Pushed sr v it) :
    it.editDistance ≤ sr.cutoffDistance := by
  induction hp with
  | refl => exact Nat.zero_le _
  | @tail top g _ hs ih =>
    cases (mem_successors sr v top g).mp hs with
    | noop found h1 h2 => exact ih
    | deletion h1 h2 => exact h1
    | transposition c d after h1 h2 h3 h4 h5 => exact h1
    | substitution c d h1 h2 => exact h1
    | insertion c d h1 h2 => exact h1

/-! ## Alignments are explored -/

theorem list_drop_eq_cons (l : List Nat) (i x d : Nat) (a : List Nat) (h : l.drop i = x :: a) :
    i < l.length ∧ l.getD i d = x ∧ l.drop (i + 1) = a := by
  induction l generalizing i with
  | nil => simp at h
  | cons y rest ih =>
    cases i with
    | zero =>
      simp only [List.drop_zero, List.cons.injEq] at h
      obtain ⟨rfl, rfl⟩ := h
      simp
    | succ j =>
      simp only [List.drop_succ_cons] at h
      obtain ⟨h1, h2, h3⟩ := ih j h
      refine ⟨by simp only [List.length_cons]; omega, ?_, ?_⟩
      · simpa using h2
      · simpa using h3

theorem Searcher.drop_eq_cons (sr : Searcher) (i x : Nat) (a : List Nat)
    (h : sr.word.drop i = x :: a) :
    i < sr.word.length ∧ sr.deref i = x ∧ sr.word.drop (i + 1) = a :=
  list_drop_eq_cons sr.word i x _ a h

theorem Tri.getWalk_cons {V : Type} (t : Tri V) (p c : Nat) (rest : List Nat) (q : Nat)
    (h : t.getWalk p (c :: rest) = some q) :
    ∃ next, (t.stateAt p).transitions.find c = some next ∧ t.getWalk next rest = some q := by
  simp only [Tri.getWalk] at h
  cases hf : (t.stateAt p).transitions.find c with
  | none => rw [hf] at h; cases h
  | some next =>
    rw [hf] at h
    exact ⟨next, rfl, h⟩

/-- An alignment of the rest of the query with a word that leads from the state of an
item to an end state is followed by the search, when the cutoff allows its cost; where
`char` is signed, when the alignment has no cost, or the rest of the query or the word
holds only bytes below 128. -/
theorem reach_of_osa {V : Type} (t : Tri V) (sr : Searcher) (n : Nat) (a b : List Nat)
    (h : OSA n a b) (top : Item) (hdata : top.stateData = t.stateAt top.state)
    (hdrop : sr.word.drop top.nextChar = a) (hle : top.nextChar ≤ sr.word.length)
    (hed : top.editDistance + n ≤ sr.cutoffDistance) (sf : Nat)
    (hw : t.getWalk top.state b = some sf) (hend : (t.stateAt sf).endState = true)
    (hbytes : sr.signedChar = true → n = 0 ∨ (∀ c ∈ a, c < 128) ∨ (∀ c ∈ b, c < 128)) :
    ∃ g, Reach sr t.v top g ∧ g.accepting sr ∧ g.candidate = top.candidate ++ b ∧
      g.state = sf := by
  induction h generalizing top with
  | nil =>
    simp only [Tri.getWalk, Option.some.injEq] at hw
    subst hw
    refine ⟨top, Relation.ReflTransGen.refl, ⟨?_, ?_⟩, by simp, rfl⟩
    · have := List.drop_eq_nil_iff.mp hdrop
      omega
    · rw [hdata]
      exact hend
  | @keep n a b x _ ih =>
    obtain ⟨h1, h2, h3⟩ := sr.drop_eq_cons _ _ _ hdrop
    obtain ⟨next, hf, hw1⟩ := Tri.getWalk_cons t _ _ _ _ hw
    have hstep : Step sr t.v top (noopItem (sr.deref top.nextChar)
        (t.v.getD next State.new) next top) :=
      Step.noop next (by omega) (by rw [hdata, h2]; exact hf)
    obtain ⟨g, hg1, hg2, hg3, hg4⟩ := ih (noopItem (sr.deref top.nextChar)
      (t.v.getD next State.new) next top) rfl h3 (by simp only [noopItem]; omega) hed hw1
      (fun hs => (hbytes hs).imp id (Or.imp (fun h c hc => h c (List.mem_cons_of_mem _ hc))
        (fun h c hc => h c (List.mem_cons_of_mem _ hc))))
    refine ⟨g, Relation.ReflTransGen.head ((mem_successors _ _ _ _).mpr hstep) hg1, hg2, ?_, hg4⟩
    rw [hg3, h2]
    simp [noopItem]
  | @substitution n a b x y _ ih =>
    obtain ⟨h1, h2, h3⟩ := sr.drop_eq_cons _ _ _ hdrop
    obtain ⟨next, hf, hw1⟩ := Tri.getWalk_cons t _ _ _ _ hw
    have hstep : Step sr t.v top (substitutionItem y (t.v.getD next State.new) next top) :=
      Step.substitution y next (by omega)
        (by rw [hdata]; exact Transitions.find_mem _ _ _ hf)
    obtain ⟨g, hg1, hg2, hg3, hg4⟩ := ih (substitutionItem y (t.v.getD next State.new) next top)
      rfl h3 (by simp only [substitutionItem]; omega)
      (by simp only [substitutionItem]; omega) hw1
      (fun hs => Or.inr (((hbytes hs).resolve_left (Nat.succ_ne_zero _)).imp
        (fun h c hc => h c (List.mem_cons_of_mem _ hc))
        (fun h c hc => h c (List.mem_cons_of_mem _ hc))))
    refine ⟨g, Relation.ReflTransGen.head ((mem_successors _ _ _ _).mpr hstep) hg1, hg2, ?_, hg4⟩
    rw [hg3]
    simp [substitutionItem]
  | @insertion n a b y _ ih =>
    obtain ⟨next, hf, hw1⟩ := Tri.getWalk_cons t _ _ _ _ hw
    have hstep : Step sr t.v top (insertionItem y (t.v.getD next State.new) next top) :=
      Step.insertion y next (by omega)
        (by rw [hdata]; exact Transitions.find_mem _ _ _ hf)
    obtain ⟨g, hg1, hg2, hg3, hg4⟩ := ih (insertionItem y (t.v.getD next State.new) next top)
      rfl hdrop hle (by simp only [insertionItem]; omega) hw1
      (fun hs => Or.inr (((hbytes hs).resolve_left (Nat.succ_ne_zero _)).imp id
        (fun h c hc => h c (List.mem_cons_of_mem _ hc))))
    refine ⟨g, Relation.ReflTransGen.head ((mem_successors _ _ _ _).mpr hstep) hg1, hg2, ?_, hg4⟩
    rw [hg3]
    simp [insertionItem]
  | @deletion n a b x _ ih =>
    obtain ⟨h1, h2, h3⟩ := sr.drop_eq_cons _ _ _ hdrop
    have hstep : Step sr t.v top (deletionItem top.stateData top.state top) :=
      Step.deletion (by omega) (by omega)
    obtain ⟨g, hg1, hg2, hg3, hg4⟩ := ih (deletionItem top.stateData top.state top)
      hdata h3 (by simp only [deletionItem]; omega)
      (by simp only [deletionItem]; omega) hw
      (fun hs => Or.inr (((hbytes hs).resolve_left (Nat.succ_ne_zero _)).imp
        (fun h c hc => h c (List.mem_cons_of_mem _ hc)) id))
    refine ⟨g, Relation.ReflTransGen.head ((mem_successors _ _ _ _).mpr hstep) hg1, hg2, ?_, hg4⟩
    rw [hg3]
    simp [deletionItem]
  | @transposition n a b x y _ ih =>
    obtain ⟨h1, h2, h3⟩ := sr.drop_eq_cons _ _ _ hdrop
    obtain ⟨h4, h5, h6⟩ := sr.drop_eq_cons _ _ _ h3
    obtain ⟨d, hf, hw1⟩ := Tri.getWalk_cons t _ _ _ _ hw
    obtain ⟨after, hf2, hw2⟩ := Tri.getWalk_cons t _ _ _ _ hw1
    have hstep : Step sr t.v top (transpositionItem (sr.deref (top.nextChar + 1))
        (sr.deref top.nextChar) (t.v.getD after State.new) after top) :=
      Step.transposition y d after (by omega)
        (by rw [hdata]; exact Transitions.find_mem _ _ _ hf) (by omega)
        ⟨h5, fun hs => by
          rw [h5]
          rcases (hbytes hs).resolve_left (Nat.succ_ne_zero _) with hb | hb
          · exact hb y (List.mem_cons_of_mem _ (List.mem_cons_self _ _))
          · exact hb y (List.mem_cons_self _ _)⟩
        (by rw [h2]; exact hf2)
    obtain ⟨g, hg1, hg2, hg3, hg4⟩ := ih (transpositionItem (sr.deref (top.nextChar + 1))
      (sr.deref top.nextChar) (t.v.getD after State.new) after top) rfl h6
      (by simp only [transpositionItem]; omega)
      (by simp only [transpositionItem]; omega) hw2
      (fun hs => Or.inr (((hbytes hs).resolve_left (Nat.succ_ne_zero _)).imp
        (fun h c hc => h c (List.mem_cons_of_mem _ (List.mem_cons_of_mem _ hc)))
        (fun h c hc => h c (List.mem_cons_of_mem _ (List.mem_cons_of_mem _ hc)))))
    refine ⟨g, Relation.ReflTransGen.head ((mem_successors _ _ _ _).mpr hstep) hg1, hg2, ?_, hg4⟩
    rw [hg3, h2, h5]
    simp [transpositionItem]

theorem OSA.refl (r : List Nat) : OSA 0 r r := by
  induction r with
  | nil => exact OSA.nil
  | cons x rest ih => exact OSA.keep x ih

theorem OSA.keep_append {n : Nat} {a b : List Nat} (l : List Nat) (h : OSA n a b) :
    OSA n (l ++ a) (l ++ b) := by
  induction l with
  | nil => exact h
  | cons x rest ih => exact OSA.keep x ih

theorem SingleEdit.osa {w q : List Nat} (h : SingleEdit w q) : OSA 1 q w := by
  cases h with
  | replace l r x y _ => exact OSA.keep_append l (OSA.substitution y x (OSA.refl r))
  | remove l r x => exact OSA.keep_append l (OSA.insertion x (OSA.refl r))
  | add l r x => exact OSA.keep_append l (OSA.deletion x (OSA.refl r))
  | swap l r x y _ => exact OSA.keep_append l (OSA.transposition y x (OSA.refl r))

theorem SingleEdit.ne {w q : List Nat} (h : SingleEdit w q) : q ≠ w := by
  cases h with
  | replace l r x y hxy =>
    intro he
    have := List.append_cancel_left he
    simp only [List.cons.injEq] at this
    exact hxy this.1.symm
  | remove l r x =>
    intro he
    have := congrArg List.length he
    simp at this
  | add l r x =>
    intro he
    have := congrArg List.length he
    simp at this
  | swap l r x y hxy =>
    intro he
    have := List.append_cancel_left he
    simp only [List.cons.injEq] at this
    exact hxy this.1.symm

theorem Tri.unsafeGet_some {V : Type} (t : Tri V) (w : List Nat) (x : V)
    (h : t.unsafeGet w = some x) :
    ∃ sf, t.getWalk 0 w = some sf ∧ (t.stateAt sf).endState = true ∧
      t.values sf = some x := by
  unfold Tri.unsafeGet at h
  cases hq : t.getWalk 0 w with
  | none => rw [hq] at h; cases h
  | some sf =>
    rw [hq] at h
    simp only at h
    split_ifs at h with he
    exact ⟨sf, rfl, he, h⟩

/-- On a well-formed trie, a key whose optimal-string-alignment distance to the query is
within the cutoff is a candidate of the result; where `char` is signed, when the cutoff
is 0, or the query or the key holds only bytes below 128. -/
theorem Tri.tolerantFind_osa {V : Type} (t : Tri V) (hwf : t.WF) (mem : Nat → Nat) (sc : Bool)
    (q w : List Nat) (k : Nat) (x : V) (hw : t.unsafeGet w = some x)
    (hd : OSAWithin k q w)
    (hbytes : sc = true → k = 0 ∨ (∀ c ∈ q, c < 128) ∨ (∀ c ∈ w, c < 128)) :
    ∃ out, t.tolerantFind mem sc q k = some out ∧ ∃ r ∈ out, r.first = w := by
  obtain ⟨out, ho, hall⟩ := Tri.tolerantFind_complete t hwf mem sc q k
  obtain ⟨sf, hwalk, hend, _⟩ := Tri.unsafeGet_some t w x hw
  obtain ⟨n, hn, hosa⟩ := hd
  obtain ⟨g, hg1, hg2, hg3, _⟩ := reach_of_osa t ⟨q, k, mem, sc⟩ n q w hosa (initialItem 0 t.v)
    rfl rfl (Nat.zero_le _) (by simp only [initialItem]; omega) sf hwalk hend
    (fun hs => (hbytes hs).imp (fun h0 => by omega) id)
  obtain ⟨r, hr, hrc⟩ := hall g hg1 hg2
  refine ⟨out, ho, r, hr, ?_⟩
  rw [hrc, hg3]
  rfl

/-! ## Candidates spell paths -/

/-- The candidate of every item on the stack spells the path from state 0 to the state of
the item. -/
theorem Pushed.walk {V : Type} (t : Tri V) (h : t.StructWF) (sr : Searcher) (it : Item)
    (hp : Pushed sr t.v it) : t.getWalk 0 it.candidate = some it.state := by
  induction hp with
  | refl => rfl
  | @tail top g hpt hs ih =>
    have hg : top.Good sr t.v := Pushed.good t h sr top hpt
    have hdata : top.stateData = t.stateAt top.state := hg.data
    cases (mem_successors sr t.v top g).mp hs with
    | noop found h1 h2 =>
      rw [hdata] at h2
      simp only [noopItem, Tri.getWalk_snoc, ih, Option.some_bind]
      exact h2
    | deletion h1 h2 => exact ih
    | transposition c d after h1 h2 h3 h4 h5 =>
      rw [hdata] at h2
      have hd := Tri.mem_delta t h _ c d h2
      simp only [transpositionItem, Tri.getWalk_snoc, ih, Option.some_bind, h4.1, hd]
      exact h5
    | substitution c d h1 h2 =>
      rw [hdata] at h2
      simp only [substitutionItem, Tri.getWalk_snoc, ih, Option.some_bind]
      exact Tri.mem_delta t h _ c d h2
    | insertion c d h1 h2 =>
      rw [hdata] at h2
      simp only [insertionItem, Tri.getWalk_snoc, ih, Option.some_bind]
      exact Tri.mem_delta t h _ c d h2

/-! ## The empty key, capacity, and the number of states -/

theorem Tri.structWF_extend {V : Type} (t : Tri V) (hwf : t.StructWF) (cur c : Nat)
    (hcur : cur < t.v.length) (hnone : t.delta cur c = none) (hlt : t.v.length < uintMax) :
    (Tri.setTransition { t with v := t.v ++ [State.new] } cur c t.v.length).StructWF ∧
    (Tri.setTransition { t with v := t.v ++ [State.new] } cur c t.v.length).v.length =
      t.v.length + 1 ∧
    ∀ p c', (Tri.setTransition { t with v := t.v ++ [State.new] } cur c t.v.length).delta p c' =
      if p = cur ∧ c' = c then some t.v.length else t.delta p c' := by
  have hlen : (Tri.setTransition { t with v := t.v ++ [State.new] } cur c
      t.v.length).v.length = t.v.length + 1 := by
    rw [Tri.setTransition_length]
    simp
  have hcur1 : cur < (t.v ++ [State.new]).length := by
    simp only [List.length_append, List.length_singleton]
    omega
  have hdel : ∀ p c', (Tri.setTransition { t with v := t.v ++ [State.new] } cur c
      t.v.length).delta p c' =
      if p = cur ∧ c' = c then some t.v.length else t.delta p c' := by
    intro p c'
    rw [Tri.delta_setTransition _ _ _ _ hcur1, Tri.delta_push]
  refine ⟨⟨by omega, by omega, ?_, ?_, ?_⟩, hlen, hdel⟩
  · intro p c' d hd
    rw [hdel] at hd
    rw [hlen]
    split_ifs at hd with hpc
    · simp only [Option.some.injEq] at hd
      obtain ⟨rfl, rfl⟩ := hpc
      omega
    · have := hwf.edge_lt p c' d hd
      omega
  · intro p c' p' c'' d hd hd'
    rw [hdel] at hd hd'
    split_ifs at hd with hpc
    · split_ifs at hd' with hpc'
      · exact ⟨hpc.1.trans hpc'.1.symm, hpc.2.trans hpc'.2.symm⟩
      · simp only [Option.some.injEq] at hd
        have := (hwf.edge_lt p' c'' d hd').2
        omega
    · split_ifs at hd' with hpc'
      · simp only [Option.some.injEq] at hd'
        have := (hwf.edge_lt p c' d hd).2
        omega
      · exact hwf.edge_inj p c' p' c'' d hd hd'
  · intro i
    rw [Tri.transitions_setTransition]
    simp only [Tri.stateAt_push]
    split_ifs with hi
    · exact Transitions.assign_sorted _ _ _ (hwf.sorted cur)
    · exact hwf.sorted i

theorem Tri.missingFrom_fresh {V : Type} (t : Tri V) (n : Nat) (rest : List Nat)
    (h : ∀ c, t.delta n c = none) : t.missingFrom n rest = rest.length := by
  cases rest with
  | nil => rfl
  | cons c r =>
    have := h c
    unfold Tri.delta at this
    simp only [Tri.missingFrom, this, List.length_cons]

/-- The loop of `insert` throws exactly when it has states to create and the trie cannot
hold them all. -/
theorem Tri.insertWalk_none_iff {V : Type} (key : List Nat) (t : Tri V) (cur : Nat)
    (hwf : t.StructWF) (hcur : cur < t.v.length) :
    t.insertWalk cur key = none ↔
      (0 < t.missingFrom cur key ∧ uintMax < t.v.length + t.missingFrom cur key) := by
  induction key generalizing t cur with
  | nil => simp [Tri.insertWalk, Tri.missingFrom]
  | cons c rest ih =>
    simp only [Tri.insertWalk, Tri.missingFrom]
    cases hf : (t.stateAt cur).transitions.find c with
    | some next =>
      simp only
      exact ih t next hwf (hwf.edge_lt cur c next hf).2
    | none =>
      simp only
      have hsz := hwf.size_le
      cases hn : t.newStatef with
      | none =>
        simp only [true_iff]
        unfold Tri.newStatef at hn
        simp only [Tri.getStates_eq t hsz] at hn
        split_ifs at hn with h1
        omega
      | some pr =>
        obtain ⟨n, tn⟩ := pr
        obtain ⟨rfl, hlt, rfl⟩ := Tri.newStatef_eq t hsz n tn hn
        simp only
        obtain ⟨hwf2, hlen, hdel⟩ := Tri.structWF_extend t hwf cur c hcur hf hlt
        rw [ih _ t.v.length hwf2 (by rw [hlen]; omega), hlen]
        rw [Tri.missingFrom_fresh _ _ rest (by
          intro c'
          rw [hdel, if_neg (by omega)]
          exact Tri.delta_new t _ _ (le_refl _))]
        omega

/-- The loop of `insert`, when it returns, has created the missing states, and every state
it has created is reached from the start state of the walk by a beginning of the key. -/
theorem Tri.insertWalk_new {V : Type} (key : List Nat) (t : Tri V) (cur : Nat)
    (hwf : t.StructWF) (hcur : cur < t.v.length) (t1 : Tri V) (s : Nat)
    (h : t.insertWalk cur key = some (t1, s)) :
    t1.v.length = t.v.length + t.missingFrom cur key ∧
    ∀ q, t.v.length ≤ q → q < t1.v.length →
      ∃ p r, key = p ++ r ∧ t1.getWalk cur p = some q := by
  induction key generalizing t cur with
  | nil =>
    simp only [Tri.insertWalk, Option.some.injEq, Prod.mk.injEq] at h
    obtain ⟨rfl, rfl⟩ := h
    exact ⟨rfl, fun q h1 h2 => by omega⟩
  | cons c rest ih =>
    simp only [Tri.insertWalk] at h
    simp only [Tri.missingFrom]
    cases hf : (t.stateAt cur).transitions.find c with
    | some next =>
      rw [hf] at h
      simp only at h ⊢
      have hnext := (hwf.edge_lt cur c next hf).2
      obtain ⟨h1, h2⟩ := ih t next hwf hnext h
      obtain ⟨_, _, _, _, _, _, h7, _⟩ := Tri.insertWalk_spec rest t next hwf hnext t1 s h
      refine ⟨h1, ?_⟩
      intro q hq1 hq2
      obtain ⟨p, r, hpr, hw⟩ := h2 q hq1 hq2
      refine ⟨c :: p, r, by rw [hpr]; rfl, ?_⟩
      have hd : t1.delta cur c = some next := h7 cur c next hf
      unfold Tri.delta at hd
      simp only [Tri.getWalk, hd]
      exact hw
    | none =>
      rw [hf] at h
      simp only at h ⊢
      cases hn : t.newStatef with
      | none => rw [hn] at h; cases h
      | some pr =>
        obtain ⟨n, tn⟩ := pr
        rw [hn] at h
        simp only at h
        obtain ⟨rfl, hlt, rfl⟩ := Tri.newStatef_eq t hwf.size_le n tn hn
        obtain ⟨hwf2, hlen, hdel⟩ := Tri.structWF_extend t hwf cur c hcur hf hlt
        obtain ⟨h1, h2⟩ := ih _ t.v.length hwf2 (by rw [hlen]; omega) h
        obtain ⟨_, _, _, _, _, _, h7, _⟩ :=
          Tri.insertWalk_spec rest _ t.v.length hwf2 (by rw [hlen]; omega) t1 s h
        rw [hlen, Tri.missingFrom_fresh _ _ rest (by
          intro c'
          rw [hdel, if_neg (by omega)]
          exact Tri.delta_new t _ _ (le_refl _))] at h1
        refine ⟨by omega, ?_⟩
        intro q hq1 hq2
        have hd : t1.delta cur c = some t.v.length := by
          apply h7
          rw [hdel]
          simp
        unfold Tri.delta at hd
        by_cases hq : q = t.v.length
        · refine ⟨[c], rest, rfl, ?_⟩
          simp only [Tri.getWalk, hd, hq]
        · obtain ⟨p, r, hpr, hw⟩ := h2 q (by rw [hlen]; omega) hq2
          refine ⟨c :: p, r, by rw [hpr]; rfl, ?_⟩
          simp only [Tri.getWalk, hd]
          exact hw

theorem Tri.getWalk_append {V : Type} (t : Tri V) (a b : List Nat) (p : Nat) :
    t.getWalk p (a ++ b) = (t.getWalk p a).bind (fun q => t.getWalk q b) := by
  induction a generalizing p with
  | nil => rfl
  | cons c rest ih =>
    simp only [List.cons_append, Tri.getWalk]
    cases (t.stateAt p).transitions.find c with
    | none => rfl
    | some next => exact ih next

theorem Tri.insert_eq {V : Type} (t : Tri V) (key : List Nat) (x : V) (t1 : Tri V)
    (h : t.insert key x = some t1) :
    ∃ t2 s, t.insertWalk 0 key = some (t2, s) ∧ t1.v.length = t2.v.length ∧
      (∀ p k, t1.getWalk p k = t2.getWalk p k) ∧
      t1.v = t2.v.set s { t2.stateAt s with endState := true } := by
  unfold Tri.insert at h
  cases hw : t.insertWalk 0 key with
  | none => rw [hw] at h; cases h
  | some pr =>
    obtain ⟨t2, s⟩ := pr
    rw [hw] at h
    simp only [Option.some.injEq] at h
    subst h
    refine ⟨t2, s, rfl, by simp, ?_, rfl⟩
    intro p k
    apply Tri.getWalk_congr
    intro q c
    unfold Tri.delta Tri.stateAt
    simp only [getD_set_state]
    split_ifs with hq
    · rw [hq.1]
    · rfl

theorem Tri.insert_none_iff {V : Type} (t : Tri V) (hwf : t.WF) (key : List Nat) (x : V) :
    t.insert key x = none ↔ (0 < t.missing key ∧ uintMax < t.v.length + t.missing key) := by
  unfold Tri.missing
  rw [← Tri.insertWalk_none_iff key t 0 hwf.struct hwf.struct.size_pos]
  unfold Tri.insert
  cases t.insertWalk 0 key with
  | none => simp
  | some pr => simp

/-- A successful `insert` creates the missing states, and afterwards the strings that lead
from state 0 to a state are those that did so before and the beginnings of the key. -/
theorem Tri.insert_walks {V : Type} (t : Tri V) (hwf : t.WF) (key : List Nat) (x : V)
    (t1 : Tri V) (h : t.insert key x = some t1) :
    t1.v.length = t.v.length + t.missing key ∧
    (∀ p, (∃ s, t1.getWalk 0 p = some s) ↔ ((∃ s, t.getWalk 0 p = some s) ∨ p <+: key)) ∧
    (t.AllReach → t1.AllReach) := by
  obtain ⟨t2, s, hw, hlen, hwalk, _⟩ := Tri.insert_eq t key x t1 h
  obtain ⟨h1, h2, h3, h4, h5, h6, h7, h8⟩ :=
    Tri.insertWalk_spec key t 0 hwf.struct hwf.struct.size_pos t2 s hw
  obtain ⟨hn1, hn2⟩ := Tri.insertWalk_new key t 0 hwf.struct hwf.struct.size_pos t2 s hw
  refine ⟨by rw [hlen, hn1]; rfl, ?_, ?_⟩
  · intro p
    simp only [hwalk]
    constructor
    · rintro ⟨q, hq⟩
      by_cases hlt : q < t.v.length
      · exact Or.inl ⟨q, Tri.getWalk_old t t2 h1 h8 p 0 q hlt hq⟩
      · right
        obtain ⟨p1, r, hpr, hw1⟩ := hn2 q (by omega)
          (Tri.getWalk_lt t2 h1 p 0 q h1.size_pos hq)
        have := Tri.getWalk_inj t2 h1 p p1 q hq hw1
        rw [this, hpr]
        exact ⟨r, rfl⟩
    · rintro (⟨q, hq⟩ | ⟨r, hr⟩)
      · exact ⟨q, Tri.getWalk_mono t t2 h7 p 0 q hq⟩
      · rw [← hr, Tri.getWalk_append] at h4
        cases hp : t2.getWalk 0 p with
        | none => rw [hp] at h4; cases h4
        | some q => exact ⟨q, rfl⟩
  · intro hr q hq
    simp only [hwalk]
    rw [hlen] at hq
    by_cases hlt : q < t.v.length
    · obtain ⟨p, hp⟩ := hr q hlt
      exact ⟨p, Tri.getWalk_mono t t2 h7 p 0 q hp⟩
    · obtain ⟨p1, r, _, hw1⟩ := hn2 q (by omega) hq
      exact ⟨p1, hw1⟩

theorem Tri.empty_walks (V : Type) : (Tri.empty V).Walks [] ∧ (Tri.empty V).AllReach := by
  constructor
  · intro p
    cases p with
    | nil => simp [Tri.getWalk]
    | cons c rest =>
      have hd : ((Tri.empty V).stateAt 0).transitions.find c = none := rfl
      simp [Tri.getWalk, hd]
  · intro q hq
    have : q = 0 := by
      simp only [Tri.empty, List.length_singleton] at hq
      omega
    subst this
    exact ⟨[], rfl⟩

theorem Tri.insertAll_walks {V : Type} (kvs : List (List Nat × V)) (t0 t : Tri V)
    (keys : List (List Nat)) (hwf : t0.WF) (hw : t0.Walks keys) (hr : t0.AllReach)
    (h : t0.insertAll kvs = some t) :
    t.Walks (keys ++ kvs.map Prod.fst) ∧ t.AllReach := by
  induction kvs generalizing t0 keys with
  | nil =>
    simp only [Tri.insertAll, Option.some.injEq] at h
    subst h
    simpa using ⟨hw, hr⟩
  | cons kv rest ih =>
    obtain ⟨k, x⟩ := kv
    simp only [Tri.insertAll] at h
    cases hi : t0.insert k x with
    | none => rw [hi] at h; cases h
    | some t2 =>
      rw [hi] at h
      obtain ⟨hwf2, _⟩ := Tri.insert_spec t0 hwf k x t2 hi
      obtain ⟨_, hw2, hr2⟩ := Tri.insert_walks t0 hwf k x t2 hi
      have hw3 : t2.Walks (keys ++ [k]) := by
        intro p
        rw [hw2, hw p]
        simp only [List.mem_append, List.mem_singleton]
        constructor
        · rintro ((h1 | ⟨k1, hk1, hp⟩) | hp)
          · exact Or.inl h1
          · exact Or.inr ⟨k1, Or.inl hk1, hp⟩
          · exact Or.inr ⟨k, Or.inr rfl, hp⟩
        · rintro (h1 | ⟨k1, hk1 | hk1, hp⟩)
          · exact Or.inl (Or.inl h1)
          · exact Or.inl (Or.inr ⟨k1, hk1, hp⟩)
          · subst hk1
            exact Or.inr hp
      have := ih t2 (keys ++ [k]) hwf2 hw3 (hr2 hr) h
      simpa using this

/-- In a trie whose walks are known, the states are as many as the walks. -/
theorem Tri.length_eq_inits {V : Type} (t : Tri V) (hwf : t.StructWF) (keys : List (List Nat))
    (hw : t.Walks keys) (hr : t.AllReach) :
    t.v.length = 1 + (nonEmptyInits keys).length := by
  have hmemN : ∀ p, p ∈ nonEmptyInits keys ↔ (p ≠ [] ∧ ∃ k ∈ keys, p <+: k) := by
    intro p
    unfold nonEmptyInits
    simp only [List.mem_dedup, List.mem_filter, List.mem_flatMap, List.mem_inits,
      decide_eq_true_eq]
    tauto
  have hnd : ([] :: nonEmptyInits keys).Nodup := by
    rw [List.nodup_cons]
    refine ⟨fun hm => ((hmemN []).mp hm).1 rfl, ?_⟩
    unfold nonEmptyInits
    exact List.nodup_dedup _
  have hwalk : ∀ p ∈ ([] :: nonEmptyInits keys), ∃ s, t.getWalk 0 p = some s := by
    intro p hp
    rw [hw p]
    rcases List.mem_cons.mp hp with hp | hp
    · exact Or.inl hp
    · exact Or.inr ((hmemN p).mp hp).2
  have hnd2 : (([] :: nonEmptyInits keys).map fun p => (t.getWalk 0 p).getD 0).Nodup := by
    apply List.Nodup.map_on _ hnd
    intro p1 hp1 p2 hp2 heq
    obtain ⟨s1, hs1⟩ := hwalk p1 hp1
    obtain ⟨s2, hs2⟩ := hwalk p2 hp2
    rw [hs1, hs2] at heq
    simp only [Option.getD_some] at heq
    subst heq
    exact Tri.getWalk_inj t hwf p1 p2 s1 hs1 hs2
  have hperm : (([] :: nonEmptyInits keys).map fun p => (t.getWalk 0 p).getD 0).Perm
      (List.range t.v.length) := by
    rw [List.perm_ext_iff_of_nodup hnd2 (List.nodup_range _)]
    intro q
    simp only [List.mem_map, List.mem_range]
    constructor
    · rintro ⟨p, hp, rfl⟩
      obtain ⟨s, hs⟩ := hwalk p hp
      rw [hs]
      exact Tri.getWalk_lt t hwf p 0 s hwf.size_pos hs
    · intro hq
      obtain ⟨p, hp⟩ := hr q hq
      refine ⟨p, ?_, by rw [hp]; rfl⟩
      by_cases hnil : p = []
      · rw [hnil]
        exact List.mem_cons_self _ _
      · apply List.mem_cons_of_mem
        rw [hmemN]
        refine ⟨hnil, ?_⟩
        rcases (hw p).mp ⟨q, hp⟩ with h1 | h1
        · exact absurd h1 hnil
        · exact h1
  have := hperm.length_eq
  simp only [List.length_map, List.length_cons, List.length_range] at this
  omega

theorem Tri.insertWalk_of_getWalk {V : Type} (t : Tri V) (key : List Nat) (cur s : Nat)
    (h : t.getWalk cur key = some s) : t.insertWalk cur key = some (t, s) := by
  induction key generalizing cur with
  | nil =>
    simp only [Tri.getWalk, Option.some.injEq] at h
    subst h
    rfl
  | cons c rest ih =>
    simp only [Tri.getWalk] at h
    simp only [Tri.insertWalk]
    cases hf : (t.stateAt cur).transitions.find c with
    | none => rw [hf] at h; cases h
    | some next =>
      rw [hf] at h
      exact ih next h

theorem set_getD_self (l : List State) (s : Nat) : l.set s (l.getD s State.new) = l := by
  apply List.ext_getElem?
  intro i
  rw [List.getElem?_set]
  split_ifs with h1 h2
  · subst h1
    rw [List.getD_eq_getElem _ _ h2, List.getElem?_eq_getElem h2]
  · subst h1
    rw [List.getElem?_eq_none (by omega)]
  · rfl

/-- Inserting a key that is present leaves the state vector as it is. -/
theorem Tri.insert_present {V : Type} (t : Tri V) (key : List Nat) (x : V) (t1 : Tri V)
    (hp : (t.unsafeGet key).isSome = true) (h : t.insert key x = some t1) : t1.v = t.v := by
  obtain ⟨y, hy⟩ := Option.isSome_iff_exists.mp hp
  obtain ⟨sf, hwalk, hend, _⟩ := Tri.unsafeGet_some t key y hy
  obtain ⟨t2, s, hw, _, _, hv⟩ := Tri.insert_eq t key x t1 h
  rw [Tri.insertWalk_of_getWalk t key 0 sf hwalk] at hw
  simp only [Option.some.injEq, Prod.mk.injEq] at hw
  obtain ⟨rfl, rfl⟩ := hw
  rw [hv]
  have : ({ t.stateAt sf with endState := true } : State) = t.stateAt sf := by
    cases hst : t.stateAt sf with
    | mk e tr =>
      rw [hst] at hend
      simp only at hend
      subst hend
      rfl
  rw [this]
  exact set_getD_self t.v sf

/-! ## Ranking -/

theorem cmpTolerantResult_eq_true {V : Type} [LinearOrder V] (p1 p2 : TolerantResult V) :
    cmpTolerantResult p1 p2 = true ↔
      (p1.editDistance < p2.editDistance ∨
        (p1.editDistance = p2.editDistance ∧ p1.second < p2.second)) := by
  unfold cmpTolerantResult
  split_ifs with h
  · simp only [decide_eq_true_eq]
    constructor
    · intro h1
      exact Or.inr ⟨h, h1⟩
    · rintro (h1 | ⟨_, h1⟩)
      · omega
      · exact h1
  · simp only [decide_eq_true_eq]
    constructor
    · intro h1
      exact Or.inl h1
    · rintro (h1 | ⟨h1, _⟩)
      · exact h1
      · exact absurd h1 h

theorem cmpTolerantResult_eq_false {V : Type} [LinearOrder V] (p1 p2 : TolerantResult V) :
    cmpTolerantResult p1 p2 = false ↔
      (p2.editDistance < p1.editDistance ∨
        (p1.editDistance = p2.editDistance ∧ p2.second ≤ p1.second)) := by
  rw [← Bool.not_eq_true, cmpTolerantResult_eq_true]
  constructor
  · intro h
    rcases Nat.lt_trichotomy p1.editDistance p2.editDistance with h1 | h1 | h1
    · exact absurd (Or.inl h1) h
    · right
      refine ⟨h1, not_lt.mp fun h2 => h (Or.inr ⟨h1, h2⟩)⟩
    · exact Or.inl h1
  · rintro (h1 | ⟨h1, h2⟩) (h3 | ⟨h3, h4⟩)
    · omega
    · omega
    · omega
    · exact absurd h4 (not_lt.mpr h2)

theorem cmpTolerantResult_asymm {V : Type} [LinearOrder V] (a b : TolerantResult V)
    (h : cmpTolerantResult a b = true) : cmpTolerantResult b a = false := by
  rw [cmpTolerantResult_eq_true] at h
  rw [cmpTolerantResult_eq_false]
  rcases h with h | ⟨h1, h2⟩
  · exact Or.inl h
  · exact Or.inr ⟨h1.symm, le_of_lt h2⟩

theorem cmpTolerantResult_trans {V : Type} [LinearOrder V] (a b c : TolerantResult V)
    (h1 : cmpTolerantResult b a = false) (h2 : cmpTolerantResult c b = false) :
    cmpTolerantResult c a = false := by
  rw [cmpTolerantResult_eq_false] at h1 h2 ⊢
  rcases h1 with h1 | ⟨h1, h1'⟩ <;> rcases h2 with h2 | ⟨h2, h2'⟩
  · exact Or.inl (by omega)
  · exact Or.inl (by omega)
  · exact Or.inl (by omega)
  · exact Or.inr ⟨by omega, le_trans h1' h2'⟩

theorem mem_sortInsert {α : Type} (comp : α → α → Bool) (x z : α) (l : List α) :
    z ∈ sortInsert comp x l ↔ (z = x ∨ z ∈ l) := by
  induction l with
  | nil => simp [sortInsert]
  | cons y rest ih =>
    simp only [sortInsert]
    split_ifs with h
    · simp
    · simp only [List.mem_cons, ih]
      tauto

theorem sortInsert_perm {α : Type} (comp : α → α → Bool) (x : α) (l : List α) :
    (sortInsert comp x l).Perm (x :: l) := by
  induction l with
  | nil => exact List.Perm.refl _
  | cons y rest ih =>
    simp only [sortInsert]
    split_ifs with h
    · exact List.Perm.refl _
    · exact (List.Perm.cons y ih).trans (List.Perm.swap x y rest)

theorem sortInsert_pairwise {α : Type} (comp : α → α → Bool)
    (hasym : ∀ a b, comp a b = true → comp b a = false)
    (htrans : ∀ a b c, comp b a = false → comp c b = false → comp c a = false)
    (x : α) (l : List α) (h : l.Pairwise fun a b => comp b a = false) :
    (sortInsert comp x l).Pairwise fun a b => comp b a = false := by
  induction l with
  | nil => simp [sortInsert]
  | cons y rest ih =>
    rw [List.pairwise_cons] at h
    simp only [sortInsert]
    split_ifs with hc
    · rw [List.pairwise_cons]
      refine ⟨?_, List.pairwise_cons.mpr h⟩
      intro z hz
      rcases List.mem_cons.mp hz with rfl | hz
      · exact hasym _ _ hc
      · exact htrans x y z (hasym _ _ hc) (h.1 z hz)
    · rw [List.pairwise_cons]
      refine ⟨?_, ih h.2⟩
      intro z hz
      rcases (mem_sortInsert comp x z rest).mp hz with rfl | hz
      · exact Bool.eq_false_iff.mpr hc
      · exact h.1 z hz

theorem foldl_sortInsert {α : Type} (comp : α → α → Bool)
    (hasym : ∀ a b, comp a b = true → comp b a = false)
    (htrans : ∀ a b c, comp b a = false → comp c b = false → comp c a = false)
    (l acc : List α) (h : acc.Pairwise fun a b => comp b a = false) :
    (l.foldl (fun sorted x => sortInsert comp x sorted) acc).Pairwise
        (fun a b => comp b a = false) ∧
      (l.foldl (fun sorted x => sortInsert comp x sorted) acc).Perm (l ++ acc) := by
  induction l generalizing acc with
  | nil => exact ⟨h, List.Perm.refl _⟩
  | cons x rest ih =>
    simp only [List.foldl_cons]
    obtain ⟨h1, h2⟩ := ih (sortInsert comp x acc) (sortInsert_pairwise comp hasym htrans x acc h)
    refine ⟨h1, h2.trans ?_⟩
    have h3 := (sortInsert_perm comp x acc).append_left rest
    exact h3.trans (List.perm_middle)

/-- The contract of `std::sort`: the result is a rearrangement of the input in which no
element is less than an earlier one. -/
theorem stdSort_spec {α : Type} (comp : α → α → Bool)
    (hasym : ∀ a b, comp a b = true → comp b a = false)
    (htrans : ∀ a b c, comp b a = false → comp c b = false → comp c a = false)
    (l : List α) :
    (stdSort comp l).Pairwise (fun a b => comp b a = false) ∧ (stdSort comp l).Perm l := by
  obtain ⟨h1, h2⟩ := foldl_sortInsert comp hasym htrans l [] List.Pairwise.nil
  exact ⟨h1, by simpa using h2⟩

theorem foldl_max_spec {α : Type} (comp : α → α → Bool)
    (hasym : ∀ a b, comp a b = true → comp b a = false)
    (htrans : ∀ a b c, comp b a = false → comp c b = false → comp c a = false)
    (rest : List α) (x : α) :
    (rest.foldl (fun largest y => if comp largest y then y else largest) x) ∈ x :: rest ∧
    ∀ y ∈ x :: rest,
      comp (rest.foldl (fun largest y => if comp largest y then y else largest) x) y = false := by
  induction rest generalizing x with
  | nil =>
    simp only [List.foldl_nil, List.mem_singleton, forall_eq, true_and]
    cases hxx : comp x x with
    | false => rfl
    | true => exact absurd (hasym x x hxx) (by simp [hxx])
  | cons y r ih =>
    simp only [List.foldl_cons]
    by_cases hc : comp x y = true
    · rw [if_pos hc]
      obtain ⟨h1, h2⟩ := ih y
      refine ⟨List.mem_cons_of_mem _ h1, ?_⟩
      intro z hz
      rcases List.mem_cons.mp hz with rfl | hz
      · exact htrans _ _ _ (hasym _ _ hc) (h2 y (List.mem_cons_self _ _))
      · exact h2 z hz
    · rw [if_neg hc]
      obtain ⟨h1, h2⟩ := ih x
      refine ⟨?_, ?_⟩
      · rcases List.mem_cons.mp h1 with h1 | h1
        · rw [h1]
          exact List.mem_cons_self _ _
        · exact List.mem_cons_of_mem _ (List.mem_cons_of_mem _ h1)
      · intro z hz
        rcases List.mem_cons.mp hz with rfl | hz
        · exact h2 _ (List.mem_cons_self _ _)
        · rcases List.mem_cons.mp hz with rfl | hz
          · exact htrans _ _ _ (Bool.eq_false_iff.mpr hc) (h2 x (List.mem_cons_self _ _))
          · exact h2 z (List.mem_cons_of_mem _ hz)

/-- The element that `std::max_element` returns is an element of the range that is not
less than any element of the range. -/
theorem maxElement_spec {α : Type} (comp : α → α → Bool)
    (hasym : ∀ a b, comp a b = true → comp b a = false)
    (htrans : ∀ a b c, comp b a = false → comp c b = false → comp c a = false)
    (l : List α) (m : α) (h : maxElement comp l = some m) :
    m ∈ l ∧ ∀ y ∈ l, comp m y = false := by
  cases l with
  | nil => cases h
  | cons x rest =>
    simp only [maxElement, Option.some.injEq] at h
    subst h
    exact foldl_max_spec comp hasym htrans rest x

/-! ## The searches of the example dictionaries -/

theorem find_catCarBat_cat :
    suggestCatCarBat.words.tolerantFind zeroMem true [99, 97, 116] suggestCatCarBat.maxEditDistance =
      some [⟨[99, 97, 116], 1, 1⟩, ⟨[98, 97, 116], 3 / 2, 1⟩, ⟨[99, 97, 114], 2, 1⟩] := by
  rfl

theorem find_catCar_ca :
    suggestCatCar.words.tolerantFind zeroMem true [99, 97] suggestCatCar.maxEditDistance =
      some [⟨[99, 97, 116], 1, 1⟩, ⟨[99, 97, 114], 2, 1⟩] := by
  rfl

theorem find_tie_ca :
    suggestTie.words.tolerantFind zeroMem true [99, 97] suggestTie.maxEditDistance =
      some [⟨[99, 97, 116], 1, 1⟩, ⟨[99, 97, 114], 1, 1⟩] := by
  rfl

theorem find_helloHelp_hlp :
    suggestHelloHelp.words.tolerantFind zeroMem true [104, 108, 112]
        suggestHelloHelp.maxEditDistance =
      some [⟨[104, 101, 108, 112], 9 / 10, 2⟩] := by
  rfl

theorem find_aAbc_x :
    suggestAAbc.words.tolerantFind zeroMem true [120] suggestAAbc.maxEditDistance =
      some [⟨[97, 98, 99], 1, 3⟩, ⟨[97], 5, 2⟩] := by
  rfl

/-! ## Corpus parsers: lemmas -/

theorem SimpleCorpusParser.loop_ok (d : CorpusParserData) (line : List Nat)
    (h : ∀ c ∈ line, isalpha c = true) : SimpleCorpusParser.loop d line = Except.ok () := by
  induction line with
  | nil => rfl
  | cons c rest ih =>
    have hc := h c (List.mem_cons_self _ _)
    simp only [SimpleCorpusParser.loop, hc, Bool.not_true, Bool.false_eq_true, if_false]
    exact ih fun x hx => h x (List.mem_cons_of_mem _ hx)

theorem SimpleCorpusParser.loop_error (d : CorpusParserData) (line : List Nat)
    (h : ∃ c ∈ line, isalpha c = false) :
    SimpleCorpusParser.loop d line = Except.error
      (d.parseError "Encountered unexpected '' while trying to parse a word.") := by
  induction line with
  | nil => obtain ⟨c, hc, _⟩ := h; cases hc
  | cons c rest ih =>
    by_cases hc : isalpha c = true
    · simp only [SimpleCorpusParser.loop, hc, Bool.not_true, Bool.false_eq_true, if_false]
      apply ih
      obtain ⟨x, hx, hxa⟩ := h
      rcases List.mem_cons.1 hx with rfl | hx
      · rw [hc] at hxa; cases hxa
      · exact ⟨x, hx, hxa⟩
    · simp only [Bool.not_eq_true] at hc
      simp [SimpleCorpusParser.loop, hc]

theorem ProbabilityCorpusParser.loop_word (d : CorpusParserData) (w rest : List Nat)
    (wordEnd doubleStart i : Nat) (h : ∀ c ∈ w, isalpha c = true) :
    ProbabilityCorpusParser.loop d ParseState.wordParse wordEnd doubleStart i (w ++ rest) =
      ProbabilityCorpusParser.loop d ParseState.wordParse wordEnd doubleStart (i + w.length)
        rest := by
  induction w generalizing i with
  | nil => rfl
  | cons c w ih =>
    have hc := h c (List.mem_cons_self _ _)
    rw [List.cons_append, ProbabilityCorpusParser.loop, if_pos hc,
      ih _ fun x hx => h x (List.mem_cons_of_mem _ hx), List.length_cons]
    congr 1
    omega

theorem ProbabilityCorpusParser.loop_noTab (d : CorpusParserData) (pre rest : List Nat)
    (wordEnd doubleStart i : Nat) (h : 9 ∉ pre) :
    (∃ msg, ProbabilityCorpusParser.loop d ParseState.wordParse wordEnd doubleStart i
        (pre ++ rest) = Except.error (d.parseError msg)) ∨
      ProbabilityCorpusParser.loop d ParseState.wordParse wordEnd doubleStart i (pre ++ rest) =
        ProbabilityCorpusParser.loop d ParseState.wordParse wordEnd doubleStart
          (i + pre.length) rest := by
  induction pre generalizing i with
  | nil => exact Or.inr rfl
  | cons c pre ih =>
    have hc : c ≠ 9 := fun e => h (e ▸ List.mem_cons_self _ _)
    have hpre : 9 ∉ pre := fun e => h (List.mem_cons_of_mem _ e)
    rw [List.cons_append, ProbabilityCorpusParser.loop]
    by_cases ha : isalpha c = true
    · rw [if_pos ha, List.length_cons]
      have := ih (i + 1) hpre
      rwa [show i + 1 + pre.length = i + (pre.length + 1) by omega] at this
    · rw [if_neg ha, if_neg hc]
      exact Or.inl ⟨_, rfl⟩

theorem isdigit_ne_dot (c : Nat) (h : isdigit c = true) : c ≠ 46 := by
  rintro rfl; revert h; decide

theorem isdigit_ne_minus (c : Nat) (h : isdigit c = true) : c ≠ 45 := by
  rintro rfl; revert h; decide

theorem isdigit_ne_plus (c : Nat) (h : isdigit c = true) : c ≠ 43 := by
  rintro rfl; revert h; decide

theorem ProbabilityCorpusParser.loop_preDot (d : CorpusParserData) (ds rest : List Nat)
    (wordEnd doubleStart i : Nat) (h : ∀ c ∈ ds, isdigit c = true) :
    ProbabilityCorpusParser.loop d ParseState.preDot wordEnd doubleStart i (ds ++ rest) =
      ProbabilityCorpusParser.loop d ParseState.preDot wordEnd doubleStart (i + ds.length)
        rest := by
  induction ds generalizing i with
  | nil => rfl
  | cons c ds ih =>
    have hc := h c (List.mem_cons_self _ _)
    rw [List.cons_append, ProbabilityCorpusParser.loop, if_neg (isdigit_ne_dot c hc),
      if_neg (by simp [hc]), ih _ fun x hx => h x (List.mem_cons_of_mem _ hx), List.length_cons]
    congr 1
    omega

theorem ProbabilityCorpusParser.loop_number (d : CorpusParserData) (ds : List Nat)
    (wordEnd doubleStart i : Nat) (h : ∀ c ∈ ds, isdigit c = true) :
    ProbabilityCorpusParser.loop d ParseState.number wordEnd doubleStart i ds =
      Except.ok (wordEnd, doubleStart) := by
  induction ds generalizing i with
  | nil => rfl
  | cons c ds ih =>
    have hc := h c (List.mem_cons_self _ _)
    rw [ProbabilityCorpusParser.loop, if_neg (by simp [hc])]
    exact ih _ fun x hx => h x (List.mem_cons_of_mem _ hx)

/-- The loop accepts a sign and digits, with or without a dot and more digits. -/
theorem ProbabilityCorpusParser.loop_numberText (d : CorpusParserData) (negative : Bool)
    (whole tail : List Nat) (wordEnd doubleStart i : Nat) (hne : whole ≠ [])
    (hwhole : ∀ c ∈ whole, isdigit c = true)
    (htail : tail = [] ∨ ∃ frac, tail = 46 :: frac ∧ ∀ c ∈ frac, isdigit c = true) :
    ProbabilityCorpusParser.loop d ParseState.doubleParse wordEnd doubleStart i
      ((if negative then [45] else []) ++ whole ++ tail) = Except.ok (wordEnd, doubleStart) := by
  obtain ⟨c, ds, rfl⟩ := List.exists_cons_of_ne_nil hne
  have hc := hwhole c (List.mem_cons_self _ _)
  have hds : ∀ x ∈ ds, isdigit x = true := fun x hx => hwhole x (List.mem_cons_of_mem _ hx)
  have hrest : ∀ j, ProbabilityCorpusParser.loop d ParseState.preDot wordEnd doubleStart j
      (ds ++ tail) = Except.ok (wordEnd, doubleStart) := by
    intro j
    rw [ProbabilityCorpusParser.loop_preDot d ds tail _ _ _ hds]
    rcases htail with rfl | ⟨frac, rfl, hfrac⟩
    · rfl
    · rw [ProbabilityCorpusParser.loop, if_pos rfl]
      exact ProbabilityCorpusParser.loop_number d frac _ _ _ hfrac
  cases negative with
  | true =>
    simp only [if_true, List.cons_append, List.nil_append, List.append_assoc]
    rw [ProbabilityCorpusParser.loop, if_pos rfl, ProbabilityCorpusParser.loop,
      if_neg (by simp [hc])]
    exact hrest _
  | false =>
    simp only [Bool.false_eq_true, if_false, List.cons_append, List.nil_append,
      List.append_assoc]
    rw [ProbabilityCorpusParser.loop, if_neg (isdigit_ne_minus c hc), if_neg (by simp [hc])]
    exact hrest _

theorem takeDigits_append (ds rest : List Nat) (acc n : Nat)
    (h : ∀ c ∈ ds, isdigit c = true) :
    takeDigits acc n (ds ++ rest) =
      takeDigits (acc * 10 ^ ds.length + Nat.ofDigits 10 (ds.reverse.map fun c => c - 48))
        (n + ds.length) rest := by
  induction ds generalizing acc n with
  | nil => simp [Nat.ofDigits]
  | cons c ds ih =>
    have hc := h c (List.mem_cons_self _ _)
    rw [List.cons_append, takeDigits, if_pos hc,
      ih _ _ fun x hx => h x (List.mem_cons_of_mem _ hx)]
    simp only [List.length_cons, List.reverse_cons, List.map_append, List.map_cons,
      List.map_nil, Nat.ofDigits_append, Nat.ofDigits_singleton, List.length_map,
      List.length_reverse]
    congr 1
    · ring
    · omega

theorem takeDigits_all (ds : List Nat) (acc n : Nat) (h : ∀ c ∈ ds, isdigit c = true) :
    takeDigits acc n ds =
      (acc * 10 ^ ds.length + Nat.ofDigits 10 (ds.reverse.map fun c => c - 48),
        n + ds.length, []) := by
  have := takeDigits_append ds [] acc n h
  rwa [List.append_nil] at this

theorem takeDigits_dot (ds frac : List Nat) (acc n : Nat) (h : ∀ c ∈ ds, isdigit c = true) :
    takeDigits acc n (ds ++ 46 :: frac) =
      (acc * 10 ^ ds.length + Nat.ofDigits 10 (ds.reverse.map fun c => c - 48),
        n + ds.length, 46 :: frac) := by
  rw [takeDigits_append ds _ acc n h, takeDigits, if_neg (by decide)]

theorem stodSign_numberText (negative : Bool) (c : Nat) (rest : List Nat)
    (hc : isdigit c = true) :
    stodSign ((if negative then [45] else []) ++ c :: rest) = (negative, c :: rest) := by
  cases negative with
  | true => rfl
  | false =>
    simp only [Bool.false_eq_true, if_false, List.nil_append, stodSign,
      if_neg (isdigit_ne_minus c hc), if_neg (isdigit_ne_plus c hc)]

theorem log2Loop_eq (fuel n : Nat) (h : n ≤ fuel) : log2Loop fuel n = Nat.log2 n := by
  induction fuel generalizing n with
  | zero =>
    have : n = 0 := by omega
    subst this
    rw [log2Loop, Nat.log2, if_neg (by decide)]
  | succ f ih =>
    rw [log2Loop, Nat.log2]
    split
    · rw [ih _ (by omega)]
    · rfl

theorem log2_eq (n : Nat) : log2 n = Nat.log2 n :=
  log2Loop_eq n n (Nat.le_refl n)

theorem binaryExponent_one (m : Nat) (hm : m ≠ 0) : binaryExponent m 1 = (log2 m : Int) := by
  have h1 : log2 1 = 0 := rfl
  have hle : 1 * 2 ^ log2 m ≤ m := by
    rw [log2_eq, one_mul]
    exact Nat.log2_self_le hm
  simp only [binaryExponent, leScaled, h1, Nat.cast_zero, sub_zero, Int.natCast_nonneg,
    if_true, Int.toNat_ofNat, decide_eq_true hle]

/-- A whole number below `2 ^ 53` is a `double`: the conversion is exact. -/
theorem binary64_whole (m : Nat) (h : m < 2 ^ 53) :
    ∃ p, binary64 m 0 = some p ∧ (p.1 : Rat) * (2 : Rat) ^ p.2 = (m : Rat) := by
  by_cases hm : m = 0
  · subst hm
    exact ⟨(0, 0), rfl, by simp⟩
  have ha : log2 m < 53 := by
    rw [log2_eq]
    exact (Nat.log2_lt hm).2 h
  have hround : roundScaled ((log2 m : Int) - 52) m 1 = (m * 2 ^ (52 - log2 m), true) := by
    unfold roundScaled
    by_cases h52 : log2 m = 52
    · simp [h52, Nat.mod_one]
    · have hneg : ¬ (0 : Int) ≤ (log2 m : Int) - 52 := by omega
      have hto : (-((log2 m : Int) - 52)).toNat = 52 - log2 m := by omega
      simp [hneg, hto, Nat.mod_one]
  refine ⟨(m * 2 ^ (52 - log2 m), (log2 m : Int) - 52), ?_, ?_⟩
  · unfold binary64
    rw [if_neg hm, pow_zero, binaryExponent_one m hm]
    simp only [hround]
    rw [if_neg (by omega), if_pos (by omega)]
  · have hz : (2 : Rat) ^ (52 - log2 m) * (2 : Rat) ^ ((log2 m : Int) - 52) = 1 := by
      rw [← zpow_natCast, ← zpow_add₀ (by norm_num)]
      have : ((52 - log2 m : Nat) : Int) + ((log2 m : Int) - 52) = 0 := by omega
      rw [this, zpow_zero]
    push_cast
    rw [mul_assoc, hz, mul_one]

/-- The model of `std::stod` on a sign, digits, and possibly a dot with more digits. -/
theorem stod_numberText (negative : Bool) (whole tail frac : List Nat) (hne : whole ≠ [])
    (hwhole : ∀ c ∈ whole, isdigit c = true) (hfrac : ∀ c ∈ frac, isdigit c = true)
    (htail : (tail = [] ∧ frac = []) ∨ tail = 46 :: frac) :
    stod ((if negative then [45] else []) ++ whole ++ tail) =
      match doubleOf negative whole frac with
      | none => Except.error CorpusError.outOfRange
      | some x => Except.ok x := by
  obtain ⟨c, ds, rfl⟩ := List.exists_cons_of_ne_nil hne
  have hc := hwhole c (List.mem_cons_self _ _)
  have hlen : (c :: ds).length ≠ 0 := by simp
  unfold stod doubleOf
  rw [List.append_assoc, List.cons_append, stodSign_numberText negative c _ hc,
    ← List.cons_append]
  dsimp only
  rcases htail with ⟨rfl, rfl⟩ | rfl
  · rw [List.append_nil, takeDigits_all _ 0 0 hwhole]
    simp only [stodFraction]
    rw [if_neg (by omega)]
    simp only [zero_mul, zero_add, pow_zero, mul_one, List.reverse_nil, List.map_nil,
      Nat.ofDigits_nil, List.length_nil, add_zero]
    cases binary64 (Nat.ofDigits 10 (List.map (fun c => c - 48) (c :: ds).reverse)) 0 <;> rfl
  · rw [takeDigits_dot _ frac 0 0 hwhole]
    simp only [stodFraction]
    rw [takeDigits_all frac _ 0 hfrac]
    simp only
    rw [if_neg (by omega)]
    simp only [zero_mul, zero_add]
    cases binary64 (Nat.ofDigits 10 (List.map (fun c => c - 48) (c :: ds).reverse) *
      10 ^ frac.length + Nat.ofDigits 10 (List.map (fun c => c - 48) frac.reverse))
      frac.length <;> rfl

/-- On an alphabetic word, a tab, and a number text with or without a dot and fractional
digits, `parseLine` returns the word and the `double` of the number, or throws the
`std::out_of_range` of `std::stod`. -/
theorem ProbabilityCorpusParser.parseLine_numberText (d : CorpusParserData)
    (negative : Bool) (w whole tail frac : List Nat) (hw : ∀ c ∈ w, isalpha c = true)
    (hne : whole ≠ []) (hwhole : ∀ c ∈ whole, isdigit c = true)
    (hfrac : ∀ c ∈ frac, isdigit c = true)
    (htail : (tail = [] ∧ frac = []) ∨ tail = 46 :: frac) :
    ProbabilityCorpusParser.parseLine d
        (w ++ 9 :: ((if negative then [45] else []) ++ whole ++ tail)) =
      match doubleOf negative whole frac with
      | none => Except.error CorpusError.outOfRange
      | some x => Except.ok (d.consume, (w, x)) := by
  have htail2 : tail = [] ∨ ∃ f, tail = 46 :: f ∧ ∀ c ∈ f, isdigit c = true := by
    rcases htail with ⟨h, _⟩ | h
    · exact Or.inl h
    · exact Or.inr ⟨frac, h, hfrac⟩
  have hstod := stod_numberText negative whole tail frac hne hwhole hfrac htail
  generalize hnum : (if negative then [45] else []) ++ whole ++ tail = num at hstod
  have hnumlen : 0 < num.length := by
    rw [← hnum]
    have : 0 < whole.length := List.length_pos.2 hne
    simp only [List.length_append]
    omega
  have hloop : ProbabilityCorpusParser.loop d.consume ParseState.wordParse
      (w ++ 9 :: num).length (w ++ 9 :: num).length 0 (w ++ 9 :: num) =
      Except.ok (w.length, w.length + 1) := by
    rw [ProbabilityCorpusParser.loop_word _ w _ _ _ _ hw, ProbabilityCorpusParser.loop,
      if_neg (by decide), if_pos rfl, ← hnum, zero_add]
    exact ProbabilityCorpusParser.loop_numberText _ negative whole tail _ _ _ hne hwhole htail2
  unfold ProbabilityCorpusParser.parseLine
  rw [hloop]
  dsimp only
  rw [if_neg (by simp only [List.length_append, List.length_cons]; omega)]
  have hdrop : List.drop (w.length + 1) (w ++ 9 :: num) = num := by
    rw [show w ++ 9 :: num = (w ++ [9]) ++ num by simp]
    exact List.drop_left' (by simp)
  rw [hdrop, hstod, List.take_left' rfl]
  cases doubleOf negative whole frac <;> rfl

/-- A text of digits whose number is below `2 ^ 53` is converted exactly. -/
theorem doubleOf_whole (negative : Bool) (whole : List Nat)
    (h : Nat.ofDigits 10 (whole.reverse.map fun c => c - 48) < 2 ^ 53) :
    doubleOf negative whole [] = some (decimalValue negative whole []) := by
  obtain ⟨p, hp, hv⟩ := binary64_whole _ h
  simp only [doubleOf, decimalValue, List.length_nil, pow_zero, mul_one, List.reverse_nil,
    List.map_nil, Nat.ofDigits_nil, add_zero, hp, Option.map_some', doubleValue, hv,
    Nat.cast_zero, zero_div]

/-- The conversion of a text whose digits `binary64` rounds to `n * 2 ^ q`. -/
theorem doubleOf_of_binary64 (negative : Bool) (whole frac : List Nat) (p : Nat × Int)
    (h : binary64
      (Nat.ofDigits 10 (whole.reverse.map fun c => c - 48) * 10 ^ frac.length +
        Nat.ofDigits 10 (frac.reverse.map fun c => c - 48)) frac.length = some p) :
    doubleOf negative whole frac = some (doubleValue negative p) := by
  rw [doubleOf, h, Option.map_some']

/-- The text `1.5` is converted to 3/2, exactly. -/
theorem doubleOf_one_and_half : doubleOf false [49] [53] = some (decimalValue false [49] [53]) := by
  rw [doubleOf_of_binary64 false [49] [53] (6755399441055744, -52) (by decide)]
  norm_num [doubleValue, decimalValue, Nat.ofDigits]

theorem parametersLoop_tooMany (f m n c : Nat) (rest : List Nat) (h : 4 < n) :
    parametersLoop f m n (c :: rest) = Except.error ArgError.tooMany := by
  unfold parametersLoop
  rw [if_pos h]

theorem parametersLoop_letter (c : Nat) (hc : c = 97 ∨ c = 98 ∨ c = 112 ∨ c = 115) :
    ∃ bit, (bit = 1 ∨ bit = 2 ∨ bit = 4 ∨ bit = 8) ∧ (bit = 2 ↔ c = 98) ∧
      (bit = 8 ↔ c = 115) ∧ ∀ (f m n : Nat) (rest : List Nat), ¬ 4 < n →
        parametersLoop f m n (c :: rest) = parametersLoop (f ||| bit) m (n + 1) rest := by
  rcases hc with rfl | rfl | rfl | rfl
  · exact ⟨1, by decide, by decide, by decide, fun f m n rest hn => by
      conv_lhs => unfold parametersLoop
      rw [if_neg hn, if_pos rfl]; rfl⟩
  · exact ⟨2, by decide, by decide, by decide, fun f m n rest hn => by
      conv_lhs => unfold parametersLoop
      rw [if_neg hn, if_neg (by decide), if_pos rfl]; rfl⟩
  · exact ⟨4, by decide, by decide, by decide, fun f m n rest hn => by
      conv_lhs => unfold parametersLoop
      rw [if_neg hn, if_neg (by decide), if_neg (by decide),
        if_neg (by decide), if_pos rfl]; rfl⟩
  · exact ⟨8, by decide, by decide, by decide, fun f m n rest hn => by
      conv_lhs => unfold parametersLoop
      rw [if_neg hn, if_neg (by decide), if_neg (by decide), if_pos rfl]; rfl⟩

theorem parametersLoop_edit (f m n e : Nat) (rest : List Nat) (hn : ¬ 4 < n)
    (he : isdigit e = true) :
    parametersLoop f m n (101 :: e :: rest) = parametersLoop f (e - 48) (n + 1) rest := by
  conv_lhs => unfold parametersLoop
  rw [if_neg hn, if_neg (by decide), if_neg (by decide), if_neg (by decide),
    if_neg (by decide), if_pos rfl]
  simp only [he, if_true]

theorem parametersLoop_lone_edit (f m n : Nat) (hn : ¬ 4 < n) :
    parametersLoop f m n [101] = Except.error ArgError.bogus := by
  unfold parametersLoop
  rw [if_neg hn, if_neg (by decide), if_neg (by decide), if_neg (by decide),
    if_neg (by decide), if_pos rfl]

theorem parametersLoop_bogus (f m n e : Nat) (rest : List Nat) (hn : ¬ 4 < n)
    (he : ¬ isdigit e = true) :
    parametersLoop f m n (101 :: e :: rest) = Except.error ArgError.bogus := by
  unfold parametersLoop
  rw [if_neg hn, if_neg (by decide), if_neg (by decide), if_neg (by decide),
    if_neg (by decide), if_pos rfl]
  dsimp only
  rw [if_neg he]

theorem parametersLoop_other (f m n c : Nat) (rest : List Nat) (hn : ¬ 4 < n)
    (hc : ¬ (c = 97 ∨ c = 98 ∨ c = 112 ∨ c = 115)) (he : ¬ c = 101) :
    parametersLoop f m n (c :: rest) = Except.error ArgError.unrecognized := by
  simp only [not_or] at hc
  unfold parametersLoop
  rw [if_neg hn, if_neg hc.1, if_neg hc.2.1, if_neg hc.2.2.2, if_neg hc.2.2.1, if_neg he]

theorem flagCount_letter (c : Nat) (rest : List Nat)
    (hc : c = 97 ∨ c = 98 ∨ c = 112 ∨ c = 115) :
    flagCount (c :: rest) = (flagCount rest).map (· + 1) := by
  conv_lhs => unfold flagCount
  rw [if_pos hc]

theorem flagCount_edit (e : Nat) (rest : List Nat) (he : isdigit e = true) :
    flagCount (101 :: e :: rest) = (flagCount rest).map (· + 1) := by
  conv_lhs => unfold flagCount
  rw [if_neg (by decide), if_pos rfl]
  simp only [he, if_true]

theorem flagCount_lone_edit : flagCount [101] = none := rfl

theorem flagCount_bogus (c : Nat) (rest : List Nat) (hc : ¬ isdigit c = true) :
    flagCount (101 :: c :: rest) = none := by
  conv_lhs => unfold flagCount
  rw [if_neg (by decide), if_pos rfl]
  dsimp only
  rw [if_neg hc]

theorem flagCount_other (c : Nat) (rest : List Nat)
    (hc : ¬ (c = 97 ∨ c = 98 ∨ c = 112 ∨ c = 115)) (he : ¬ c = 101) :
    flagCount (c :: rest) = none := by
  conv_lhs => unfold flagCount
  rw [if_neg hc, if_neg he]

/-- A text that is not made of flags is rejected. -/
theorem parametersLoop_reject (rest : List Nat) :
    ∀ f m n, flagCount rest = none → ∃ e, parametersLoop f m n rest = Except.error e := by
  induction rest using flagCount.induct with
  | case1 => intro f m n h; cases h
  | case2 c rest hc ih =>
    intro f m n h
    by_cases hn : 4 < n
    · exact ⟨_, parametersLoop_tooMany f m n c rest hn⟩
    · obtain ⟨bit, _, _, _, hloop⟩ := parametersLoop_letter c hc
      rw [hloop f m n rest hn]
      rw [flagCount_letter c rest hc] at h
      exact ih _ _ _ (by simpa using h)
  | case3 _ =>
    intro f m n _
    by_cases hn : 4 < n
    · exact ⟨_, parametersLoop_tooMany f m n _ _ hn⟩
    · exact ⟨_, parametersLoop_lone_edit f m n hn⟩
  | case4 c rest hc _ ih =>
    intro f m n h
    by_cases hn : 4 < n
    · exact ⟨_, parametersLoop_tooMany f m n _ _ hn⟩
    · rw [parametersLoop_edit f m n c rest hn hc]
      rw [flagCount_edit c rest hc] at h
      exact ih _ _ _ (by simpa using h)
  | case5 c rest hc _ =>
    intro f m n _
    by_cases hn : 4 < n
    · exact ⟨_, parametersLoop_tooMany f m n _ _ hn⟩
    · exact ⟨_, parametersLoop_bogus f m n c rest hn hc⟩
  | case6 c rest hc he =>
    intro f m n _
    by_cases hn : 4 < n
    · exact ⟨_, parametersLoop_tooMany f m n _ _ hn⟩
    · exact ⟨_, parametersLoop_other f m n c rest hn hc he⟩

/-- A text of flags is rejected when the flags before it and its own flags are more than
five. -/
theorem parametersLoop_overflow (rest : List Nat) :
    ∀ f m n k, flagCount rest = some k → 0 < k → 5 < n + k →
      parametersLoop f m n rest = Except.error ArgError.tooMany := by
  induction rest using flagCount.induct with
  | case1 => intro f m n k h hk; cases h; omega
  | case2 c rest hc ih =>
    intro f m n k h hk hnk
    by_cases hn : 4 < n
    · exact parametersLoop_tooMany f m n c rest hn
    · obtain ⟨bit, _, _, _, hloop⟩ := parametersLoop_letter c hc
      rw [hloop f m n rest hn]
      rw [flagCount_letter c rest hc] at h
      obtain ⟨k1, hk1, rfl⟩ := Option.map_eq_some'.1 h
      exact ih _ _ _ k1 hk1 (by omega) (by omega)
  | case3 _ => intro f m n k h; rw [flagCount_lone_edit] at h; cases h
  | case4 c rest hc _ ih =>
    intro f m n k h hk hnk
    by_cases hn : 4 < n
    · exact parametersLoop_tooMany f m n _ _ hn
    · rw [parametersLoop_edit f m n c rest hn hc]
      rw [flagCount_edit c rest hc] at h
      obtain ⟨k1, hk1, rfl⟩ := Option.map_eq_some'.1 h
      exact ih _ _ _ k1 hk1 (by omega) (by omega)
  | case5 c rest hc _ => intro f m n k h; rw [flagCount_bogus c rest hc] at h; cases h
  | case6 c rest hc he => intro f m n k h; rw [flagCount_other c rest hc he] at h; cases h

theorem flags_lor (f bit : Nat) (hf : f < 16) (hbit : bit = 1 ∨ bit = 2 ∨ bit = 4 ∨ bit = 8) :
    f ||| bit < 16 ∧ ((f ||| bit) &&& 2 ≠ 0 ↔ f &&& 2 ≠ 0 ∨ bit = 2) ∧
      ((f ||| bit) &&& 8 ≠ 0 ↔ f &&& 8 ≠ 0 ∨ bit = 8) := by
  rcases hbit with rfl | rfl | rfl | rfl <;> revert f <;> decide

theorem param_new_flags (m : Nat) :
    ∀ f, f < 16 →
      ((param_t.new f m).flags &&& Flag.all ≠ 0 ↔ ¬ (param_t.new f m).flags &&& Flag.best ≠ 0) ∧
      ((param_t.new f m).flags &&& Flag.probability ≠ 0 ↔
        ¬ (param_t.new f m).flags &&& Flag.simple ≠ 0) ∧
      ((param_t.new f m).flags &&& Flag.best ≠ 0 ↔ f &&& 2 ≠ 0) ∧
      ((param_t.new f m).flags &&& Flag.simple ≠ 0 ↔ f &&& 8 ≠ 0) := by
  have hm : ∀ f, (param_t.new f m).flags = (param_t.new f 0).flags := fun _ => rfl
  simp only [hm]
  decide

/-- A text of at most five flags after `paramCount` flags is accepted, and the flags and
the cutoff that reach the constructor are those of the text. -/
theorem parametersLoop_accept (rest : List Nat) :
    ∀ f m n k, flagCount rest = some k → (k = 0 ∨ n + k ≤ 5) → f < 16 →
      ∃ g c, parametersLoop f m n rest = Except.ok (param_t.new g c) ∧ g < 16 ∧
        (g &&& 2 ≠ 0 ↔ f &&& 2 ≠ 0 ∨ 98 ∈ rest) ∧
        (g &&& 8 ≠ 0 ↔ f &&& 8 ≠ 0 ∨ 115 ∈ rest) ∧
        (101 ∉ rest → c = m) ∧
        ∀ pre e post, rest = pre ++ 101 :: e :: post → 101 ∉ post →
          isdigit e = true ∧ c = e - 48 := by
  induction rest using flagCount.induct with
  | case1 =>
    intro f m n k _ _ hf
    refine ⟨f, m, rfl, hf, by simp, by simp, fun _ => rfl, ?_⟩
    intro pre e post h
    simp at h
  | case2 c rest hc ih =>
    intro f m n k h hk hf
    rw [flagCount_letter c rest hc] at h
    obtain ⟨k1, hk1, rfl⟩ := Option.map_eq_some'.1 h
    obtain ⟨bit, hbit, hb2, hb8, hloop⟩ := parametersLoop_letter c hc
    obtain ⟨hlt, h2, h8⟩ := flags_lor f bit hf hbit
    obtain ⟨g, x, hg, hg16, hg2, hg8, hx, hpre⟩ :=
      ih (f ||| bit) m (n + 1) k1 hk1 (by omega) hlt
    have hce : c ≠ 101 := by rcases hc with rfl | rfl | rfl | rfl <;> decide
    refine ⟨g, x, by rw [hloop f m n rest (by omega), hg], hg16, ?_, ?_, ?_, ?_⟩
    · rw [hg2, h2, hb2, List.mem_cons, or_assoc]
      constructor
      · rintro (h | h | h)
        · exact Or.inl h
        · exact Or.inr (Or.inl h.symm)
        · exact Or.inr (Or.inr h)
      · rintro (h | h | h)
        · exact Or.inl h
        · exact Or.inr (Or.inl h.symm)
        · exact Or.inr (Or.inr h)
    · rw [hg8, h8, hb8, List.mem_cons, or_assoc]
      constructor
      · rintro (h | h | h)
        · exact Or.inl h
        · exact Or.inr (Or.inl h.symm)
        · exact Or.inr (Or.inr h)
      · rintro (h | h | h)
        · exact Or.inl h
        · exact Or.inr (Or.inl h.symm)
        · exact Or.inr (Or.inr h)
    · intro he
      exact hx fun h => he (List.mem_cons_of_mem _ h)
    · intro pre e post hsplit hpost
      cases pre with
      | nil =>
        simp only [List.nil_append, List.cons.injEq] at hsplit
        exact absurd hsplit.1 hce
      | cons p pre1 =>
        simp only [List.cons_append, List.cons.injEq] at hsplit
        exact hpre pre1 e post hsplit.2 hpost
  | case3 _ => intro f m n k h; rw [flagCount_lone_edit] at h; cases h
  | case4 c rest hc _ ih =>
    intro f m n k h hk hf
    rw [flagCount_edit c rest hc] at h
    obtain ⟨k1, hk1, rfl⟩ := Option.map_eq_some'.1 h
    obtain ⟨g, x, hg, hg16, hg2, hg8, hx, hpre⟩ :=
      ih f (c - 48) (n + 1) k1 hk1 (by omega) hf
    have hc98 : c ≠ 98 := by rintro rfl; revert hc; decide
    have hc115 : c ≠ 115 := by rintro rfl; revert hc; decide
    have hc101 : c ≠ 101 := by rintro rfl; revert hc; decide
    refine ⟨g, x, by rw [parametersLoop_edit f m n c rest (by omega) hc, hg], hg16, ?_, ?_,
      ?_, ?_⟩
    · rw [hg2]
      simp only [List.mem_cons, show ¬ (98 = 101) by decide, false_or, hc98.symm]
    · rw [hg8]
      simp only [List.mem_cons, show ¬ (115 = 101) by decide, false_or, hc115.symm]
    · intro he
      exact absurd (List.mem_cons_self _ _) he
    · intro pre e post hsplit hpost
      cases pre with
      | nil =>
        simp only [List.nil_append, List.cons.injEq, true_and] at hsplit
        obtain ⟨rfl, rfl⟩ := hsplit
        exact ⟨hc, hx hpost⟩
      | cons p pre1 =>
        simp only [List.cons_append, List.cons.injEq] at hsplit
        obtain ⟨_, hsplit⟩ := hsplit
        cases pre1 with
        | nil =>
          simp only [List.nil_append, List.cons.injEq] at hsplit
          exact absurd hsplit.1 hc101
        | cons q pre2 =>
          simp only [List.cons_append, List.cons.injEq] at hsplit
          exact hpre pre2 e post hsplit.2 hpost
  | case5 c rest hc _ => intro f m n k h; rw [flagCount_bogus c rest hc] at h; cases h
  | case6 c rest hc he => intro f m n k h; rw [flagCount_other c rest hc he] at h; cases h

/-- An `e` that ends the text or stands before a byte that is no digit is not part of a
text of flags. -/
theorem flagCount_bad_edit (pre tail : List Nat)
    (htail : tail = [] ∨ ∃ c post, tail = c :: post ∧ isdigit c = false) :
    flagCount (pre ++ 101 :: tail) = none := by
  induction pre using flagCount.induct with
  | case1 =>
    rcases htail with rfl | ⟨c, post, rfl, hc⟩
    · rfl
    · exact flagCount_bogus c post (by simp [hc])
  | case2 c rest hc ih => rw [List.cons_append, flagCount_letter c _ hc, ih]; rfl
  | case3 _ => exact flagCount_bogus 101 tail (by decide)
  | case4 c rest hc _ ih =>
    rw [List.cons_append, List.cons_append, flagCount_edit c _ hc, ih]; rfl
  | case5 c rest hc _ => exact flagCount_bogus c _ hc
  | case6 c rest hc he => exact flagCount_other c _ hc he

theorem parseCmdLineArgs_cons (c : Nat) (rest : List Nat) :
    parseCmdLineArgs (c :: rest) =
      if c ≠ 45 then Except.error ArgError.malformed else parametersLoop 0 1 0 rest := rfl

theorem parseCmdLineArgs_dash (rest : List Nat) :
    parseCmdLineArgs (45 :: rest) = parametersLoop 0 1 0 rest := rfl

/-! ## The successor rule: lemmas -/

theorem Searcher.deref_eq_query (sr : Searcher) (i : Nat) (h : i < sr.word.length) :
    sr.deref i = sr.query i := by
  unfold Searcher.deref Searcher.query
  rw [List.getD_eq_getElem _ _ h, List.getD_eq_getElem _ _ h]

theorem Searcher.deref_eq_mem (sr : Searcher) (i : Nat) (h : sr.word.length ≤ i) :
    sr.deref i = sr.mem i := by
  unfold Searcher.deref
  rw [List.getD_eq_default _ _ h]

/-- The pushes of `_pushEditOperations` for one transition are those of the rule, when the
frame is inside the query, or at its end with no transition on the byte that lies after
the end; where `char` is signed, when the byte of the transition is below 128. -/
theorem pushEditOperations_eq_rule (sr : Searcher) (v : List State) (t : Item)
    (p : Nat × Nat) (acc : List Item)
    (h : t.nextChar < sr.word.length ∨
      (t.nextChar = sr.word.length ∧ sr.mem (t.nextChar + 1) ≠ p.1))
    (hs : sr.signedChar = true → p.1 < 128) :
    pushEditOperations sr v p.1 p.2 t acc = (ruleTransition sr v t p).reverse ++ acc := by
  unfold pushEditOperations ruleTransition
  by_cases hc : t.nextChar + 1 < sr.word.length ∧ sr.query (t.nextChar + 1) = p.1
  · have hd1 := sr.deref_eq_query (t.nextChar + 1) hc.1
    have hd0 := sr.deref_eq_query t.nextChar (by omega)
    have hcode : t.nextChar + 1 ≠ sr.word.length ∧
        sr.charEq (sr.deref (t.nextChar + 1)) p.1 :=
      ⟨by omega, by rw [hd1]; exact hc.2, fun hsc => by rw [hd1, hc.2]; exact hs hsc⟩
    simp only [if_pos hc, if_pos hcode, hd0, hd1]
    cases hf : (v.getD p.2 State.new).transitions.find (sr.query t.nextChar) with
    | none => simp [insertionItem, substitutionItem]
    | some after =>
      have hne : ¬ t.nextChar + 1 = sr.word.length := by omega
      have hce : sr.charEq p.1 p.1 := by
        have := hcode.2
        rwa [hd1, hc.2] at this
      simp [insertionItem, substitutionItem, transpositionItem, hc.2, hne, hce]
  · have hcode : ¬ (t.nextChar + 1 ≠ sr.word.length ∧
        sr.charEq (sr.deref (t.nextChar + 1)) p.1) := by
      rintro ⟨h1, h2, _⟩
      rcases h with h | ⟨h, hm⟩
      · exact hc ⟨by omega, by rw [← sr.deref_eq_query _ (by omega)]; exact h2⟩
      · rw [sr.deref_eq_mem _ (by omega)] at h2
        exact hm h2
    simp only [if_neg hc, if_neg hcode]
    simp [insertionItem, substitutionItem]

theorem foldl_pushEditOperations_eq_rule (sr : Searcher) (v : List State) (t : Item)
    (l : List (Nat × Nat)) (acc : List Item)
    (h : t.nextChar < sr.word.length ∨
      (t.nextChar = sr.word.length ∧ ∀ p ∈ l, sr.mem (t.nextChar + 1) ≠ p.1))
    (hs : sr.signedChar = true → ∀ p ∈ l, p.1 < 128) :
    l.foldl (fun a p => pushEditOperations sr v p.1 p.2 t a) acc =
      (l.flatMap (ruleTransition sr v t)).reverse ++ acc := by
  induction l generalizing acc with
  | nil => rfl
  | cons p l ih =>
    have hp : t.nextChar < sr.word.length ∨
        (t.nextChar = sr.word.length ∧ sr.mem (t.nextChar + 1) ≠ p.1) := by
      rcases h with h | ⟨h, hm⟩
      · exact Or.inl h
      · exact Or.inr ⟨h, hm p (List.mem_cons_self _ _)⟩
    have hl : t.nextChar < sr.word.length ∨
        (t.nextChar = sr.word.length ∧ ∀ x ∈ l, sr.mem (t.nextChar + 1) ≠ x.1) := by
      rcases h with h | ⟨h, hm⟩
      · exact Or.inl h
      · exact Or.inr ⟨h, fun x hx => hm x (List.mem_cons_of_mem _ hx)⟩
    rw [List.foldl_cons, ih _ hl (fun hsc x hx => hs hsc x (List.mem_cons_of_mem _ hx)),
      pushEditOperations_eq_rule sr v t p acc hp (fun hsc => hs hsc p (List.mem_cons_self _ _)),
      List.flatMap_cons, List.reverse_append, List.append_assoc]

/-- The pushes of `feedStack` are those of the successor rule, in its order, for every
frame inside the query, and for every frame at the end of the query whose state has no
transition on the byte that lies in memory after the end; where `char` is signed, when
the bytes of the transitions of the state are below 128. -/
theorem successors_eq_rule (sr : Searcher) (v : List State) (t : Item)
    (h : t.nextChar < sr.word.length ∨
      (t.nextChar = sr.word.length ∧
        ∀ p ∈ t.stateData.transitions, sr.mem (t.nextChar + 1) ≠ p.1))
    (hs : sr.signedChar = true → ∀ p ∈ t.stateData.transitions, p.1 < 128) :
    successors sr v t = (ruleFrames sr v t).reverse := by
  unfold successors pushEdits pushNoop ruleFrames
  rw [foldl_pushEditOperations_eq_rule sr v t _ _ h hs]
  rcases h with h | ⟨h, _⟩
  · have hne : t.nextChar ≠ sr.word.length := by omega
    rw [sr.deref_eq_query _ h]
    simp only [if_pos h, if_pos hne]
    by_cases hk : t.editDistance < sr.cutoffDistance
    · simp only [if_pos hk]
      cases hf : t.stateData.transitions.find (sr.query t.nextChar) with
      | none => simp [deletionItem]
      | some found => simp [deletionItem, noopItem]
    · simp only [if_neg hk]
      cases hf : t.stateData.transitions.find (sr.query t.nextChar) with
      | none => simp
      | some found => simp [noopItem]
  · have hlt : ¬ t.nextChar < sr.word.length := by omega
    simp only [if_neg hlt, h, ne_eq, not_true_eq_false, if_false]
    by_cases hk : t.editDistance < sr.cutoffDistance
    · simp [hk]
    · simp [hk]

/-! ## The hit table during a search -/

theorem searchLoop_fuel_mono (sr : Searcher) (v : List State) (fuel extra : Nat)
    (s : List Item) (r R : Results) (h : searchLoop sr v fuel s r = some R) :
    searchLoop sr v (fuel + extra) s r = some R := by
  induction fuel generalizing s r with
  | zero =>
    cases s with
    | nil =>
      cases extra with
      | zero => exact h
      | succ e => simpa [searchLoop] using h
    | cons top s => simp [searchLoop] at h
  | succ fuel ih =>
    cases s with
    | nil => simpa [searchLoop] using h
    | cons top s =>
      rw [searchLoop_cons] at h
      rw [show fuel + 1 + extra = (fuel + extra) + 1 by omega, searchLoop_cons]
      exact ih _ _ h

theorem searchLoop_fuel_le (sr : Searcher) (v : List State) (fuel fuel1 : Nat)
    (s : List Item) (r R : Results) (h : searchLoop sr v fuel s r = some R)
    (hle : fuel ≤ fuel1) : searchLoop sr v fuel1 s r = some R := by
  obtain ⟨e, rfl⟩ := Nat.exists_eq_add_of_le hle
  exact searchLoop_fuel_mono sr v fuel e s r R h

/-- The update of the hit table in `feedStack`: an entry is added at the end when the item
is accepting and the table has no entry for its candidate, and nothing changes
otherwise. -/
theorem recordResult_eq (sr : Searcher) (top : Item) (r : Results) :
    recordResult sr top r =
      if top.accepting sr ∧ r.find top.candidate = none then
        r ++ [(top.candidate, (top.state, top.editDistance))]
      else r := by
  unfold recordResult Item.accepting
  by_cases hacc : top.nextChar = sr.word.length ∧ top.stateData.endState = true
  · rw [if_pos hacc]
    cases hf : r.find top.candidate with
    | none =>
      rw [if_pos ⟨hacc, rfl⟩]
      simp only [Results.insert, hf]
    | some p =>
      rw [if_neg (by simp)]
      simp only [Results.insert, hf]
      split <;> rfl
  · rw [if_neg hacc, if_neg (fun h => hacc h.1)]

theorem Results.find_append_some (r l : Results) (k : List Nat) (p : Nat × Nat)
    (h : r.find k = some p) : (r ++ l).find k = some p := by
  induction r with
  | nil => cases h
  | cons e r ih =>
    obtain ⟨k1, p1⟩ := e
    simp only [List.cons_append, Results.find] at h ⊢
    by_cases hk : k1 = k
    · rw [if_pos hk] at h ⊢
      exact h
    · rw [if_neg hk] at h ⊢
      exact ih h

theorem Results.find_append_none (r : Results) (k : List Nat) (p : Nat × Nat)
    (h : r.find k = none) : (r ++ [(k, p)]).find k = some p := by
  induction r with
  | nil => simp [Results.find]
  | cons e r ih =>
    obtain ⟨k1, p1⟩ := e
    simp only [List.cons_append, Results.find] at h ⊢
    by_cases hk : k1 = k
    · rw [if_pos hk] at h
      cases h
    · rw [if_neg hk] at h ⊢
      exact ih h

theorem recordResult_find_some (sr : Searcher) (top : Item) (r : Results) (k : List Nat)
    (p : Nat × Nat) (h : r.find k = some p) : (recordResult sr top r).find k = some p := by
  rw [recordResult_eq]
  split
  · exact Results.find_append_some r _ k p h
  · exact h

theorem recordResult_find_new (sr : Searcher) (top : Item) (r : Results)
    (hacc : top.accepting sr) (h : r.find top.candidate = none) :
    (recordResult sr top r).find top.candidate = some (top.state, top.editDistance) := by
  rw [recordResult_eq, if_pos ⟨hacc, h⟩]
  exact Results.find_append_none r _ _ h

theorem searchLoop_find_some (sr : Searcher) (v : List State) (fuel : Nat) (s : List Item)
    (r R : Results) (h : searchLoop sr v fuel s r = some R) (k : List Nat) (p : Nat × Nat)
    (hk : r.find k = some p) : R.find k = some p := by
  induction fuel generalizing s r with
  | zero =>
    cases s with
    | nil =>
      simp only [searchLoop, Option.some.injEq] at h
      subst h
      exact hk
    | cons top s => simp [searchLoop] at h
  | succ fuel ih =>
    cases s with
    | nil =>
      simp only [searchLoop, Option.some.injEq] at h
      subst h
      exact hk
    | cons top s =>
      rw [searchLoop_cons] at h
      exact ih _ _ h (recordResult_find_some sr top r k p hk)

theorem recordResult_keys_nodup (sr : Searcher) (top : Item) (r : Results)
    (h : r.keys.Nodup) : (recordResult sr top r).keys.Nodup := by
  rw [recordResult_eq]
  split
  · rename_i hc
    have hn := (Results.find_none_iff r top.candidate).mp hc.2
    unfold Results.keys at hn h ⊢
    rw [List.map_append, List.map_cons, List.map_nil]
    exact List.Nodup.append h (List.nodup_singleton _)
      (by
        intro x hx hx1
        rw [List.mem_singleton] at hx1
        subst hx1
        exact hn hx)
  · exact h

theorem searchLoop_keys_nodup (sr : Searcher) (v : List State) (fuel : Nat) (s : List Item)
    (r R : Results) (h : searchLoop sr v fuel s r = some R) (hr : r.keys.Nodup) :
    R.keys.Nodup := by
  induction fuel generalizing s r with
  | zero =>
    cases s with
    | nil =>
      simp only [searchLoop, Option.some.injEq] at h
      subst h
      exact hr
    | cons top s => simp [searchLoop] at h
  | succ fuel ih =>
    cases s with
    | nil =>
      simp only [searchLoop, Option.some.injEq] at h
      subst h
      exact hr
    | cons top s =>
      rw [searchLoop_cons] at h
      exact ih _ _ h (recordResult_keys_nodup sr top r hr)

theorem packageResults_firsts {V : Type} (values : Nat → Option V) (R : Results)
    (out : List (TolerantResult V)) (h : packageResults values R = some out) :
    out.map (fun x => x.first) = R.keys := by
  induction R generalizing out with
  | nil =>
    simp only [packageResults, Option.some.injEq] at h
    subst h
    rfl
  | cons e R ih =>
    obtain ⟨k, p⟩ := e
    simp only [packageResults] at h
    cases hv : values p.1 with
    | none => simp [hv] at h
    | some x =>
      cases hp : packageResults values R with
      | none => simp [hv, hp] at h
      | some rest =>
        simp only [hv, hp, Option.some.injEq] at h
        subst h
        simp only [List.map_cons, Results.keys]
        rw [ih rest hp]
        rfl

/-- The results of `tolerantFind` name every candidate once. -/
theorem Tri.tolerantFind_nodup {V : Type} (t : Tri V) (mem : Nat → Nat) (sc : Bool) (q : List Nat)
    (c : Nat) (out : List (TolerantResult V)) (h : t.tolerantFind mem sc q c = some out) :
    (out.map fun x => x.first).Nodup := by
  unfold Tri.tolerantFind Tri.tolerantFindWith at h
  cases hl : searchLoop ⟨q, c, mem, sc⟩ t.v (searchFuel t.v c) [initialItem 0 t.v] [] with
  | none => simp [hl] at h
  | some R =>
    simp only [hl] at h
    rw [packageResults_firsts t.values R out h]
    exact searchLoop_keys_nodup _ _ _ _ _ R hl List.nodup_nil

/-! ## Alignments of the items of a search -/

theorem OSA.append {n m : Nat} {a b c d : List Nat} (h1 : OSA n a b) (h2 : OSA m c d) :
    OSA (n + m) (a ++ c) (b ++ d) := by
  induction h1 with
  | nil => simpa using h2
  | keep x _ ih => exact OSA.keep x ih
  | substitution x y _ ih =>
    rw [Nat.add_right_comm]
    exact OSA.substitution x y ih
  | insertion y _ ih =>
    rw [Nat.add_right_comm]
    exact OSA.insertion y ih
  | deletion x _ ih =>
    rw [Nat.add_right_comm]
    exact OSA.deletion x ih
  | transposition x y _ ih =>
    rw [Nat.add_right_comm]
    exact OSA.transposition x y ih

/-- The edit count of an item on the stack whose iterator is inside the query is the cost
of an alignment of the consumed part of the query and the candidate. -/
theorem Pushed.alignment (sr : Searcher) (v : List State) (it : Item) (hp : Pushed sr v it)
    (hn : it.nextChar ≤ sr.word.length) :
    OSA it.editDistance (sr.word.take it.nextChar) it.candidate := by
  induction hp with
  | refl => exact OSA.nil
  | @tail top g _ hs ih =>
    cases (mem_successors sr v top g).mp hs with
    | noop found h1 h2 =>
      simp only [noopItem] at hn ⊢
      rw [sr.take_succ _ (by omega)]
      exact (ih (by omega)).append (OSA.keep _ OSA.nil)
    | deletion h1 h2 =>
      simp only [deletionItem] at hn ⊢
      rw [sr.take_succ _ (by omega)]
      have := (ih (by omega)).append (OSA.deletion (sr.deref top.nextChar) OSA.nil)
      simpa using this
    | transposition c d after h1 h2 h3 h4 h5 =>
      simp only [transpositionItem] at hn ⊢
      rw [show top.nextChar + 2 = (top.nextChar + 1) + 1 from rfl,
        sr.take_succ _ (by omega), sr.take_succ _ (by omega)]
      have := (ih (by omega)).append
        (OSA.transposition (sr.deref top.nextChar) (sr.deref (top.nextChar + 1)) OSA.nil)
      simpa using this
    | substitution c d h1 h2 =>
      simp only [substitutionItem] at hn ⊢
      rw [sr.take_succ _ (by omega)]
      exact (ih (by omega)).append (OSA.substitution (sr.deref top.nextChar) c OSA.nil)
    | insertion c d h1 h2 =>
      simp only [insertionItem] at hn ⊢
      have := (ih hn).append (OSA.insertion c OSA.nil)
      simpa using this

/-- Every result of `tolerantFind` is within the cutoff of the query in the
optimal-string-alignment distance, by an alignment of the reported cost. -/
theorem Tri.tolerantFind_osa_sound {V : Type} (t : Tri V) (mem : Nat → Nat) (sc : Bool) (q : List Nat)
    (c : Nat) (out : List (TolerantResult V)) (h : t.tolerantFind mem sc q c = some out)
    (r : TolerantResult V) (hr : r ∈ out) :
    OSA r.editDistance q r.first ∧ r.editDistance ≤ c := by
  obtain ⟨it, hp, hacc, hcand, hed, _⟩ := t.tolerantFind_sound mem sc q c out h r hr
  have hn : it.nextChar = q.length := hacc.1
  have := Pushed.alignment ⟨q, c, mem, sc⟩ t.v it hp (by simp only [hn]; exact le_refl _)
  simp only [hn, List.take_length] at this
  rw [hcand, hed] at this
  exact ⟨this, hed ▸ Pushed.edits_le ⟨q, c, mem, sc⟩ t.v it hp⟩

/-! ## Reachability in built tries -/

theorem Tri.Built.allReach {V : Type} {t : Tri V} (h : t.Built) : t.AllReach := by
  induction h with
  | empty => exact (Tri.empty_walks V).2
  | insert key x hb hins ih => exact (Tri.insert_walks _ hb.wf key x _ hins).2.2 ih

/-- Every state but state 0 has an incoming transition when every state is reached from
state 0. -/
theorem Tri.incoming {V : Type} (t : Tri V) (hr : t.AllReach) (d : Nat) (h0 : 0 < d)
    (hd : d < t.v.length) : ∃ s c, t.delta s c = some d := by
  obtain ⟨p, hp⟩ := hr d hd
  rcases List.eq_nil_or_concat p with rfl | ⟨k, c, rfl⟩
  · simp only [Tri.getWalk, Option.some.injEq] at hp
    omega
  · rw [List.concat_eq_append, Tri.getWalk_snoc] at hp
    cases hk : t.getWalk 0 k with
    | none => simp [hk] at hp
    | some s =>
      simp only [hk, Option.bind] at hp
      exact ⟨s, c, hp⟩

/-! ## Searches in tries with the same keys -/

theorem forall2_imp_mem {α β : Type} {R S : α → β → Prop} {l1 : List α} {l2 : List β}
    (h : List.Forall₂ R l1 l2) (hi : ∀ x y, x ∈ l1 → y ∈ l2 → R x y → S x y) :
    List.Forall₂ S l1 l2 := by
  induction h with
  | nil => exact List.Forall₂.nil
  | cons hxy _ ih =>
    exact List.Forall₂.cons (hi _ _ (List.mem_cons_self _ _) (List.mem_cons_self _ _) hxy)
      (ih fun x y hx hy => hi x y (List.mem_cons_of_mem _ hx) (List.mem_cons_of_mem _ hy))

theorem Tri.getWalk_snoc_some {V : Type} (t : Tri V) (p : List Nat) (s c : Nat)
    (h : t.getWalk 0 p = some s) : t.getWalk 0 (p ++ [c]) = t.delta s c := by
  rw [Tri.getWalk_snoc, h]
  rfl

/-- In tries with the same keys, the states that a string leads to have a transition on
the same bytes, and the transitions lead to the states of the longer string. -/
theorem Tri.SameKeys.delta {V : Type} {t1 t2 : Tri V} (sk : t1.SameKeys t2) (p : List Nat)
    (s1 s2 c : Nat) (h1 : t1.getWalk 0 p = some s1) (h2 : t2.getWalk 0 p = some s2) :
    (t1.delta s1 c = none ∧ t2.delta s2 c = none) ∨
      ∃ d1 d2, t1.delta s1 c = some d1 ∧ t2.delta s2 c = some d2 ∧
        t1.getWalk 0 (p ++ [c]) = some d1 ∧ t2.getWalk 0 (p ++ [c]) = some d2 := by
  have e1 := t1.getWalk_snoc_some p s1 c h1
  have e2 := t2.getWalk_snoc_some p s2 c h2
  have hw := sk.walks (p ++ [c])
  rw [e1, e2] at hw
  cases hd1 : t1.delta s1 c with
  | none =>
    cases hd2 : t2.delta s2 c with
    | none => exact Or.inl ⟨rfl, rfl⟩
    | some d2 =>
      rw [hd1, hd2] at hw
      obtain ⟨s, hs⟩ := hw.mpr ⟨d2, rfl⟩
      cases hs
  | some d1 =>
    cases hd2 : t2.delta s2 c with
    | none =>
      rw [hd1, hd2] at hw
      obtain ⟨s, hs⟩ := hw.mp ⟨d1, rfl⟩
      cases hs
    | some d2 =>
      exact Or.inr ⟨d1, d2, rfl, rfl, by rw [e1, hd1], by rw [e2, hd2]⟩

theorem Transitions.mem_keys_iff (l : Transitions) (hs : (l.map Prod.fst).Pairwise (· < ·))
    (c : Nat) : c ∈ l.map Prod.fst ↔ ∃ d, l.find c = some d := by
  constructor
  · intro h
    obtain ⟨x, hx, rfl⟩ := List.mem_map.mp h
    exact ⟨x.2, Transitions.mem_find l x.1 x.2 hs hx⟩
  · rintro ⟨d, hd⟩
    exact List.mem_map.mpr ⟨(c, d), Transitions.find_mem l c d hd, rfl⟩

/-- In tries with the same keys, the transition tables of the states that a string leads
to list the same bytes in the same order. -/
theorem Tri.SameKeys.transitions {V : Type} {t1 t2 : Tri V} (sk : t1.SameKeys t2)
    (w1 : t1.StructWF) (w2 : t2.StructWF) (p : List Nat) (s1 s2 : Nat)
    (h1 : t1.getWalk 0 p = some s1) (h2 : t2.getWalk 0 p = some s2) :
    List.Forall₂ (fun x y => x.1 = y.1 ∧ t1.getWalk 0 (p ++ [x.1]) = some x.2 ∧
        t2.getWalk 0 (p ++ [y.1]) = some y.2)
      (t1.stateAt s1).transitions (t2.stateAt s2).transitions := by
  have hs1 := w1.sorted s1
  have hs2 := w2.sorted s2
  have hmem : ∀ c, c ∈ (t1.stateAt s1).transitions.map Prod.fst ↔
      c ∈ (t2.stateAt s2).transitions.map Prod.fst := by
    intro c
    rw [Transitions.mem_keys_iff _ hs1, Transitions.mem_keys_iff _ hs2]
    rcases sk.delta p s1 s2 c h1 h2 with ⟨e1, e2⟩ | ⟨d1, d2, e1, e2, _, _⟩
    · unfold Tri.delta at e1 e2
      rw [e1, e2]
    · unfold Tri.delta at e1 e2
      rw [e1, e2]
      exact ⟨fun _ => ⟨d2, rfl⟩, fun _ => ⟨d1, rfl⟩⟩
  have hkeys : (t1.stateAt s1).transitions.map Prod.fst =
      (t2.stateAt s2).transitions.map Prod.fst := by
    apply List.eq_of_perm_of_sorted _ hs1 hs2
    exact (List.perm_ext_iff_of_nodup (hs1.imp fun h => Nat.ne_of_lt h)
      (hs2.imp fun h => Nat.ne_of_lt h)).mpr hmem
  have hf : List.Forall₂ (fun x y : Nat × Nat => x.1 = y.1)
      (t1.stateAt s1).transitions (t2.stateAt s2).transitions := by
    have : List.Forall₂ (· = ·) ((t1.stateAt s1).transitions.map Prod.fst)
        ((t2.stateAt s2).transitions.map Prod.fst) := by
      rw [List.forall₂_eq_eq_eq]
      exact hkeys
    rw [List.forall₂_map_left_iff, List.forall₂_map_right_iff] at this
    exact this
  apply forall2_imp_mem hf
  intro x y hx hy hxy
  refine ⟨hxy, ?_, ?_⟩
  · rw [t1.getWalk_snoc_some p s1 x.1 h1]
    exact t1.mem_delta w1 s1 x.1 x.2 hx
  · rw [t2.getWalk_snoc_some p s2 y.1 h2]
    exact t2.mem_delta w2 s2 y.1 y.2 hy

theorem foldl_forall2 {α β γ δ : Type} (R : γ → δ → Prop) (T : α → β → Prop)
    (f1 : γ → α → γ) (f2 : δ → β → δ) (l1 : List α) (l2 : List β)
    (hl : List.Forall₂ T l1 l2)
    (hf : ∀ x y a b, T x y → R a b → R (f1 a x) (f2 b y)) :
    ∀ a b, R a b → R (l1.foldl f1 a) (l2.foldl f2 b) := by
  induction hl with
  | nil => exact fun _ _ h => h
  | cons hxy _ ih => exact fun a b h => ih _ _ (hf _ _ _ _ hxy h)

theorem pushNoop_alike {V : Type} {t1 t2 : Tri V} (sk : t1.SameKeys t2) (sr : Searcher)
    (a b : Item) (h : Item.Alike t1 t2 a b) :
    List.Forall₂ (Item.Alike t1 t2) (pushNoop sr t1.v a []) (pushNoop sr t2.v b []) := by
  unfold pushNoop
  rw [← h.cursor]
  by_cases hn : a.nextChar ≠ sr.word.length
  · rw [if_pos hn, if_pos hn, h.data1, h.data2]
    rcases sk.delta a.candidate a.state b.state (sr.deref a.nextChar) h.walk1
        (h.candidate ▸ h.walk2) with ⟨e1, e2⟩ | ⟨d1, d2, e1, e2, g1, g2⟩
    · unfold Tri.delta at e1 e2
      rw [e1, e2]
      exact List.Forall₂.nil
    · unfold Tri.delta at e1 e2
      rw [e1, e2]
      refine List.Forall₂.cons ?_ List.Forall₂.nil
      exact ⟨h.edits, by simp only [noopItem, h.cursor], by simp only [noopItem, h.candidate],
        g1, by simp only [noopItem, ← h.candidate]; exact g2, rfl, rfl⟩
  · rw [if_neg hn, if_neg hn]
    exact List.Forall₂.nil

theorem pushEditOperations_alike {V : Type} {t1 t2 : Tri V} (sk : t1.SameKeys t2)
    (sr : Searcher) (a b : Item) (h : Item.Alike t1 t2 a b) (x y : Nat × Nat)
    (hx : x.1 = y.1) (g1 : t1.getWalk 0 (a.candidate ++ [x.1]) = some x.2)
    (g2 : t2.getWalk 0 (a.candidate ++ [y.1]) = some y.2) (acc1 acc2 : List Item)
    (hacc : List.Forall₂ (Item.Alike t1 t2) acc1 acc2) :
    List.Forall₂ (Item.Alike t1 t2) (pushEditOperations sr t1.v x.1 x.2 a acc1)
      (pushEditOperations sr t2.v y.1 y.2 b acc2) := by
  unfold pushEditOperations
  rw [← hx] at g2 ⊢
  rw [← h.cursor]
  have hins : Item.Alike t1 t2
      (insertionItem x.1 (t1.v.getD x.2 State.new) x.2 a)
      (insertionItem x.1 (t2.v.getD y.2 State.new) y.2 b) :=
    ⟨by simp only [insertionItem, h.edits], h.cursor, by simp only [insertionItem, h.candidate],
      g1, by simp only [insertionItem, ← h.candidate]; exact g2, rfl, rfl⟩
  have hsub : Item.Alike t1 t2
      (substitutionItem x.1 (t1.v.getD x.2 State.new) x.2 a)
      (substitutionItem x.1 (t2.v.getD y.2 State.new) y.2 b) :=
    ⟨by simp only [substitutionItem, h.edits], by simp only [substitutionItem, h.cursor],
      by simp only [substitutionItem, h.candidate],
      g1, by simp only [substitutionItem, ← h.candidate]; exact g2, rfl, rfl⟩
  refine List.Forall₂.cons hins (List.Forall₂.cons hsub ?_)
  dsimp only
  by_cases hc : a.nextChar + 1 ≠ sr.word.length ∧ sr.charEq (sr.deref (a.nextChar + 1)) x.1
  · rw [if_pos hc, if_pos hc]
    rcases sk.delta (a.candidate ++ [x.1]) x.2 y.2 (sr.deref a.nextChar) g1 g2 with
      ⟨e1, e2⟩ | ⟨d1, d2, e1, e2, k1, k2⟩
    · unfold Tri.delta Tri.stateAt at e1 e2
      rw [e1, e2]
      exact hacc
    · unfold Tri.delta Tri.stateAt at e1 e2
      rw [e1, e2]
      refine List.Forall₂.cons ?_ hacc
      refine ⟨by simp only [transpositionItem, h.edits],
        by simp only [transpositionItem, h.cursor],
        by simp only [transpositionItem, h.candidate], ?_, ?_, rfl, rfl⟩
      · simp only [transpositionItem, hc.2.1]
        exact k1
      · simp only [transpositionItem, hc.2.1, ← h.candidate]
        exact k2
  · rw [if_neg hc, if_neg hc]
    exact hacc

/-- In tries with the same keys, `feedStack` pushes items alike for items alike. -/
theorem successors_alike {V : Type} {t1 t2 : Tri V} (sk : t1.SameKeys t2)
    (w1 : t1.StructWF) (w2 : t2.StructWF) (sr : Searcher) (a b : Item)
    (h : Item.Alike t1 t2 a b) :
    List.Forall₂ (Item.Alike t1 t2) (successors sr t1.v a) (successors sr t2.v b) := by
  unfold successors pushEdits
  rw [← h.edits, ← h.cursor]
  have hnoop := pushNoop_alike sk sr a b h
  by_cases hk : a.editDistance < sr.cutoffDistance
  · rw [if_pos hk, if_pos hk]
    dsimp only
    have htr := sk.transitions w1 w2 a.candidate a.state b.state h.walk1
      (h.candidate ▸ h.walk2)
    rw [← h.data1, ← h.data2] at htr
    apply foldl_forall2 (List.Forall₂ (Item.Alike t1 t2)) _ _ _ _ _ htr
    · intro x y acc1 acc2 hxy hacc
      exact pushEditOperations_alike sk sr a b h x y hxy.1 hxy.2.1 hxy.2.2 acc1 acc2 hacc
    · by_cases hn : a.nextChar ≠ sr.word.length
      · rw [if_pos hn, if_pos hn]
        refine List.Forall₂.cons ?_ hnoop
        exact ⟨by simp only [deletionItem, h.edits], by simp only [deletionItem, h.cursor],
          h.candidate, h.walk1, h.walk2, h.data1, h.data2⟩
      · rw [if_neg hn, if_neg hn]
        exact hnoop
  · rw [if_neg hk, if_neg hk]
    exact hnoop

theorem Results.keys_of_alike {V : Type} {t1 t2 : Tri V} {r1 r2 : Results}
    (h : List.Forall₂ (Results.Alike t1 t2) r1 r2) : r1.keys = r2.keys := by
  induction h with
  | nil => rfl
  | cons hxy _ ih =>
    unfold Results.keys at ih ⊢
    rw [List.map_cons, List.map_cons, ih, hxy.1]

theorem recordResult_alike {V : Type} {t1 t2 : Tri V} (sk : t1.SameKeys t2) (sr : Searcher)
    (a b : Item) (h : Item.Alike t1 t2 a b) (r1 r2 : Results)
    (hr : List.Forall₂ (Results.Alike t1 t2) r1 r2) :
    List.Forall₂ (Results.Alike t1 t2) (recordResult sr a r1) (recordResult sr b r2) := by
  rw [recordResult_eq, recordResult_eq]
  have hend : a.stateData.endState = b.stateData.endState := by
    rw [h.data1, h.data2]
    exact sk.ends a.candidate a.state b.state h.walk1 (h.candidate ▸ h.walk2)
  have hacc : a.accepting sr ↔ b.accepting sr := by
    unfold Item.accepting
    rw [h.cursor, hend]
  have hfind : r1.find a.candidate = none ↔ r2.find b.candidate = none := by
    rw [Results.find_none_iff, Results.find_none_iff, Results.keys_of_alike hr, h.candidate]
  by_cases hc : a.accepting sr ∧ r1.find a.candidate = none
  · rw [if_pos hc, if_pos ⟨hacc.mp hc.1, hfind.mp hc.2⟩]
    exact List.rel_append hr (List.Forall₂.cons
      ⟨h.candidate, h.edits, h.walk1, h.walk2⟩ List.Forall₂.nil)
  · rw [if_neg hc, if_neg (fun hb => hc ⟨hacc.mpr hb.1, hfind.mpr hb.2⟩)]
    exact hr

/-- In tries with the same keys, the loop of `tolerantFindWith` on stacks of items alike
and hit tables alike gives hit tables alike, after the same number of pops. -/
theorem searchLoop_alike {V : Type} {t1 t2 : Tri V} (sk : t1.SameKeys t2)
    (w1 : t1.StructWF) (w2 : t2.StructWF) (sr : Searcher) (fuel : Nat) (s1 s2 : List Item)
    (r1 r2 R1 R2 : Results) (hs : List.Forall₂ (Item.Alike t1 t2) s1 s2)
    (hr : List.Forall₂ (Results.Alike t1 t2) r1 r2)
    (h1 : searchLoop sr t1.v fuel s1 r1 = some R1)
    (h2 : searchLoop sr t2.v fuel s2 r2 = some R2) :
    List.Forall₂ (Results.Alike t1 t2) R1 R2 := by
  induction fuel generalizing s1 s2 r1 r2 with
  | zero =>
    cases hs with
    | nil =>
      simp only [searchLoop, Option.some.injEq] at h1 h2
      subst h1 h2
      exact hr
    | cons _ _ => simp [searchLoop] at h1
  | succ fuel ih =>
    cases hs with
    | nil =>
      simp only [searchLoop, Option.some.injEq] at h1 h2
      subst h1 h2
      exact hr
    | cons hab hrest =>
      rw [searchLoop_cons] at h1 h2
      exact ih _ _ _ _ (List.rel_append (successors_alike sk w1 w2 sr _ _ hab) hrest)
        (recordResult_alike sk sr _ _ hab r1 r2 hr) h1 h2

theorem packageResults_alike {V : Type} {t1 t2 : Tri V} (sk : t1.SameKeys t2)
    (R1 R2 : Results) (h : List.Forall₂ (Results.Alike t1 t2) R1 R2) :
    packageResults t1.values R1 = packageResults t2.values R2 := by
  induction h with
  | nil => rfl
  | @cons e1 e2 l1 l2 hxy _ ih =>
    obtain ⟨k1, p1⟩ := e1
    obtain ⟨k2, p2⟩ := e2
    obtain ⟨hk, hd, g1, g2⟩ := hxy
    simp only at hk hd g1 g2
    subst hk
    have hv := sk.vals k1 p1.1 p2.1 g1 g2
    simp only [packageResults, ih, hv, hd]

theorem searchLoop_initial {V : Type} (t : Tri V) (h : t.StructWF) (sr : Searcher) :
    ∃ R, searchLoop sr t.v (searchFuel t.v sr.cutoffDistance) [initialItem 0 t.v] [] =
      some R := by
  apply searchLoop_terminates t h sr _ _ _
  · intro it hit
    rw [List.mem_singleton] at hit
    subst hit
    exact initialItem_good t h sr
  · simp only [List.map_cons, List.map_nil, List.sum_cons, List.sum_nil, Nat.add_zero]
    exact weight_initialItem_le sr t.v

/-- Tries with the same keys give the same results for every query and cutoff. -/
theorem Tri.SameKeys.tolerantFind_eq {V : Type} {t1 t2 : Tri V} (sk : t1.SameKeys t2)
    (w1 : t1.StructWF) (w2 : t2.StructWF) (mem : Nat → Nat) (sc : Bool) (q : List Nat) (c : Nat) :
    t1.tolerantFind mem sc q c = t2.tolerantFind mem sc q c := by
  obtain ⟨R1, hR1⟩ := searchLoop_initial t1 w1 ⟨q, c, mem, sc⟩
  obtain ⟨R2, hR2⟩ := searchLoop_initial t2 w2 ⟨q, c, mem, sc⟩
  have f1 := searchLoop_fuel_le _ _ _ (max (searchFuel t1.v c) (searchFuel t2.v c)) _ _ _ hR1
    (le_max_left _ _)
  have f2 := searchLoop_fuel_le _ _ _ (max (searchFuel t1.v c) (searchFuel t2.v c)) _ _ _ hR2
    (le_max_right _ _)
  have hinit : Item.Alike t1 t2 (initialItem 0 t1.v) (initialItem 0 t2.v) :=
    ⟨rfl, rfl, rfl, rfl, rfl, rfl, rfl⟩
  have hal := searchLoop_alike sk w1 w2 ⟨q, c, mem, sc⟩ _ _ _ _ _ R1 R2
    (List.Forall₂.cons hinit List.Forall₂.nil) List.Forall₂.nil f1 f2
  unfold Tri.tolerantFind Tri.tolerantFindWith
  simp only [] at hR1 hR2
  rw [hR1, hR2]
  exact packageResults_alike sk R1 R2 hal

/-- The end flag of the state that a key leads to, read from `unsafeGet`. -/
theorem Tri.unsafeGet_isSome_of_walk {V : Type} (t : Tri V) (hwf : t.WF) (p : List Nat)
    (s : Nat) (h : t.getWalk 0 p = some s) :
    (t.unsafeGet p).isSome = (t.stateAt s).endState ∧
      (t.unsafeGet p = t.values s) := by
  unfold Tri.unsafeGet
  simp only [h]
  cases he : (t.stateAt s).endState with
  | true =>
    simp only [if_true, and_true]
    exact (hwf.values_iff s).mp he
  | false =>
    have := (hwf.values_iff s).not
    rw [he] at this
    simp only [Bool.false_eq_true, not_false_eq_true, Bool.not_eq_true, true_iff] at this
    simp only [Bool.false_eq_true, if_false, Option.isSome_none, true_and]
    cases hv : t.values s with
    | none => rfl
    | some x => rw [hv] at this; cases this

/-- Two tries that hold the same keys with the same values, each built from the empty
trie by `insert`, spell the same strings. -/
theorem Tri.sameKeys_of_insertAll {V : Type} (kvs1 kvs2 : List (List Nat × V))
    (t1 t2 : Tri V) (hperm : kvs1.Perm kvs2) (hd : (kvs1.map Prod.fst).Nodup)
    (h1 : (Tri.empty V).insertAll kvs1 = some t1)
    (h2 : (Tri.empty V).insertAll kvs2 = some t2) :
    t1.SameKeys t2 ∧ ∀ k, t1.unsafeGet k = t2.unsafeGet k := by
  have b1 := Tri.insertAll_built kvs1 _ t1 Tri.Built.empty h1
  have b2 := Tri.insertAll_built kvs2 _ t2 Tri.Built.empty h2
  have hd2 : (kvs2.map Prod.fst).Nodup := (hperm.map Prod.fst).nodup_iff.mp hd
  have hget : ∀ k, t1.unsafeGet k = t2.unsafeGet k := by
    intro k
    have g1 := Tri.insertAll_get kvs1 _ t1 (Tri.empty_wf V) h1 hd
    have g2 := Tri.insertAll_get kvs2 _ t2 (Tri.empty_wf V) h2 hd2
    by_cases hk : k ∈ kvs1.map Prod.fst
    · obtain ⟨e, he, rfl⟩ := List.mem_map.mp hk
      rw [g1.2 e.1 e.2 he, g2.2 e.1 e.2 (hperm.mem_iff.mp he)]
    · rw [g1.1 k hk, g2.1 k (fun h => hk ((hperm.map Prod.fst).mem_iff.mpr h))]
  have ww1 := (Tri.insertAll_walks kvs1 _ t1 [] (Tri.empty_wf V) (Tri.empty_walks V).1
    (Tri.empty_walks V).2 h1).1
  have ww2 := (Tri.insertAll_walks kvs2 _ t2 [] (Tri.empty_wf V) (Tri.empty_walks V).1
    (Tri.empty_walks V).2 h2).1
  refine ⟨⟨?_, ?_, ?_⟩, hget⟩
  · intro p
    rw [ww1 p, ww2 p]
    simp only [List.nil_append]
    constructor
    · rintro (h | ⟨k, hk, hp⟩)
      · exact Or.inl h
      · exact Or.inr ⟨k, (hperm.map Prod.fst).mem_iff.mp hk, hp⟩
    · rintro (h | ⟨k, hk, hp⟩)
      · exact Or.inl h
      · exact Or.inr ⟨k, (hperm.map Prod.fst).mem_iff.mpr hk, hp⟩
  · intro p s1 s2 e1 e2
    rw [← (t1.unsafeGet_isSome_of_walk b1.wf p s1 e1).1,
      ← (t2.unsafeGet_isSome_of_walk b2.wf p s2 e2).1, hget p]
  · intro p s1 s2 e1 e2
    rw [← (t1.unsafeGet_isSome_of_walk b1.wf p s1 e1).2,
      ← (t2.unsafeGet_isSome_of_walk b2.wf p s2 e2).2, hget p]

/-! ## Results and entries -/

/-- Every result of `tolerantFind` on a well-formed trie is an entry of the trie. -/
theorem Tri.tolerantFind_entries {V : Type} (t : Tri V) (hwf : t.WF) (mem : Nat → Nat) (sc : Bool)
    (q : List Nat) (c : Nat) (out : List (TolerantResult V))
    (ho : t.tolerantFind mem sc q c = some out) (r : TolerantResult V) (hr : r ∈ out) :
    t.unsafeGet r.first = some r.second := by
  obtain ⟨it, hp, hacc, hc, _, hv⟩ := Tri.tolerantFind_sound t mem sc q c out ho r hr
  have hw := Pushed.walk t hwf.struct _ it hp
  have hg := Pushed.good t hwf.struct _ it hp
  have hend : (t.stateAt it.state).endState = true := by
    have := hacc.2
    rw [hg.data] at this
    exact this
  unfold Tri.unsafeGet
  rw [← hc, hw]
  simp only [hend, if_true]
  exact hv

theorem OSA.eq_of_cost_zero {n : Nat} {a b : List Nat} (h : OSA n a b) (hn : n = 0) :
    a = b := by
  induction h with
  | nil => rfl
  | keep x _ ih => rw [ih hn]
  | substitution x y _ _ => omega
  | insertion y _ _ => omega
  | deletion x _ _ => omega
  | transposition x y _ _ => omega

/-- Every entry of the final hit table of a search on a well-formed trie has a value. -/
theorem searchLoop_values {V : Type} (t : Tri V) (hwf : t.WF) (sr : Searcher) (fuel : Nat)
    (R : Results) (h : searchLoop sr t.v fuel [initialItem 0 t.v] [] = some R) :
    ∀ e ∈ R, (t.values e.2.1).isSome = true := by
  intro e he
  have hhit := searchLoop_sound sr t.v fuel _ _ R
    (fun it hit => by
      rw [List.mem_singleton] at hit
      subst hit
      exact Relation.ReflTransGen.refl)
    (fun _ hx => by cases hx) h e he
  obtain ⟨it, hp, hacc, _, hs, _⟩ := hhit
  have hg := Pushed.good t hwf.struct sr it hp
  have hend := hacc.2
  rw [hg.data] at hend
  rw [← hs]
  exact (hwf.values_iff it.state).mp hend

/-! ## The candidates under other exploration orders -/

theorem searchLoopReversed_sound (sr : Searcher) (v : List State) (fuel : Nat)
    (s : List Item) (r R : Results) (hs : ∀ it ∈ s, Pushed sr v it)
    (hr : ∀ e ∈ r, Hit sr v e) (h : searchLoopReversed sr v fuel s r = some R) :
    ∀ e ∈ R, Hit sr v e := by
  induction fuel generalizing s r with
  | zero =>
    cases s with
    | nil =>
      simp only [searchLoopReversed, Option.some.injEq] at h
      subst h
      exact hr
    | cons top s => simp [searchLoopReversed] at h
  | succ fuel ih =>
    cases s with
    | nil =>
      simp only [searchLoopReversed, Option.some.injEq] at h
      subst h
      exact hr
    | cons top s =>
      rw [searchLoopReversed] at h
      apply ih _ _ _ _ h
      · intro it hit
        rcases List.mem_append.mp hit with hit | hit
        · exact Relation.ReflTransGen.tail (hs top (List.mem_cons_self _ _))
            (List.mem_reverse.mp hit)
        · exact hs it (List.mem_cons_of_mem _ hit)
      · intro e he
        rcases mem_recordResult sr top r e he with he | ⟨hacc, he⟩
        · exact hr e he
        · subst he
          exact ⟨top, hs top (List.mem_cons_self _ _), hacc, rfl, rfl, rfl⟩

theorem searchLoopReversed_complete (sr : Searcher) (v : List State) (fuel : Nat)
    (s : List Item) (r R : Results) (h : searchLoopReversed sr v fuel s r = some R) :
    (∀ e ∈ r, e ∈ R) ∧
    ∀ it ∈ s, ∀ g, Reach sr v it g → g.accepting sr → g.candidate ∈ R.keys := by
  induction fuel generalizing s r with
  | zero =>
    cases s with
    | nil =>
      simp only [searchLoopReversed, Option.some.injEq] at h
      subst h
      exact ⟨fun _ he => he, fun _ hit => by cases hit⟩
    | cons top s => simp [searchLoopReversed] at h
  | succ fuel ih =>
    cases s with
    | nil =>
      simp only [searchLoopReversed, Option.some.injEq] at h
      subst h
      exact ⟨fun _ he => he, fun _ hit => by cases hit⟩
    | cons top s =>
      rw [searchLoopReversed] at h
      obtain ⟨ih1, ih2⟩ := ih _ _ h
      refine ⟨fun e he => ih1 e (subset_recordResult sr top r e he), ?_⟩
      intro it hit g hg hacc
      rcases List.mem_cons.mp hit with rfl | hit
      · rcases Relation.ReflTransGen.cases_head hg with heq | ⟨b, hb, hbg⟩
        · subst heq
          have hk := accepting_recordResult sr it r hacc
          obtain ⟨e, he, hek⟩ := List.mem_map.mp hk
          exact List.mem_map.mpr ⟨e, ih1 e he, hek⟩
        · exact ih2 b (List.mem_append_left _ (List.mem_reverse.mpr hb)) g hbg hacc
      · exact ih2 it (List.mem_append_right _ hit) g hg hacc

theorem searchLoopFifo_sound (sr : Searcher) (v : List State) (fuel : Nat)
    (s : List Item) (r R : Results) (hs : ∀ it ∈ s, Pushed sr v it)
    (hr : ∀ e ∈ r, Hit sr v e) (h : searchLoopFifo sr v fuel s r = some R) :
    ∀ e ∈ R, Hit sr v e := by
  induction fuel generalizing s r with
  | zero =>
    cases s with
    | nil =>
      simp only [searchLoopFifo, Option.some.injEq] at h
      subst h
      exact hr
    | cons top s => simp [searchLoopFifo] at h
  | succ fuel ih =>
    cases s with
    | nil =>
      simp only [searchLoopFifo, Option.some.injEq] at h
      subst h
      exact hr
    | cons top s =>
      rw [searchLoopFifo] at h
      apply ih _ _ _ _ h
      · intro it hit
        rcases List.mem_append.mp hit with hit | hit
        · exact hs it (List.mem_cons_of_mem _ hit)
        · exact Relation.ReflTransGen.tail (hs top (List.mem_cons_self _ _))
            (List.mem_reverse.mp hit)
      · intro e he
        rcases mem_recordResult sr top r e he with he | ⟨hacc, he⟩
        · exact hr e he
        · subst he
          exact ⟨top, hs top (List.mem_cons_self _ _), hacc, rfl, rfl, rfl⟩

theorem searchLoopFifo_complete (sr : Searcher) (v : List State) (fuel : Nat)
    (s : List Item) (r R : Results) (h : searchLoopFifo sr v fuel s r = some R) :
    (∀ e ∈ r, e ∈ R) ∧
    ∀ it ∈ s, ∀ g, Reach sr v it g → g.accepting sr → g.candidate ∈ R.keys := by
  induction fuel generalizing s r with
  | zero =>
    cases s with
    | nil =>
      simp only [searchLoopFifo, Option.some.injEq] at h
      subst h
      exact ⟨fun _ he => he, fun _ hit => by cases hit⟩
    | cons top s => simp [searchLoopFifo] at h
  | succ fuel ih =>
    cases s with
    | nil =>
      simp only [searchLoopFifo, Option.some.injEq] at h
      subst h
      exact ⟨fun _ he => he, fun _ hit => by cases hit⟩
    | cons top s =>
      rw [searchLoopFifo] at h
      obtain ⟨ih1, ih2⟩ := ih _ _ h
      refine ⟨fun e he => ih1 e (subset_recordResult sr top r e he), ?_⟩
      intro it hit g hg hacc
      rcases List.mem_cons.mp hit with rfl | hit
      · rcases Relation.ReflTransGen.cases_head hg with heq | ⟨b, hb, hbg⟩
        · subst heq
          have hk := accepting_recordResult sr it r hacc
          obtain ⟨e, he, hek⟩ := List.mem_map.mp hk
          exact List.mem_map.mpr ⟨e, ih1 e he, hek⟩
        · exact ih2 b (List.mem_append_right _ (List.mem_reverse.mpr hb)) g hbg hacc
      · exact ih2 it (List.mem_append_left _ hit) g hg hacc

/-- The candidates of a final hit table are those of the accepting items that are ever
pushed, whenever the table has hits only and a key for every such item. -/
theorem keys_iff_accepting (sr : Searcher) (v : List State) (R : Results)
    (hsound : ∀ e ∈ R, Hit sr v e)
    (hcomplete : ∀ g, Pushed sr v g → g.accepting sr → g.candidate ∈ R.keys)
    (k : List Nat) :
    k ∈ R.keys ↔ ∃ g, Pushed sr v g ∧ g.accepting sr ∧ g.candidate = k := by
  constructor
  · intro hk
    obtain ⟨e, he, rfl⟩ := List.mem_map.mp hk
    obtain ⟨it, hp, hacc, hc, _, _⟩ := hsound e he
    exact ⟨it, hp, hacc, hc⟩
  · rintro ⟨g, hp, hacc, rfl⟩
    exact hcomplete g hp hacc

/-- The loop of the source, the loop with the opposite push order and the
first-in-first-out loop leave hit tables with the same candidates. -/
theorem searchLoop_orders_same_candidates (sr : Searcher) (v : List State)
    (f1 f2 f3 : Nat) (R1 R2 R3 : Results)
    (h1 : searchLoop sr v f1 [initialItem 0 v] [] = some R1)
    (h2 : searchLoopReversed sr v f2 [initialItem 0 v] [] = some R2)
    (h3 : searchLoopFifo sr v f3 [initialItem 0 v] [] = some R3) (k : List Nat) :
    (k ∈ R1.keys ↔ k ∈ R2.keys) ∧ (k ∈ R1.keys ↔ k ∈ R3.keys) := by
  have hs : ∀ it ∈ [initialItem 0 v], Pushed sr v it := by
    intro it hit
    rw [List.mem_singleton] at hit
    subst hit
    exact Relation.ReflTransGen.refl
  have hr : ∀ e ∈ ([] : Results), Hit sr v e := fun _ hx => by cases hx
  have k1 := keys_iff_accepting sr v R1 (searchLoop_sound sr v f1 _ _ R1 hs hr h1)
    (fun g hp hacc => (searchLoop_complete sr v f1 _ _ R1 h1).2 _
      (List.mem_singleton.mpr rfl) g hp hacc) k
  have k2 := keys_iff_accepting sr v R2 (searchLoopReversed_sound sr v f2 _ _ R2 hs hr h2)
    (fun g hp hacc => (searchLoopReversed_complete sr v f2 _ _ R2 h2).2 _
      (List.mem_singleton.mpr rfl) g hp hacc) k
  have k3 := keys_iff_accepting sr v R3 (searchLoopFifo_sound sr v f3 _ _ R3 hs hr h3)
    (fun g hp hacc => (searchLoopFifo_complete sr v f3 _ _ R3 h3).2 _
      (List.mem_singleton.mpr rfl) g hp hacc) k
  exact ⟨k1.trans k2.symm, k1.trans k3.symm⟩

/-! ## Completeness for bytes that compare as they are -/

/-- On a trie built by inserts that contains the key `w`, for every query `q` obtained
from `w` by replacing one byte with a different byte, removing one byte, adding one byte
or swapping two adjacent distinct bytes, `tolerantFind(q, 1)` contains a result with
candidate `w` and `editDistance` 1; where `char` is signed, when the query or the key
holds only bytes below 128. -/
theorem Tri.single_edit_found {V : Type} (t : Tri V) (hb : t.Built) (mem : Nat → Nat)
    (sc : Bool) (w q : List Nat) (x : V) (hw : t.unsafeGet w = some x)
    (he : SingleEdit w q)
    (hbytes : sc = true → (∀ c ∈ q, c < 128) ∨ (∀ c ∈ w, c < 128)) :
    ∃ out, t.tolerantFind mem sc q 1 = some out ∧
      ∃ r ∈ out, r.first = w ∧ r.editDistance = 1 := by
  obtain ⟨out, ho, r, hr, hrw⟩ :=
    Tri.tolerantFind_osa t hb.wf mem sc q w 1 x hw ⟨1, le_refl _, he.osa⟩
      (fun hs => Or.inr (hbytes hs))
  refine ⟨out, ho, r, hr, hrw, ?_⟩
  obtain ⟨it, hp, hacc, hc, hed, _⟩ := Tri.tolerantFind_sound t mem sc q 1 out ho r hr
  have h1 : it.nextChar = q.length := hacc.1
  have hle := Pushed.edits_le ⟨q, 1, mem, sc⟩ t.v it hp
  obtain ⟨n, hn, hch⟩ := Pushed.dl ⟨q, 1, mem, sc⟩ t.v it hp
    (by simp only [h1]; exact le_refl _)
  simp only [h1, List.take_length] at hch hle
  rw [← hed]
  by_contra hne
  have h0 : n = 0 := by omega
  subst h0
  have := hch.eq_of_zero
  rw [hc, hrw] at this
  exact he.ne this

/-- On a trie built by inserts, every candidate that `tolerantFind(q, k)` returns is a key
within the optimal-string-alignment distance `k` of `q`; and every such key is returned,
where `char` is signed when the cutoff is 0 or the query or the key holds only bytes
below 128. -/
theorem Tri.tolerantFind_candidates {V : Type} (t : Tri V) (hb : t.Built) (mem : Nat → Nat)
    (sc : Bool) (q : List Nat) (k : Nat) :
    ∃ out, t.tolerantFind mem sc q k = some out ∧
      (∀ r ∈ out, (t.unsafeGet r.first).isSome = true ∧ OSAWithin k q r.first) ∧
      ∀ w, (sc = true → k = 0 ∨ (∀ c ∈ q, c < 128) ∨ (∀ c ∈ w, c < 128)) →
        (t.unsafeGet w).isSome = true → OSAWithin k q w → ∃ r ∈ out, r.first = w := by
  obtain ⟨out, ho, _⟩ := Tri.tolerantFind_complete t hb.wf mem sc q k
  refine ⟨out, ho, ?_, ?_⟩
  · intro r hr
    have he := t.tolerantFind_entries hb.wf mem sc q k out ho r hr
    have hs := t.tolerantFind_osa_sound mem sc q k out ho r hr
    exact ⟨by rw [he]; rfl, r.editDistance, hs.2, hs.1⟩
  · intro w hbytes hw hd
    obtain ⟨x, hx⟩ := Option.isSome_iff_exists.mp hw
    obtain ⟨out1, ho1, hr⟩ := t.tolerantFind_osa hb.wf mem sc q w k x hx hd hbytes
    rw [ho] at ho1
    cases ho1
    exact hr

/-! ## Claims on the trie -/

/-- C1. Insertion round-trip: when the pairs of a list with pairwise distinct keys have been
inserted into the empty trie one after the other, `unsafeGet` of the key of every pair of the
list returns the value of that pair. -/
theorem C1_insertion_round_trip {V : Type} (kvs : List (List Nat × V)) (t : Tri V)
    (hins : (Tri.empty V).insertAll kvs = some t) (hd : (kvs.map Prod.fst).Nodup)
    (k : List Nat) (x : V) (hm : (k, x) ∈ kvs) : t.unsafeGet k = some x :=
  (Tri.insertAll_get kvs (Tri.empty V) t (Tri.empty_wf V) hins hd).2 k x hm

/-- Witness of C1 on the pairs `cat ↦ 1`, `car ↦ 2`. -/
theorem C1_insertion_round_trip_witness : catCar.unsafeGet [99, 97, 114] = some 2 :=
  C1_insertion_round_trip [([99, 97, 116], 1), ([99, 97, 114], 2)] catCar rfl (by decide)
    [99, 97, 114] 2 (by decide)

/-- C2. Overwrite semantics: after `insert(k, x)` followed by `insert(k, y)` on a trie built
by inserts, `unsafeGet(k)` returns `y` and `unsafeGet` of every other key returns what it
returned before the two inserts. -/
theorem C2_overwrite {V : Type} (t t1 t2 : Tri V) (hb : t.Built) (k : List Nat) (x y : V)
    (h1 : t.insert k x = some t1) (h2 : t1.insert k y = some t2) :
    t2.unsafeGet k = some y ∧ ∀ k1, k1 ≠ k → t2.unsafeGet k1 = t.unsafeGet k1 := by
  obtain ⟨hwf1, hg1⟩ := Tri.insert_spec t hb.wf k x t1 h1
  obtain ⟨_, hg2⟩ := Tri.insert_spec t1 hwf1 k y t2 h2
  constructor
  · rw [hg2, if_pos rfl]
  · intro k1 hk
    rw [hg2, if_neg hk, hg1, if_neg hk]

/-- Witness of C2: `cat` is overwritten twice in `catCar`, `car` keeps its value. -/
theorem C2_overwrite_witness :
    catCar57.unsafeGet [99, 97, 116] = some 7 ∧
      catCar57.unsafeGet [99, 97, 114] = catCar.unsafeGet [99, 97, 114] :=
  have h := C2_overwrite catCar catCar5 catCar57
    (Tri.insertAll_built [([99, 97, 116], 1), ([99, 97, 114], 2)] _ _ Tri.Built.empty rfl)
    [99, 97, 116] 5 7 rfl rfl
  ⟨h.1, h.2 [99, 97, 114] (by decide)⟩

/-- C3. Get is exact: on a trie built from the empty trie by a sequence of inserts,
`unsafeGet(k)` returns a value if and only if `k` is one of the inserted keys; so a key
that is a beginning or an extension of an inserted key and was not inserted itself yields
`NULL`. -/
theorem C3_get_exact {V : Type} (kvs : List (List Nat × V)) (t : Tri V)
    (hins : (Tri.empty V).insertAll kvs = some t) :
    (∀ k, (t.unsafeGet k).isSome = true ↔ k ∈ kvs.map Prod.fst) ∧
    (∀ w k, w ∈ kvs.map Prod.fst → (k <+: w ∨ w <+: k) → k ∉ kvs.map Prod.fst →
      t.unsafeGet k = none) := by
  have key : ∀ k, (t.unsafeGet k).isSome = true ↔ k ∈ kvs.map Prod.fst := by
    intro k
    rw [Tri.insertAll_isSome kvs (Tri.empty V) t (Tri.empty_wf V) hins k,
      Tri.empty_unsafeGet]
    simp
  refine ⟨key, ?_⟩
  intro w k _ _ hk
  cases hg : t.unsafeGet k with
  | none => rfl
  | some x =>
    have := (key k).mp (by rw [hg]; rfl)
    exact absurd this hk

/-- Witness of C3 on `catCar`: `ca` begins `cat` and was not inserted. -/
theorem C3_get_exact_witness :
    ((catCar.unsafeGet [99, 97, 116]).isSome = true ↔
      [99, 97, 116] ∈ [[99, 97, 116], [99, 97, 114]]) ∧
    catCar.unsafeGet [99, 97] = none :=
  have h := C3_get_exact [([99, 97, 116], 1), ([99, 97, 114], 2)] catCar rfl
  ⟨h.1 [99, 97, 116], h.2 [99, 97, 116] [99, 97] (by decide) (Or.inl ⟨[116], rfl⟩) (by decide)⟩

/-! ## Claims on the search -/

/-- C4, as stated, fails: `abc` is a key of the trie and two edit operations transform the
query `ca` into `abc` (a transposition, then an insertion between the transposed bytes), so
the Damerau-Levenshtein distance is at most 2, yet `tolerantFind(ca, 2)` returns no
candidate. -/
theorem C4_dl_completeness_counterexample :
    triAbc.Built ∧ triAbc.unsafeGet [97, 98, 99] = some 1 ∧
    DLWithin 2 [99, 97] [97, 98, 99] ∧
    triAbc.tolerantFind zeroMem true [99, 97] 2 = some [] := by
  refine ⟨Tri.Built.insert [97, 98, 99] 1 Tri.Built.empty rfl, by decide, ?_, by decide⟩
  exact ⟨2, le_refl _, EditChain.cons (EditStep.transposition [] [] 99 97 (by decide))
    (EditChain.cons (EditStep.insertion [97] [99] 98) (EditChain.nil _))⟩

/-- C4, amended. Search completeness against the optimal-string-alignment distance: on a trie
built by inserts, every inserted key `w` that has an alignment with the query `q` of cost at
most `k`, in which no substring is edited more than once, appears as a candidate in
`tolerantFind(q, k)`; on a build whose `char` is signed (`sc`), this is stated for a query or
a key that holds only bytes below 128. -/
theorem C4_osa_completeness {V : Type} (t : Tri V) (hb : t.Built) (mem : Nat → Nat)
    (sc : Bool) (q w : List Nat) (k : Nat) (x : V) (hw : t.unsafeGet w = some x)
    (hd : OSAWithin k q w)
    (hbytes : sc = true → (∀ c ∈ q, c < 128) ∨ (∀ c ∈ w, c < 128)) :
    ∃ out, t.tolerantFind mem sc q k = some out ∧ ∃ r ∈ out, r.first = w :=
  Tri.tolerantFind_osa t hb.wf mem sc q w k x hw hd (fun hs => Or.inr (hbytes hs))

/-- Witness of the amended C4: the key `abc` is found for the query `acb` at cutoff 1. -/
theorem C4_osa_completeness_witness :
    ∃ out, triAbc.tolerantFind zeroMem true [97, 99, 98] 1 = some out ∧
      ∃ r ∈ out, r.first = [97, 98, 99] :=
  C4_osa_completeness triAbc (Tri.Built.insert [97, 98, 99] 1 Tri.Built.empty rfl) zeroMem true
    [97, 99, 98] [97, 98, 99] 1 1 (by decide)
    ⟨1, le_refl _, OSA.keep 97 (OSA.transposition 99 98 OSA.nil)⟩
    (fun _ => Or.inl (by decide))

/-- C5. Search soundness against Damerau-Levenshtein: on a trie built by inserts
`tolerantFind(q, c)` returns, and the distance of every returned result is at least the
Damerau-Levenshtein distance of `q` and the candidate, that is, at most that many edit
operations transform `q` into the candidate. -/
theorem C5_dl_soundness {V : Type} (t : Tri V) (hb : t.Built) (mem : Nat → Nat) (sc : Bool)
    (q : List Nat) (c : Nat) :
    ∃ out, t.tolerantFind mem sc q c = some out ∧
      ∀ r ∈ out, DLWithin r.editDistance q r.first := by
  obtain ⟨out, ho, _⟩ := Tri.tolerantFind_complete t hb.wf mem sc q c
  refine ⟨out, ho, ?_⟩
  intro r hr
  obtain ⟨it, hp, hacc, hc, hed, _⟩ := Tri.tolerantFind_sound t mem sc q c out ho r hr
  have h1 : it.nextChar = q.length := hacc.1
  have := Pushed.dl ⟨q, c, mem, sc⟩ t.v it hp (by simp only [h1]; exact le_refl _)
  simp only [h1, List.take_length] at this
  rw [← hc, ← hed]
  exact this

/-- Witness of C5 on the trie holding `cat`, the query `cut` and cutoff 1. -/
theorem C5_dl_soundness_witness :
    ∃ out, triCat.tolerantFind zeroMem true [99, 117, 116] 1 = some out ∧
      ∀ r ∈ out, DLWithin r.editDistance [99, 117, 116] r.first :=
  C5_dl_soundness triCat (Tri.Built.insert [99, 97, 116] 1 Tri.Built.empty rfl) zeroMem true
    [99, 117, 116] 1

/-- C6. Cutoff bound: every item that is ever on the stack during `tolerantFind(q, c)` has
`editDistance ≤ c`, and every returned result has `editDistance ≤ c`. -/
theorem C6_cutoff_bound {V : Type} (t : Tri V) (mem : Nat → Nat) (sc : Bool) (q : List Nat) (c : Nat) :
    (∀ it, Pushed ⟨q, c, mem, sc⟩ t.v it → it.editDistance ≤ c) ∧
    (∀ out, t.tolerantFind mem sc q c = some out → ∀ r ∈ out, r.editDistance ≤ c) := by
  refine ⟨fun it hp => Pushed.edits_le ⟨q, c, mem, sc⟩ t.v it hp, ?_⟩
  intro out ho r hr
  obtain ⟨it, hp, _, _, hed, _⟩ := Tri.tolerantFind_sound t mem sc q c out ho r hr
  rw [← hed]
  exact Pushed.edits_le ⟨q, c, mem, sc⟩ t.v it hp

/-- C7 fails on the code: in the trie holding `a`, the search for `a` at cutoff 1 visits an
accepting item with candidate `a` and 0 edits (the NoOp item of the initial item), and
yet reports `a` with distance 1. -/
theorem C7_reports_costlier_script :
    triA.tolerantFind zeroMem true [97] 1 = some [⟨[97], 7, 1⟩] ∧
    ∃ it, Pushed ⟨[97], 1, zeroMem, true⟩ triA.v it ∧ it.accepting ⟨[97], 1, zeroMem, true⟩ ∧
      it.candidate = [97] ∧ it.editDistance = 0 := by
  refine ⟨by decide, noopItem 97 (triA.v.getD 1 State.new) 1 (initialItem 0 triA.v), ?_,
    by decide, by decide, by decide⟩
  exact Relation.ReflTransGen.single (by decide)

/-- C8 fails on the code: `cat` is a key of the trie, and `tolerantFind(cat, 1)` returns
`cat` with distance 1 and no result with distance 0. -/
theorem C8_exact_query_distance_one :
    triCat.unsafeGet [99, 97, 116] = some 1 ∧
    triCat.tolerantFind zeroMem true [99, 97, 116] 1 = some [⟨[99, 97, 116], 1, 1⟩] := by
  decide

/-- C9 fails on the code: at cutoff 0 the search for `a` returns the hit `(a, 0)`, at
cutoff 1 it returns `(a, 1)` and not `(a, 0)`. -/
theorem C9_hit_lost_at_larger_cutoff :
    triA.tolerantFind zeroMem true [97] 0 = some [⟨[97], 7, 0⟩] ∧
    triA.tolerantFind zeroMem true [97] 1 = some [⟨[97], 7, 1⟩] := by
  decide

/-- Claim C10, as the code behaves: a swap of two adjacent bytes from 128 on is not found
on a build whose `char` is signed. The trie holds the key of the bytes `195, 169`; the
query `169, 195` is the key with its two bytes swapped; `tolerantFind` at cutoff 1
returns no result where `char` is signed, and the key with distance 1 where `char` is
unsigned: the look-ahead byte, a `char`, is compared with the byte of the transition, an
`unsigned char`. -/
theorem C10_swap_of_high_bytes :
    triEAcute.Built ∧ triEAcute.unsafeGet [195, 169] = some 1 ∧
    SingleEdit [195, 169] [169, 195] ∧
    triEAcute.tolerantFind zeroMem true [169, 195] 1 = some [] ∧
    triEAcute.tolerantFind zeroMem false [169, 195] 1 = some [⟨[195, 169], 1, 1⟩] :=
  ⟨Tri.Built.insert [195, 169] 1 Tri.Built.empty rfl, by decide,
    SingleEdit.swap [] [] 195 169 (by decide), by decide, by decide⟩

/-- C11. Hits are dictionary entries: on a trie built by inserts `tolerantFind(q, c)` returns,
every returned result `(candidate, value, distance)` satisfies
`unsafeGet(candidate) = value`, and the candidate of every item that is ever on the stack
spells the path from state 0 to the state of the item. -/
theorem C11_hits_are_entries {V : Type} (t : Tri V) (hb : t.Built) (mem : Nat → Nat) (sc : Bool)
    (q : List Nat) (c : Nat) :
    ∃ out, t.tolerantFind mem sc q c = some out ∧
      (∀ r ∈ out, t.unsafeGet r.first = some r.second) ∧
      (∀ it, Pushed ⟨q, c, mem, sc⟩ t.v it → t.getWalk 0 it.candidate = some it.state) := by
  obtain ⟨out, ho, _⟩ := Tri.tolerantFind_complete t hb.wf mem sc q c
  refine ⟨out, ho, ?_, fun it hp => Pushed.walk t hb.wf.struct _ it hp⟩
  intro r hr
  obtain ⟨it, hp, hacc, hc, _, hv⟩ := Tri.tolerantFind_sound t mem sc q c out ho r hr
  have hw := Pushed.walk t hb.wf.struct _ it hp
  have hg := Pushed.good t hb.wf.struct _ it hp
  have hend : (t.stateAt it.state).endState = true := by
    have := hacc.2
    rw [hg.data] at this
    exact this
  unfold Tri.unsafeGet
  rw [← hc, hw]
  simp only [hend, if_true]
  exact hv

/-- Witness of C11 on the trie holding `cat`, the query `cut` and cutoff 1. -/
theorem C11_hits_are_entries_witness :
    ∃ out, triCat.tolerantFind zeroMem true [99, 117, 116] 1 = some out ∧
      (∀ r ∈ out, triCat.unsafeGet r.first = some r.second) ∧
      (∀ it, Pushed ⟨[99, 117, 116], 1, zeroMem, true⟩ triCat.v it →
        triCat.getWalk 0 it.candidate = some it.state) :=
  C11_hits_are_entries triCat (Tri.Built.insert [99, 97, 116] 1 Tri.Built.empty rfl) zeroMem true
    [99, 117, 116] 1

/-- C18. The empty key is a valid key: on a trie built by inserts `insert("", x)` succeeds,
creates no state, marks state 0 accepting, and afterwards `unsafeGet("")` returns `x`
while `unsafeGet` of every non-empty key returns what it returned before. -/
theorem C18_empty_key {V : Type} (t : Tri V) (hb : t.Built) (x : V) :
    ∃ t1, t.insert [] x = some t1 ∧ t1.getStates = t.getStates ∧
      (t1.stateAt 0).endState = true ∧ t1.unsafeGet [] = some x ∧
      ∀ k, k ≠ [] → t1.unsafeGet k = t.unsafeGet k := by
  have hi : t.insert [] x = some
      { v := t.v.set 0 { t.stateAt 0 with endState := true },
        values := fun s => if s = 0 then some x else t.values s } := rfl
  obtain ⟨_, hget⟩ := Tri.insert_spec t hb.wf [] x _ hi
  refine ⟨_, hi, ?_, ?_, ?_, ?_⟩
  · simp [Tri.getStates]
  · unfold Tri.stateAt
    rw [getD_set_state, if_pos ⟨rfl, hb.wf.struct.size_pos⟩]
  · rw [hget, if_pos rfl]
  · intro k hk
    rw [hget, if_neg hk]

/-- Witness of C18 on the trie holding `cat` and `car`. -/
theorem C18_empty_key_witness :
    ∃ t1, catCar.insert [] 9 = some t1 ∧ t1.getStates = catCar.getStates ∧
      (t1.stateAt 0).endState = true ∧ t1.unsafeGet [] = some 9 ∧
      ∀ k, k ≠ [] → t1.unsafeGet k = catCar.unsafeGet k :=
  C18_empty_key catCar
    (Tri.insertAll_built [([99, 97, 116], 1), ([99, 97, 114], 2)] _ _ Tri.Built.empty rfl) 9

/-- C19. Capacity error: on a trie built by inserts, `insert` throws exactly when the walk
of the key has a state to create at a moment when the trie holds `2^32 - 1` states; as the
walk creates its `missing` states one after the other, that is when `missing` is positive
and `getStates + missing` exceeds `2^32 - 1`. So `insert` throws when a state is missing in
a trie of `2^32 - 1` states, and it does not throw when the whole path exists or when
`getStates + missing` is at most `2^32 - 1`. -/
theorem C19_capacity {V : Type} (t : Tri V) (hb : t.Built) (key : List Nat) (x : V) :
    (t.insert key x = none ↔
      (0 < t.missing key ∧ 2 ^ 32 - 1 < t.getStates + t.missing key)) ∧
    (t.getStates = 2 ^ 32 - 1 → 0 < t.missing key → t.insert key x = none) ∧
    (t.missing key = 0 → (t.insert key x).isSome = true) ∧
    (t.getStates + t.missing key ≤ 2 ^ 32 - 1 → (t.insert key x).isSome = true) := by
  have hiff := Tri.insert_none_iff t hb.wf key x
  have hgs := Tri.getStates_eq t hb.wf.struct.size_le
  have hu : uintMax = 2 ^ 32 - 1 := by decide
  rw [← hgs, hu] at hiff
  refine ⟨hiff, ?_, ?_, ?_⟩
  · intro h1 h2
    rw [hiff]
    exact ⟨h2, by omega⟩
  · intro h1
    cases hi : t.insert key x with
    | some t1 => rfl
    | none =>
      have := hiff.mp hi
      omega
  · intro h1
    cases hi : t.insert key x with
    | some t1 => rfl
    | none =>
      have := hiff.mp hi
      omega

/-- Witness of C19: inserting `cab` into the trie holding `cat` and `car` needs one state
and succeeds. -/
theorem C19_capacity_witness : (catCar.insert [99, 97, 98] 3).isSome = true :=
  (C19_capacity catCar
    (Tri.insertAll_built [([99, 97, 116], 1), ([99, 97, 114], 2)] _ _ Tri.Built.empty rfl)
    [99, 97, 98] 3).2.2.2 (by decide)

/-- C20. Shared beginnings: after a list of keys has been inserted into the empty trie,
`getStates()` is 1 plus the number of distinct non-empty strings that begin one of the keys;
and inserting a key that is present leaves the state vector, that is every transition and
every accepting flag, and the number of states as they are. -/
theorem C20_shared_beginnings {V : Type} (kvs : List (List Nat × V)) (t : Tri V)
    (hins : (Tri.empty V).insertAll kvs = some t) :
    t.getStates = 1 + (nonEmptyInits (kvs.map Prod.fst)).length ∧
    ∀ key x t1, (t.unsafeGet key).isSome = true → t.insert key x = some t1 →
      t1.v = t.v ∧ t1.getStates = t.getStates := by
  have hb := Tri.insertAll_built kvs _ t Tri.Built.empty hins
  obtain ⟨hw0, hr0⟩ := Tri.empty_walks V
  obtain ⟨hw, hr⟩ := Tri.insertAll_walks kvs _ t [] (Tri.empty_wf V) hw0 hr0 hins
  rw [List.nil_append] at hw
  constructor
  · rw [Tri.getStates_eq t hb.wf.struct.size_le]
    exact Tri.length_eq_inits t hb.wf.struct _ hw hr
  · intro key x t1 hp hi
    have hv := Tri.insert_present t key x t1 hp hi
    exact ⟨hv, by unfold Tri.getStates; rw [hv]⟩

/-- Witness of C20: the trie holding `cat` and `car` has the 5 states of the empty string,
`c`, `ca`, `cat` and `car`, and inserting `cat` again leaves its state vector as it is. -/
theorem C20_shared_beginnings_witness :
    catCar.getStates = 1 + (nonEmptyInits [[99, 97, 116], [99, 97, 114]]).length ∧
    catCar5.v = catCar.v :=
  have h := C20_shared_beginnings [([99, 97, 116], 1), ([99, 97, 114], 2)] catCar rfl
  ⟨h.1, (h.2 [99, 97, 116] 5 catCar5 (by decide) rfl).1⟩

/-! ## Claims on the suggestion facade -/

/-- C12 fails on the code: with the dictionary `{a: 5.0, abc: 1.0}` and cutoff 3, the search
for `x` returns `abc` with distance 3 and `a` with distance 2, and `best(x)` returns `abc`,
the candidate with the largest distance. -/
theorem C12_best_returns_farthest :
    suggestAAbc.words.tolerantFind zeroMem true [120] suggestAAbc.maxEditDistance =
      some [⟨[97, 98, 99], 1, 3⟩, ⟨[97], 5, 2⟩] ∧
    suggestAAbc.best zeroMem true [120] = some [97, 98, 99] := by
  refine ⟨find_aAbc_x, ?_⟩
  unfold Suggest.best
  rw [find_aAbc_x]
  norm_num [maxElement, List.foldl, cmpTolerantResult]

/-- C13 fails on the code: with the dictionary `{a: 5.0, abc: 1.0}` and cutoff 3, `all(x)`
is `[abc, a]`, read from the hits `abc` with distance 3 and `a` with distance 2 in this
order: the distances decrease. -/
theorem C13_all_descending :
    suggestAAbc.ranked zeroMem true [120] = some [⟨[97, 98, 99], 1, 3⟩, ⟨[97], 5, 2⟩] ∧
    suggestAAbc.all zeroMem true [120] = some [[97, 98, 99], [97]] := by
  have h : suggestAAbc.ranked zeroMem true [120] =
      some [⟨[97, 98, 99], 1, 3⟩, ⟨[97], 5, 2⟩] := by
    unfold Suggest.ranked
    rw [find_aAbc_x]
    norm_num [stdSort, List.foldl, sortInsert, cmpTolerantResult]
  refine ⟨h, ?_⟩
  unfold Suggest.all
  rw [h]
  rfl

/-- C15, as stated, fails: with the dictionary `{cat: 1.0, car: 1.0}` and cutoff 1, the hits
for `ca` are `cat` and `car`, both with distance 1 and payload 1.0; `best(ca)` is `cat`
and `all(ca)` is `[car, cat]`. -/
theorem C15_best_differs_on_tie :
    suggestTie.best zeroMem true [99, 97] = some [99, 97, 116] ∧
    suggestTie.all zeroMem true [99, 97] = some [[99, 97, 114], [99, 97, 116]] := by
  constructor
  · unfold Suggest.best
    rw [find_tie_ca]
    norm_num [maxElement, List.foldl, cmpTolerantResult]
  · unfold Suggest.all Suggest.ranked
    rw [find_tie_ca]
    norm_num [stdSort, List.foldl, sortInsert, cmpTolerantResult]

/-- C15, amended. Best agrees with All up to ties: on a dictionary built by inserts, `best(q)`
is the empty string and `all(q)` is empty when `tolerantFind` returns no hits; otherwise
`best(q)` is the candidate of a hit that has the same edit distance and the same payload as
the hit of `all(q)[0]`, and `best(q)` equals `all(q)[0]` when no two hits have both the same
distance and the same payload. -/
theorem C15_best_agrees_up_to_ties {V : Type} [LinearOrder V] (mem : Nat → Nat) (sc : Bool)
    (sg : Suggest V) (hb : sg.words.Built) (q : List Nat) :
    ∃ out, sg.words.tolerantFind mem sc q sg.maxEditDistance = some out ∧
      (out = [] → sg.best mem sc q = some [] ∧ sg.all mem sc q = some []) ∧
      (out ≠ [] → ∃ b ∈ out, ∃ a ∈ out, ∃ rest,
        sg.best mem sc q = some b.first ∧ sg.all mem sc q = some (a.first :: rest) ∧
        b.editDistance = a.editDistance ∧ b.second = a.second ∧
        ((∀ x ∈ out, ∀ y ∈ out, x.editDistance = y.editDistance → x.second = y.second →
          x = y) → b = a)) := by
  obtain ⟨out, ho, _⟩ := Tri.tolerantFind_complete sg.words hb.wf mem sc q sg.maxEditDistance
  refine ⟨out, ho, ?_, ?_⟩
  · intro he
    subst he
    constructor
    · unfold Suggest.best
      rw [ho]
      rfl
    · unfold Suggest.all Suggest.ranked
      rw [ho]
      rfl
  · intro hne
    obtain ⟨hs1, hs2⟩ := stdSort_spec cmpTolerantResult cmpTolerantResult_asymm
      cmpTolerantResult_trans out
    cases hm : maxElement cmpTolerantResult out with
    | none =>
      cases out with
      | nil => exact absurd rfl hne
      | cons x rest => simp [maxElement] at hm
    | some b =>
      obtain ⟨hb1, hb2⟩ := maxElement_spec cmpTolerantResult cmpTolerantResult_asymm
        cmpTolerantResult_trans out b hm
      have hsne : stdSort cmpTolerantResult out ≠ [] := by
        intro h0
        rw [h0] at hs2
        exact hne hs2.symm.eq_nil
      obtain ⟨ini, a, hia⟩ : ∃ ini a, stdSort cmpTolerantResult out = ini ++ [a] := by
        rcases List.eq_nil_or_concat (stdSort cmpTolerantResult out) with h0 | ⟨ini, a, h0⟩
        · exact absurd h0 hsne
        · exact ⟨ini, a, by rw [h0, List.concat_eq_append]⟩
      have ha : a ∈ out := hs2.subset (by rw [hia]; simp)
      have hbs : b ∈ ini ++ [a] := by
        rw [← hia]
        exact hs2.symm.subset hb1
      have hba : cmpTolerantResult a b = false := by
        rw [hia, List.pairwise_append] at hs1
        rcases List.mem_append.mp hbs with h1 | h1
        · exact hs1.2.2 b h1 a (List.mem_singleton.mpr rfl)
        · rw [List.mem_singleton.mp h1]
          cases haa : cmpTolerantResult a a with
          | false => rfl
          | true => exact absurd (cmpTolerantResult_asymm a a haa) (by simp [haa])
      have hab : cmpTolerantResult b a = false := hb2 a ha
      have heq : b.editDistance = a.editDistance ∧ b.second = a.second := by
        rcases (cmpTolerantResult_eq_false a b).mp hba with h1 | ⟨h1, h2⟩ <;>
          rcases (cmpTolerantResult_eq_false b a).mp hab with h3 | ⟨h3, h4⟩
        · omega
        · omega
        · omega
        · exact ⟨h3, le_antisymm h2 h4⟩
      refine ⟨b, hb1, a, ha, ini.reverse.map fun x => x.first, ?_, ?_, heq.1, heq.2, ?_⟩
      · unfold Suggest.best
        rw [ho]
        simp only [hm]
      · unfold Suggest.all Suggest.ranked
        rw [ho]
        simp only [hia, List.reverse_append, List.reverse_cons, List.reverse_nil,
          List.nil_append, List.singleton_append, List.map_cons]
      · intro huniq
        exact huniq b hb1 a ha heq.1 heq.2

/-- Witness of the amended C15 on the dictionary `{cat: 1.0, car: 2.0}`, cutoff 1 and the
query `ca`. -/
theorem C15_best_agrees_up_to_ties_witness :
    ∃ out, suggestCatCar.words.tolerantFind zeroMem true [99, 97] suggestCatCar.maxEditDistance =
        some out ∧
      (out = [] → suggestCatCar.best zeroMem true [99, 97] = some [] ∧
        suggestCatCar.all zeroMem true [99, 97] = some []) ∧
      (out ≠ [] → ∃ b ∈ out, ∃ a ∈ out, ∃ rest,
        suggestCatCar.best zeroMem true [99, 97] = some b.first ∧
        suggestCatCar.all zeroMem true [99, 97] = some (a.first :: rest) ∧
        b.editDistance = a.editDistance ∧ b.second = a.second ∧
        ((∀ x ∈ out, ∀ y ∈ out, x.editDistance = y.editDistance → x.second = y.second →
          x = y) → b = a)) :=
  C15_best_agrees_up_to_ties zeroMem true suggestCatCar
    (Tri.insertAll_built [([99, 97, 116], 1), ([99, 97, 114], 2)] _ _ Tri.Built.empty rfl)
    [99, 97]

/-- C16 fails on the code: with the dictionary `{cat: 1.0, car: 2.0, bat: 1.5}` and cutoff 1,
the search for `cat` reports all three words with distance 1, `best(cat)` is `car` and
`all(cat)` is `[car, bat, cat]`. -/
theorem C16_scenario_one :
    suggestCatCarBat.best zeroMem true [99, 97, 116] = some [99, 97, 114] ∧
    suggestCatCarBat.all zeroMem true [99, 97, 116] =
      some [[99, 97, 114], [98, 97, 116], [99, 97, 116]] := by
  constructor
  · unfold Suggest.best
    rw [find_catCarBat_cat]
    norm_num [maxElement, List.foldl, cmpTolerantResult]
  · unfold Suggest.all Suggest.ranked
    rw [find_catCarBat_cat]
    norm_num [stdSort, List.foldl, sortInsert, cmpTolerantResult]

/-- C17, as stated, fails: with the dictionary `{hello: 0.1, help: 0.9}` and cutoff 2,
`all(hlp)` is not `[help, hello]`. -/
theorem C17_scenario_five_counterexample :
    suggestHelloHelp.all zeroMem true [104, 108, 112] ≠
      some [[104, 101, 108, 112], [104, 101, 108, 108, 111]] := by
  unfold Suggest.all Suggest.ranked
  rw [find_helloHelp_hlp]
  norm_num [stdSort, List.foldl, sortInsert, cmpTolerantResult]

/-- C17, amended. Concrete scenario 5: with the dictionary `{hello: 0.1, help: 0.9}` and
cutoff 2, `best(hlp)` returns `help` and `all(hlp)` returns exactly `[help]`. -/
theorem C17_scenario_five :
    suggestHelloHelp.best zeroMem true [104, 108, 112] = some [104, 101, 108, 112] ∧
    suggestHelloHelp.all zeroMem true [104, 108, 112] = some [[104, 101, 108, 112]] := by
  constructor
  · unfold Suggest.best
    rw [find_helloHelp_hlp]
    rfl
  · unfold Suggest.all Suggest.ranked
    rw [find_helloHelp_hlp]
    rfl

/-! ## Corpus parsers: claims -/

/-- Claim C21, as the code behaves: `ProbabilityCorpusParser::parseLine` does not accept
exactly the lines `WORD TAB NUMBER` of the grammar and does not fail with `ParseError`
only. The line made of a tab and `1.5`, whose word is empty, is accepted with the empty
word and the value of `1.5`, which is 3/2; and the line `foo`, tab, `-` is rejected with the
`std::invalid_argument` of `std::stod`, which is not a `ParseError`. -/
theorem C21_grammar_not_enforced :
    ProbabilityCorpusParser.parseLine ⟨"corpus", 0⟩ [9, 49, 46, 53] =
        Except.ok (⟨"corpus", 1⟩, ([], decimalValue false [49] [53])) ∧
      decimalValue false [49] [53] = 3 / 2 ∧
      ProbabilityCorpusParser.parseLine ⟨"corpus", 0⟩ [102, 111, 111, 9, 45] =
        Except.error CorpusError.invalidArgument := by
  refine ⟨?_, ?_, ?_⟩
  · have h := ProbabilityCorpusParser.parseLine_numberText ⟨"corpus", 0⟩ false [] [49]
      [46, 53] [53] (by decide) (by decide) (by decide) (by decide) (Or.inr rfl)
    rw [doubleOf_one_and_half] at h
    exact h
  · norm_num [decimalValue, Nat.ofDigits]
  · rfl

/-- Claim C23, as the code behaves: on every line made of alphabetic bytes, a tab, an
optional `-` and one or more digits, with no dot and no fractional digits,
`ProbabilityCorpusParser::parseLine` raises no `ParseError`: the loop ends in the state
`preDot` and the state is not checked after the loop, so the digits go to `std::stod`. The
call returns the pair of the word and the `double` of the digits, or ends with the
`std::out_of_range` of `std::stod`; when the number of the digits is below `2 ^ 53` the
call returns the pair of the word and that number. -/
theorem C23_no_fraction_accepted (d : CorpusParserData) (negative : Bool)
    (w whole : List Nat) (hw : ∀ c ∈ w, isalpha c = true) (hne : whole ≠ [])
    (hwhole : ∀ c ∈ whole, isdigit c = true) :
    ProbabilityCorpusParser.parseLine d
          (w ++ 9 :: ((if negative then [45] else []) ++ whole)) =
        (match doubleOf negative whole [] with
        | none => Except.error CorpusError.outOfRange
        | some x => Except.ok (d.consume, (w, x))) ∧
      (Nat.ofDigits 10 (whole.reverse.map fun c => c - 48) < 2 ^ 53 →
        ProbabilityCorpusParser.parseLine d
            (w ++ 9 :: ((if negative then [45] else []) ++ whole)) =
          Except.ok (d.consume, (w, decimalValue negative whole []))) := by
  have h := ProbabilityCorpusParser.parseLine_numberText d negative w whole [] [] hw hne
    hwhole (by simp) (Or.inl ⟨rfl, rfl⟩)
  rw [List.append_nil] at h
  refine ⟨h, fun hval => ?_⟩
  rw [h, doubleOf_whole negative whole hval]

/-- Witness for C23: the line `foo`, tab, `1` gives the word `foo` and the value 1. -/
theorem C23_no_fraction_accepted_witness :
    ProbabilityCorpusParser.parseLine ⟨"corpus", 0⟩ [102, 111, 111, 9, 49] =
        Except.ok (⟨"corpus", 1⟩, ([102, 111, 111], decimalValue false [49] [])) ∧
      decimalValue false [49] [] = 1 :=
  ⟨(C23_no_fraction_accepted ⟨"corpus", 0⟩ false [102, 111, 111] [49] (by decide) (by decide)
    (by decide)).2 (by norm_num [Nat.ofDigits]), by norm_num [decimalValue, Nat.ofDigits]⟩

/-- Claim C24: on every line that contains no tab, and on every line whose text after the
first tab starts with `.`, `ProbabilityCorpusParser::parseLine` raises a `ParseError`,
which carries the file name and the count of the lines parsed. -/
theorem C24_tab_and_integer_part (d : CorpusParserData) (line : List Nat)
    (h : 9 ∉ line ∨ ∃ pre rest, 9 ∉ pre ∧ line = pre ++ 9 :: 46 :: rest) :
    ∃ msg, ProbabilityCorpusParser.parseLine d line =
      Except.error (CorpusError.parseError d.corpusFilename d.consume.linesConsumed msg) := by
  unfold ProbabilityCorpusParser.parseLine
  rcases h with h | ⟨pre, rest, hpre, rfl⟩
  · have := ProbabilityCorpusParser.loop_noTab d.consume line [] line.length line.length 0 h
    rw [List.append_nil] at this
    rcases this with ⟨msg, hmsg⟩ | hok
    · exact ⟨msg, by rw [hmsg]; rfl⟩
    · rw [hok, ProbabilityCorpusParser.loop]
      exact ⟨_, by simp only [true_or, if_true]; rfl⟩
  · rcases ProbabilityCorpusParser.loop_noTab d.consume pre (9 :: 46 :: rest)
        (pre ++ 9 :: 46 :: rest).length (pre ++ 9 :: 46 :: rest).length 0 hpre with
      ⟨msg, hmsg⟩ | hok
    · exact ⟨msg, by rw [hmsg]; rfl⟩
    · rw [hok, ProbabilityCorpusParser.loop, if_neg (by decide), if_pos rfl,
        ProbabilityCorpusParser.loop, if_neg (by decide), if_pos (by decide)]
      exact ⟨_, rfl⟩

/-- Witness for C24: the line `foo` and the line `foo`, tab, `.5`. -/
theorem C24_tab_and_integer_part_witness :
    (∃ msg, ProbabilityCorpusParser.parseLine ⟨"corpus", 0⟩ [102, 111, 111] =
      Except.error (CorpusError.parseError "corpus" 1 msg)) ∧
    (∃ msg, ProbabilityCorpusParser.parseLine ⟨"corpus", 0⟩ [102, 111, 111, 9, 46, 53] =
      Except.error (CorpusError.parseError "corpus" 1 msg)) :=
  ⟨C24_tab_and_integer_part ⟨"corpus", 0⟩ [102, 111, 111] (Or.inl (by decide)),
    C24_tab_and_integer_part ⟨"corpus", 0⟩ [102, 111, 111, 9, 46, 53]
      (Or.inr ⟨[102, 111, 111], [53], by decide, rfl⟩)⟩

/-- Claim C25: `SimpleCorpusParser::parseLine` returns the pair of the line and 1.0 when
every byte of the line is alphabetic, and raises a `ParseError` otherwise; in both cases
it counts the line. -/
theorem C25_simple_mode (d : CorpusParserData) (line : List Nat) :
    SimpleCorpusParser.parseLine d line =
      if ∀ c ∈ line, isalpha c = true then Except.ok (d.consume, (line, 1))
      else Except.error (CorpusError.parseError d.corpusFilename d.consume.linesConsumed
        "Encountered unexpected '' while trying to parse a word.") := by
  unfold SimpleCorpusParser.parseLine
  by_cases h : ∀ c ∈ line, isalpha c = true
  · rw [if_pos h, SimpleCorpusParser.loop_ok _ _ h]
  · rw [if_neg h, SimpleCorpusParser.loop_error _ _ (by
      push_neg at h
      obtain ⟨c, hc, hca⟩ := h
      exact ⟨c, hc, by simpa using hca⟩)]
    rfl

/-- Claim C26, as the code behaves: the number in the `ParseError` of `_readCorpus` is the
count of the lines handed to the parser, and blank lines are not handed to it. For the
corpus of the lines `foo`, a blank line and `b4r` in simple mode, the malformed line is
line 3 of the file and the error names line 2; and with any number `k` of blank lines
before a malformed first word, the error names line 1. -/
theorem C26_blank_lines_not_counted :
    Suggest.readCorpus SimpleCorpusParser.parseLine "corpus"
        [[102, 111, 111], [], [98, 52, 114]] =
      Except.error (CorpusError.parseError "corpus" 2
        "Encountered unexpected '' while trying to parse a word.") ∧
    ∀ k : Nat, Suggest.readCorpus SimpleCorpusParser.parseLine "corpus"
        (List.replicate k [] ++ [[98, 52, 114]]) =
      Except.error (CorpusError.parseError "corpus" 1
        "Encountered unexpected '' while trying to parse a word.") := by
  refine ⟨rfl, fun k => ?_⟩
  unfold Suggest.readCorpus
  induction k with
  | zero => rfl
  | succ k ih =>
    rw [List.replicate_succ, List.cons_append, Suggest.readLines, if_pos rfl]
    exact ih

/-! ## Command line: claims -/

/-- Claim C27: for every flag text that `parseCmdLineArgs` accepts, the parameters have
exactly one of `all` and `best` and exactly one of `probability` and `simple`; `best` is
set exactly when the text contains `b`, `simple` exactly when it contains `s`; and the
cutoff is the digit after the last `e`, or 1 when the text has no `e`. -/
theorem C27_flag_semantics (token : List Nat) (p : param_t)
    (h : parseCmdLineArgs token = Except.ok p) : FlagSemantics token p := by
  cases token with
  | nil =>
    cases h
    refine ⟨by decide, by decide, by decide, by decide, fun _ => rfl, ?_⟩
    intro pre e post hsplit
    simp at hsplit
  | cons d rest =>
    by_cases hd : d = 45
    · subst hd
      rw [parseCmdLineArgs_dash] at h
      cases hfc : flagCount rest with
      | none =>
        obtain ⟨e, he⟩ := parametersLoop_reject rest 0 1 0 hfc
        rw [he] at h
        cases h
      | some k =>
        by_cases hk : k = 0 ∨ 0 + k ≤ 5
        · obtain ⟨g, c, hg, hg16, hg2, hg8, hc, hpre⟩ :=
            parametersLoop_accept rest 0 1 0 k hfc hk (by decide)
          rw [hg] at h
          cases h
          obtain ⟨n1, n2, n3, n4⟩ := param_new_flags c g hg16
          refine ⟨n1, n2, ?_, ?_, ?_, ?_⟩
          · rw [n3, hg2]
            simp
          · rw [n4, hg8]
            simp
          · intro he
            exact hc fun hr => he (List.mem_cons_of_mem _ hr)
          · intro pre e post hsplit hpost
            cases pre with
            | nil =>
              simp only [List.nil_append, List.cons.injEq] at hsplit
              exact absurd hsplit.1 (by decide)
            | cons q pre1 =>
              simp only [List.cons_append, List.cons.injEq] at hsplit
              exact hpre pre1 e post hsplit.2 hpost
        · rw [parametersLoop_overflow rest 0 1 0 k hfc (by omega) (by omega)] at h
          cases h
    · rw [parseCmdLineArgs_cons, if_pos hd] at h
      cases h

/-- Witness for C27: the text `-apbe2` gives `best` and `probability` (flags 2 + 4) and
the cutoff 2; the empty text gives `all` and `probability` (flags 1 + 4) and the
cutoff 1. -/
theorem C27_flag_semantics_witness :
    (parseCmdLineArgs [45, 97, 112, 98, 101, 50] = Except.ok ⟨6, 2, ""⟩ ∧
      FlagSemantics [45, 97, 112, 98, 101, 50] ⟨6, 2, ""⟩) ∧
    (parseCmdLineArgs [] = Except.ok ⟨5, 1, ""⟩ ∧ FlagSemantics [] ⟨5, 1, ""⟩) :=
  ⟨⟨rfl, C27_flag_semantics [45, 97, 112, 98, 101, 50] ⟨6, 2, ""⟩ rfl⟩,
    ⟨rfl, C27_flag_semantics [] ⟨5, 1, ""⟩ rfl⟩⟩

/-- Claim C28: `parseCmdLineArgs` fails with an error on every text that is not empty and
does not start with `-`, on every text whose bytes after the dash are not all letters
`a`, `b`, `p`, `s` or pairs of `e` and a decimal digit, and on every text in which an
`e` is the last byte or stands before a byte that is no digit. -/
theorem C28_malformed_rejected (token : List Nat)
    (h : (∃ c rest, token = c :: rest ∧ c ≠ 45) ∨
      (∃ rest, token = 45 :: rest ∧ flagCount rest = none) ∨
      (∃ pre, token = pre ++ [101]) ∨
      (∃ pre c post, token = pre ++ 101 :: c :: post ∧ isdigit c = false)) :
    ∃ e, parseCmdLineArgs token = Except.error e := by
  have first : ∀ c rest, c ≠ 45 → ∃ e, parseCmdLineArgs (c :: rest) = Except.error e := by
    intro c rest hc
    exact ⟨ArgError.malformed, by rw [parseCmdLineArgs_cons, if_pos hc]⟩
  have second : ∀ rest, flagCount rest = none →
      ∃ e, parseCmdLineArgs (45 :: rest) = Except.error e := by
    intro rest hr
    obtain ⟨e, he⟩ := parametersLoop_reject rest 0 1 0 hr
    exact ⟨e, by rw [parseCmdLineArgs_dash, he]⟩
  have third : ∀ pre tail, (tail = [] ∨ ∃ c post, tail = c :: post ∧ isdigit c = false) →
      ∃ e, parseCmdLineArgs (pre ++ 101 :: tail) = Except.error e := by
    intro pre tail htail
    cases pre with
    | nil => exact first 101 tail (by decide)
    | cons d pre1 =>
      by_cases hd : d = 45
      · subst hd
        exact second _ (flagCount_bad_edit pre1 tail htail)
      · exact first d _ hd
  rcases h with ⟨c, rest, rfl, hc⟩ | ⟨rest, rfl, hr⟩ | ⟨pre, rfl⟩ | ⟨pre, c, post, rfl, hc⟩
  · exact first c rest hc
  · exact second rest hr
  · exact third pre [] (Or.inl rfl)
  · exact third pre (c :: post) (Or.inr ⟨c, post, rfl, hc⟩)

/-- Witness for C28: the text `-aps e2` with a space, the text `-e`, and the text `a`
without a dash. -/
theorem C28_malformed_rejected_witness :
    (∃ e, parseCmdLineArgs [45, 97, 112, 115, 32, 101, 50] = Except.error e) ∧
    (∃ e, parseCmdLineArgs [45, 101] = Except.error e) ∧
    (∃ e, parseCmdLineArgs [97] = Except.error e) :=
  ⟨C28_malformed_rejected [45, 97, 112, 115, 32, 101, 50]
      (Or.inr (Or.inl ⟨[97, 112, 115, 32, 101, 50], rfl, by decide⟩)),
    C28_malformed_rejected [45, 101] (Or.inr (Or.inr (Or.inl ⟨[45], rfl⟩))),
    C28_malformed_rejected [97] (Or.inl ⟨97, [], rfl, by decide⟩)⟩

/-- Claim C29: a text made of a dash and `k` flags, each a letter `a`, `b`, `p`, `s` or a
pair of `e` and a digit, is accepted by `parseCmdLineArgs` when `k` is at most five and
rejected, with the error "Too many flags.", when `k` is six or more. -/
theorem C29_flag_count_limit (rest : List Nat) (k : Nat) (h : flagCount rest = some k) :
    (k ≤ 5 → ∃ p, parseCmdLineArgs (45 :: rest) = Except.ok p) ∧
    (6 ≤ k → parseCmdLineArgs (45 :: rest) = Except.error ArgError.tooMany) := by
  constructor
  · intro hk
    obtain ⟨g, c, hg, _⟩ := parametersLoop_accept rest 0 1 0 k h (Or.inr (by omega))
      (by decide)
    exact ⟨_, by rw [parseCmdLineArgs_dash, hg]⟩
  · intro hk
    rw [parseCmdLineArgs_dash, parametersLoop_overflow rest 0 1 0 k h (by omega) (by omega)]

/-- Witness for C29: the five flags of `-abpse1` are accepted and the six flags of
`-abpsae1` are rejected. -/
theorem C29_flag_count_limit_witness :
    (∃ p, parseCmdLineArgs [45, 97, 98, 112, 115, 101, 49] = Except.ok p) ∧
    parseCmdLineArgs [45, 97, 98, 112, 115, 97, 101, 49] = Except.error ArgError.tooMany :=
  ⟨(C29_flag_count_limit [97, 98, 112, 115, 101, 49] 5 (by decide)).1 (by decide),
    (C29_flag_count_limit [97, 98, 112, 115, 97, 101, 49] 6 (by decide)).2 (by decide)⟩

/-! ## The successor rule: claim -/

/-- Claim C30, as the code behaves: for a frame whose cursor is past the end of the query,
`feedStack` pushes a deletion frame although the rule pushes it only when `cursor < n`.
On the dictionary with the one word `abc`, the query `x` and the cutoff 3, the frame
(state 2, 2 edits, cursor 2, candidate `ab`) is on the stack, after two substitutions,
and its pushes are the deletion frame (state 2, 3 edits, cursor 3, candidate `ab`), the
substitution frame and the insertion frame, while the rule gives the last two only. -/
theorem C30_deletion_past_end :
    Pushed ⟨[120], 3, zeroMem, true⟩ triAbc.v ⟨triAbc.v.getD 2 State.new, 2, 2, 2, [97, 98]⟩ ∧
    successors ⟨[120], 3, zeroMem, true⟩ triAbc.v ⟨triAbc.v.getD 2 State.new, 2, 2, 2, [97, 98]⟩ =
      [⟨triAbc.v.getD 3 State.new, 3, 3, 2, [97, 98, 99]⟩,
        ⟨triAbc.v.getD 3 State.new, 3, 3, 3, [97, 98, 99]⟩,
        ⟨triAbc.v.getD 2 State.new, 2, 3, 3, [97, 98]⟩] ∧
    ruleFrames ⟨[120], 3, zeroMem, true⟩ triAbc.v ⟨triAbc.v.getD 2 State.new, 2, 2, 2, [97, 98]⟩ =
      [⟨triAbc.v.getD 3 State.new, 3, 3, 3, [97, 98, 99]⟩,
        ⟨triAbc.v.getD 3 State.new, 3, 3, 2, [97, 98, 99]⟩] := by
  refine ⟨?_, by decide, by decide⟩
  have s1 : (⟨triAbc.v.getD 1 State.new, 1, 1, 1, [97]⟩ : Item) ∈
      successors ⟨[120], 3, zeroMem, true⟩ triAbc.v (initialItem 0 triAbc.v) := by decide
  have s2 : (⟨triAbc.v.getD 2 State.new, 2, 2, 2, [97, 98]⟩ : Item) ∈
      successors ⟨[120], 3, zeroMem, true⟩ triAbc.v ⟨triAbc.v.getD 1 State.new, 1, 1, 1, [97]⟩ := by
    decide
  exact (Relation.ReflTransGen.single s1).tail s2

/-! ## Claims on the search loop and on the invariants of the trie -/

/-- Claim C31: on every trie built from the empty trie by inserts, for every query and
every cutoff, the pop-and-expand loop of `tolerantFindWith` ends after at most
`searchFuel` pops: with that much fuel or more it leaves the same hit table, the packaging
of the table does not fail, and `tolerantFind` returns a result. -/
theorem C31_termination {V : Type} (t : Tri V) (hb : t.Built) (mem : Nat → Nat) (sc : Bool)
    (q : List Nat) (c : Nat) :
    ∃ R out,
      (∀ fuel, searchFuel t.v c ≤ fuel →
        searchLoop ⟨q, c, mem, sc⟩ t.v fuel [initialItem 0 t.v] [] = some R) ∧
      packageResults t.values R = some out ∧ t.tolerantFind mem sc q c = some out := by
  obtain ⟨R, hR⟩ := searchLoop_initial t hb.wf.struct ⟨q, c, mem, sc⟩
  obtain ⟨out, ho⟩ := packageResults_isSome t.values R
    (searchLoop_values t hb.wf _ _ R hR)
  refine ⟨R, out, fun fuel hf => searchLoop_fuel_le _ _ _ fuel _ _ _ hR hf, ho, ?_⟩
  unfold Tri.tolerantFind Tri.tolerantFindWith
  simp only [] at hR
  rw [hR]
  exact ho

/-- Witness of C31 on the trie holding `cat` and `car`, the query `c?x`, whose second byte
labels no transition, and cutoff 2. -/
theorem C31_termination_witness :
    ∃ R out,
      (∀ fuel, searchFuel catCar.v 2 ≤ fuel →
        searchLoop ⟨[99, 63, 120], 2, zeroMem, true⟩ catCar.v fuel [initialItem 0 catCar.v] [] =
          some R) ∧
      packageResults catCar.values R = some out ∧
      catCar.tolerantFind zeroMem true [99, 63, 120] 2 = some out :=
  C31_termination catCar
    (Tri.insertAll_built [([99, 97, 116], 1), ([99, 97, 114], 2)] _ _ Tri.Built.empty rfl)
    zeroMem true [99, 63, 120] 2

/-- Claim C32, as the code behaves: the cursor of an item on the stack can be past the
end of the query. On the trie holding `cat` and `car`, the query `c` (n = 1) and
cutoff 1, the item (state 2, 1 edit, cursor 2, candidate `ca`) is pushed, by a
substitution at cursor 1 = n; and when it is expanded, the byte at offset 2, behind the
query, is read: with the byte `t` there, the NoOp item for `cat` is pushed. -/
theorem C32_cursor_past_end :
    Pushed ⟨[99], 1, fun _ => 116, true⟩ catCar.v ⟨catCar.v.getD 2 State.new, 2, 1, 2, [99, 97]⟩ ∧
    ¬ (2 ≤ [99].length) ∧
    successors ⟨[99], 1, fun _ => 116, true⟩ catCar.v
        ⟨catCar.v.getD 2 State.new, 2, 1, 2, [99, 97]⟩ =
      [⟨catCar.v.getD 3 State.new, 3, 1, 3, [99, 97, 116]⟩] ∧
    successors ⟨[99], 1, zeroMem, true⟩ catCar.v ⟨catCar.v.getD 2 State.new, 2, 1, 2, [99, 97]⟩ =
      [] := by
  refine ⟨?_, by decide, by decide, by decide⟩
  have s1 : (⟨catCar.v.getD 1 State.new, 1, 0, 1, [99]⟩ : Item) ∈
      successors ⟨[99], 1, fun _ => 116, true⟩ catCar.v (initialItem 0 catCar.v) := by decide
  have s2 : (⟨catCar.v.getD 2 State.new, 2, 1, 2, [99, 97]⟩ : Item) ∈
      successors ⟨[99], 1, fun _ => 116, true⟩ catCar.v ⟨catCar.v.getD 1 State.new, 1, 0, 1, [99]⟩ := by
    decide
  exact (Relation.ReflTransGen.single s1).tail s2

/-- Claim C33: in every trie built from the empty trie by inserts, every transition leads
to a state whose index is below the number of states and above the index of its source,
every state other than state 0 has exactly one incoming transition, and every state is
reached from state 0. -/
theorem C33_wellformed {V : Type} (t : Tri V) (hb : t.Built) :
    (∀ s c d, t.delta s c = some d → s < d ∧ d < t.v.length) ∧
    (∀ d, 0 < d → d < t.v.length →
      ∃ s c, t.delta s c = some d ∧ ∀ s1 c1, t.delta s1 c1 = some d → s1 = s ∧ c1 = c) ∧
    (∀ s, s < t.v.length → ∃ p, t.getWalk 0 p = some s) := by
  refine ⟨hb.wf.struct.edge_lt, ?_, hb.allReach⟩
  intro d h0 hd
  obtain ⟨s, c, hsc⟩ := t.incoming hb.allReach d h0 hd
  exact ⟨s, c, hsc, fun s1 c1 h1 => hb.wf.struct.edge_inj s1 c1 s c d h1 hsc⟩

/-- Witness of C33 on the trie holding `cat` and `car`. -/
theorem C33_wellformed_witness :
    (∀ s c d, catCar.delta s c = some d → s < d ∧ d < catCar.v.length) ∧
    (∀ d, 0 < d → d < catCar.v.length →
      ∃ s c, catCar.delta s c = some d ∧
        ∀ s1 c1, catCar.delta s1 c1 = some d → s1 = s ∧ c1 = c) ∧
    (∀ s, s < catCar.v.length → ∃ p, catCar.getWalk 0 p = some s) :=
  C33_wellformed catCar
    (Tri.insertAll_built [([99, 97, 116], 1), ([99, 97, 114], 2)] _ _ Tri.Built.empty rfl)

/-- Claim C34: in every trie built from the empty trie by inserts, a state has an entry in
the values map exactly when its end flag is set; so `unsafeGet` finds a value whenever the
key leads to an end state, and every entry of the hit table of a search has a value, by
which the packaging of the results does not fail. -/
theorem C34_values_of_end_states {V : Type} (t : Tri V) (hb : t.Built) :
    (∀ s, (t.values s).isSome = true ↔ (t.stateAt s).endState = true) ∧
    (∀ key s, t.getWalk 0 key = some s → (t.stateAt s).endState = true →
      ∃ x, t.values s = some x ∧ t.unsafeGet key = some x) ∧
    (∀ mem sc q c R,
      searchLoop ⟨q, c, mem, sc⟩ t.v (searchFuel t.v c) [initialItem 0 t.v] [] = some R →
      (∀ e ∈ R, (t.values e.2.1).isSome = true) ∧
        ∃ out, packageResults t.values R = some out) := by
  refine ⟨fun s => (hb.wf.values_iff s).symm, ?_, ?_⟩
  · intro key s hw hend
    obtain ⟨x, hx⟩ := Option.isSome_iff_exists.mp ((hb.wf.values_iff s).mp hend)
    refine ⟨x, hx, ?_⟩
    unfold Tri.unsafeGet
    rw [hw]
    simp only [hend, if_true]
    exact hx
  · intro mem sc q c R hR
    have hv := searchLoop_values t hb.wf _ _ R hR
    exact ⟨hv, packageResults_isSome t.values R hv⟩

/-- Witness of C34 on the trie holding `cat` and `car`. -/
theorem C34_values_of_end_states_witness :
    (∀ s, (catCar.values s).isSome = true ↔ (catCar.stateAt s).endState = true) ∧
    (∀ key s, catCar.getWalk 0 key = some s → (catCar.stateAt s).endState = true →
      ∃ x, catCar.values s = some x ∧ catCar.unsafeGet key = some x) ∧
    (∀ mem sc q c R,
      searchLoop ⟨q, c, mem, sc⟩ catCar.v (searchFuel catCar.v c) [initialItem 0 catCar.v] [] =
        some R →
      (∀ e ∈ R, (catCar.values e.2.1).isSome = true) ∧
        ∃ out, packageResults catCar.values R = some out) :=
  C34_values_of_end_states catCar
    (Tri.insertAll_built [([99, 97, 116], 1), ([99, 97, 114], 2)] _ _ Tri.Built.empty rfl)

/-- Claim C35, as the code behaves: the order of exploration changes the hit table. On
the trie holding `a`, the query `a` and cutoff 1, the loop of the source leaves the entry
(`a`, distance 1), the loop that pushes the items of each expansion in the opposite order
leaves (`a`, distance 0), and so does the loop that takes the items first-in-first-out:
an entry of the table is never replaced by one with fewer edits. -/
theorem C35_order_changes_distance :
    searchLoop ⟨[97], 1, zeroMem, true⟩ triA.v (searchFuel triA.v 1) [initialItem 0 triA.v] [] =
      some [([97], (1, 1))] ∧
    searchLoopReversed ⟨[97], 1, zeroMem, true⟩ triA.v (searchFuel triA.v 1)
      [initialItem 0 triA.v] [] = some [([97], (1, 0))] ∧
    searchLoopFifo ⟨[97], 1, zeroMem, true⟩ triA.v (searchFuel triA.v 1)
      [initialItem 0 triA.v] [] = some [([97], (1, 0))] := by
  refine ⟨by decide, by decide, by decide⟩

/-- Claim C36: during a search, the entry that the hit table holds for a candidate is
never changed. Accepting items whose candidate has an entry leave the table as it is; the
final table has every entry of the table of any moment; and when the item on top of the
stack is accepting and the table has no entry for its candidate, the final table holds
the state and the edits of that item for the candidate. -/
theorem C36_first_write_wins (sr : Searcher) (v : List State) (fuel : Nat) (top : Item)
    (s : List Item) (r R : Results) (h : searchLoop sr v fuel (top :: s) r = some R) :
    (∀ g p, r.find g.candidate = some p → recordResult sr g r = r) ∧
    (∀ k p, r.find k = some p → R.find k = some p) ∧
    (top.accepting sr → r.find top.candidate = none →
      R.find top.candidate = some (top.state, top.editDistance)) := by
  refine ⟨?_, fun k p hk => searchLoop_find_some sr v fuel _ r R h k p hk, ?_⟩
  · intro g p hg
    rw [recordResult_eq, if_neg]
    rintro ⟨_, hn⟩
    rw [hn] at hg
    cases hg
  · intro hacc hn
    cases fuel with
    | zero => simp [searchLoop] at h
    | succ fuel =>
      rw [searchLoop_cons] at h
      exact searchLoop_find_some sr v fuel _ _ R h _ _ (recordResult_find_new sr top r hacc hn)

/-- Witness of C36 on the trie holding `a`, the query `a` and cutoff 1: with the
substitution item (1 edit) above the NoOp item (0 edits) on the stack, both accepting
with the candidate `a`, the final table holds distance 1 for `a`. -/
theorem C36_first_write_wins_witness :
    (∀ g p, Results.find [] g.candidate = some p →
      recordResult ⟨[97], 1, zeroMem, true⟩ g [] = []) ∧
    (∀ k p, Results.find [] k = some p → Results.find [([97], (1, 1))] k = some p) ∧
    (Item.accepting ⟨[97], 1, zeroMem, true⟩ ⟨triA.v.getD 1 State.new, 1, 1, 1, [97]⟩ →
      Results.find [] [97] = none →
      Results.find [([97], (1, 1))] [97] = some (1, 1)) :=
  C36_first_write_wins ⟨[97], 1, zeroMem, true⟩ triA.v 10 ⟨triA.v.getD 1 State.new, 1, 1, 1, [97]⟩
    [⟨triA.v.getD 1 State.new, 1, 0, 1, [97]⟩] [] [([97], (1, 1))] (by decide)

/-- Claim C37, as the code behaves: on a build whose `char` is signed, a key within the
optimal-string-alignment distance of the query is not returned when the alignment
transposes bytes from 128 on. The trie holds the key `110, 195, 169`; the query
`110, 169, 195` has the distance 1 to it, by the transposition of its last two bytes;
`tolerantFind` at cutoff 1 returns no candidate where `char` is signed, and the key where
`char` is unsigned. -/
theorem C37_high_bytes_not_transposed :
    triNe.Built ∧ triNe.unsafeGet [110, 195, 169] = some 1 ∧
    OSAWithin 1 [110, 169, 195] [110, 195, 169] ∧
    triNe.tolerantFind zeroMem true [110, 169, 195] 1 = some [] ∧
    triNe.tolerantFind zeroMem false [110, 169, 195] 1 = some [⟨[110, 195, 169], 1, 1⟩] :=
  ⟨Tri.Built.insert [110, 195, 169] 1 Tri.Built.empty rfl, by decide,
    ⟨1, le_refl _, OSA.keep 110 (OSA.transposition 169 195 OSA.nil)⟩, by decide, by decide⟩

/-- Claim C38: on every trie built from the empty trie by inserts, `tolerantFind(q, 0)`
returns the one result `(q, v, 0)` when `unsafeGet(q)` gives `v`, and no result when
`unsafeGet(q)` gives nothing. -/
theorem C38_cutoff_zero {V : Type} (t : Tri V) (hb : t.Built) (mem : Nat → Nat) (sc : Bool)
    (q : List Nat) :
    t.tolerantFind mem sc q 0 =
      some (match t.unsafeGet q with
        | some x => [⟨q, x, 0⟩]
        | none => []) := by
  obtain ⟨out, ho, _⟩ := Tri.tolerantFind_complete t hb.wf mem sc q 0
  rw [ho]
  have hall : ∀ r ∈ out, r.first = q ∧ r.editDistance = 0 ∧
      t.unsafeGet q = some r.second := by
    intro r hr
    have hs := t.tolerantFind_osa_sound mem sc q 0 out ho r hr
    have h0 : r.editDistance = 0 := by omega
    have hq : q = r.first := hs.1.eq_of_cost_zero h0
    have he := t.tolerantFind_entries hb.wf mem sc q 0 out ho r hr
    rw [← hq] at he
    exact ⟨hq.symm, h0, he⟩
  have hnd := t.tolerantFind_nodup mem sc q 0 out ho
  cases hg : t.unsafeGet q with
  | none =>
    cases out with
    | nil => rfl
    | cons r rest =>
      have := (hall r (List.mem_cons_self _ _)).2.2
      rw [hg] at this
      cases this
  | some x =>
    obtain ⟨out1, ho1, r0, hr0, _⟩ := t.tolerantFind_osa hb.wf mem sc q q 0 x hg
      ⟨0, le_refl _, OSA.refl q⟩ (fun _ => Or.inl rfl)
    rw [ho] at ho1
    cases ho1
    have heq : ∀ r ∈ out, r = ⟨q, x, 0⟩ := by
      intro r hr
      obtain ⟨h1, h2, h3⟩ := hall r hr
      rw [hg] at h3
      cases r
      simp only at h1 h2 h3
      cases h3
      subst h1 h2
      rfl
    cases out with
    | nil => cases hr0
    | cons r rest =>
      cases rest with
      | nil => rw [heq r (List.mem_cons_self _ _)]
      | cons r1 rest1 =>
        exfalso
        have e0 := heq r (List.mem_cons_self _ _)
        have e1 := heq r1 (List.mem_cons_of_mem _ (List.mem_cons_self _ _))
        rw [e0, e1] at hnd
        simp at hnd

/-- Witness of C38 on the dictionary `{a: 1.0, aa: 1.0}`: the query `b` gives no result
at cutoff 0. -/
theorem C38_cutoff_zero_witness : triAAa.tolerantFind zeroMem true [98] 0 = some [] :=
  C38_cutoff_zero triAAa
    (Tri.insertAll_built [([97], 1), ([97, 97], 1)] _ _ Tri.Built.empty rfl) zeroMem true [98]

/-- Claim C39: two tries built from the empty trie by inserting the same pairs with
pairwise distinct keys, in any two orders, agree on `unsafeGet` for every key and on
`tolerantFind` for every query and cutoff: the lists of results are the same. -/
theorem C39_insertion_order {V : Type} (kvs1 kvs2 : List (List Nat × V)) (t1 t2 : Tri V)
    (hperm : kvs1.Perm kvs2) (hd : (kvs1.map Prod.fst).Nodup)
    (h1 : (Tri.empty V).insertAll kvs1 = some t1)
    (h2 : (Tri.empty V).insertAll kvs2 = some t2) :
    (∀ k, t1.unsafeGet k = t2.unsafeGet k) ∧
    ∀ mem sc q c, t1.tolerantFind mem sc q c = t2.tolerantFind mem sc q c := by
  obtain ⟨sk, hget⟩ := Tri.sameKeys_of_insertAll kvs1 kvs2 t1 t2 hperm hd h1 h2
  have b1 := Tri.insertAll_built kvs1 _ t1 Tri.Built.empty h1
  have b2 := Tri.insertAll_built kvs2 _ t2 Tri.Built.empty h2
  exact ⟨hget, fun mem sc q c => sk.tolerantFind_eq b1.wf.struct b2.wf.struct mem sc q c⟩

/-- Witness of C39: `cat` and `car` inserted in the two orders give tries whose states are
numbered differently and that agree on `unsafeGet` and `tolerantFind`. -/
theorem C39_insertion_order_witness :
    ((∀ k, catCar.unsafeGet k = carCat.unsafeGet k) ∧
      ∀ mem sc q c, catCar.tolerantFind mem sc q c = carCat.tolerantFind mem sc q c) ∧
    catCar.v ≠ carCat.v :=
  ⟨C39_insertion_order [([99, 97, 116], 1), ([99, 97, 114], 2)]
      [([99, 97, 114], 2), ([99, 97, 116], 1)] catCar carCat (List.Perm.swap _ _ _)
      (by decide) rfl rfl, by decide⟩

/-- Claim C40: on a dictionary built by inserts, `all(q)` holds the candidates of the
results of `tolerantFind(q, cutoff)`, each once and no other string: it is a
rearrangement of the list of the candidates, has no repeated element, and is as long as
the list of results. -/
theorem C40_all_complete {V : Type} [LinearOrder V] (mem : Nat → Nat) (sc : Bool) (sg : Suggest V)
    (hb : sg.words.Built) (q : List Nat) :
    ∃ out l, sg.words.tolerantFind mem sc q sg.maxEditDistance = some out ∧
      sg.all mem sc q = some l ∧ l.Perm (out.map fun x => x.first) ∧ l.Nodup ∧
      l.length = out.length := by
  obtain ⟨out, ho, _⟩ := Tri.tolerantFind_complete sg.words hb.wf mem sc q sg.maxEditDistance
  have hall : sg.all mem sc q =
      some ((stdSort cmpTolerantResult out).reverse.map fun x => x.first) := by
    unfold Suggest.all Suggest.ranked
    rw [ho]
  have hp : ((stdSort cmpTolerantResult out).reverse.map fun x => x.first).Perm
      (out.map fun x => x.first) :=
    ((List.reverse_perm _).trans (stdSort_spec cmpTolerantResult cmpTolerantResult_asymm
      cmpTolerantResult_trans out).2).map _
  refine ⟨out, _, ho, hall, hp, ?_, ?_⟩
  · exact hp.nodup_iff.mpr (sg.words.tolerantFind_nodup mem sc q _ out ho)
  · rw [hp.length_eq, List.length_map]

/-- Witness of C40 on the dictionary `{cat: 1.0, car: 2.0}`, cutoff 1 and the
query `ca`. -/
theorem C40_all_complete_witness :
    ∃ out l, suggestCatCar.words.tolerantFind zeroMem true [99, 97]
        suggestCatCar.maxEditDistance = some out ∧
      suggestCatCar.all zeroMem true [99, 97] = some l ∧ l.Perm (out.map fun x => x.first) ∧
      l.Nodup ∧ l.length = out.length :=
  C40_all_complete zeroMem true suggestCatCar
    (Tri.insertAll_built [([99, 97, 116], 1), ([99, 97, 114], 2)] _ _ Tri.Built.empty rfl)
    [99, 97]

end Dym
